import Mathlib

set_option maxHeartbeats 1000000

/- Verification development for the NIX storage engine of python-neo
   (src/neo/io/nixio.py): a shallow embedding of the entity data model,
   the write path (write_block and its helpers), the read path
   (read_block, _nix_to_neo_block and its helpers), the content-hash
   function (_hash_object) and the annotation property codec
   (_write_property / _nix_attr_to_neo), together with theorems about
   identifier assignment, rewriting, hashing, reassembly and reading.

   Modelling conventions:
   - machine floats and numpy arrays hold abstract rational values;
   - physical units are carried as plain strings (unit conversion is an
     external collaborator, out of scope of the spec); rescaling is
     modelled only for equal unit strings and reports an error
     otherwise;
   - uuid4 hex generation is modelled as an injective fresh-name supply
     (a function from a counter to strings), threaded through the write;
   - Python object aliasing between a ChannelIndex and the signals or
     spike trains held by the segments of the same block is modelled by
     index references into the containment tree;
   - the MD5 digest is modelled as the exact stream of update calls fed
     to it (equal streams, equal digests). -/

/-! ## Strings: Python comparison and name splitting -/

abbrev Chars := List Char

/-- Python string comparison (element-wise on characters, ties broken by
    length), as used by sorted(key=lambda x: x.name). -/
def charsLt : Chars → Chars → Bool
  | [], [] => false
  | [], _ :: _ => true
  | _ :: _, [] => false
  | a :: as, b :: bs => if a < b then true else if b < a then false else charsLt as bs

def strLt (a b : String) : Bool := charsLt a.data b.data

/-- Stable insertion for Python sorted (ascending, stable). -/
def insertByName (key : α → String) (x : α) : List α → List α
  | [] => [x]
  | y :: ys => if strLt (key y) (key x) then y :: insertByName key x ys else x :: y :: ys

/-- Python sorted(xs, key=...): stable ascending sort by a string key. -/
def sortByName (key : α → String) (xs : List α) : List α :=
  xs.foldr (insertByName key) []

/-- name.split(".") on the character list. -/
def splitDot : Chars → List Chars
  | [] => [[]]
  | c :: cs =>
    if c = '.' then [] :: splitDot cs
    else
      match splitDot cs with
      | [] => [[c]]
      | g :: gs => (c :: g) :: gs

/-- ".".join on character lists. -/
def joinDot : List Chars → Chars
  | [] => []
  | [g] => g
  | g :: gs => g ++ '.' :: joinDot gs

/-- ".".join(name.split(".")[:-1]): the base name of a suffixed data
    array name, as computed by NixIO._group_signals. -/
def basename (s : String) : String :=
  String.mk (joinDot ((splitDot s.data).dropLast))

/-- "base.idx" suffixed physical names for signal data arrays. -/
def suffixed (base : String) (idx : ℕ) : String :=
  base ++ "." ++ toString idx

/-! ## Matrices -/

/-- Column j of a rectangular matrix stored as a list of rows. -/
def colAt (m : List (List ℚ)) (j : ℕ) : List ℚ :=
  m.map (fun row => row.getD j 0)

/-- np.transpose on a rectangular 2-d array of samples. -/
def transposeRect (m : List (List ℚ)) : List (List ℚ) :=
  match m with
  | [] => []
  | r :: _ => (List.range r.length).map (colAt m)

/-! ## Metadata values and properties (the store's typed metadata) -/

inductive NixValue
  | vstr (s : String)
  | vnum (q : ℚ)
  deriving DecidableEq, Repr

structure NixProp where
  values : List NixValue
  unit : Option String := none
  deriving DecidableEq, Repr

/-- Neo-side annotation values: strings, numbers, scalar and array
    physical quantities, and (possibly nested) containers. -/
inductive AnnValue
  | astr (s : String)
  | anum (q : ℚ)
  | aquantS (mag : ℚ) (unit : String)
  | aquantL (mags : List ℚ) (unit : String)
  | alist (items : List AnnValue)

abbrev Annotations := List (String × AnnValue)

def alookup (l : List (String × α)) (k : String) : Option α :=
  match l with
  | [] => none
  | (k0, v) :: rest => if k0 = k then some v else alookup rest k

/-- Insert or overwrite a key, keeping the position of an existing key
    (Python dict assignment semantics). -/
def aset (l : List (String × α)) (k : String) (v : α) : List (String × α) :=
  match l with
  | [] => [(k, v)]
  | (k0, v0) :: rest => if k0 = k then (k0, v) :: rest else (k0, v0) :: aset rest k v

/-- Outcome of NixIO._write_property on one value. -/
inductive PropResult
  | written (p : NixProp)
  | droppedWarn
  | crashed
  deriving DecidableEq, Repr

/-- The item loop of NixIO._write_property for an iterable value: plain
    numbers become values, a scalar quantity item sets the pending unit,
    an iterable item (a string or a nested container) logs a warning and
    drops the whole value, and a multi-element quantity item makes
    magnitude.item() raise (an uncaught error). -/
def writePropItems : List AnnValue → List NixValue → Option String → PropResult
  | [], acc, u => .written ⟨acc, u⟩
  | .anum q :: rest, acc, u => writePropItems rest (acc ++ [.vnum q]) u
  | .aquantS m qu :: rest, acc, _ => writePropItems rest (acc ++ [.vnum m]) (some qu)
  | .aquantL mags qu :: rest, acc, _ =>
    if mags.length = 1 then writePropItems rest (acc ++ [.vnum (mags.headD 0)]) (some qu)
    else .crashed
  | .astr _ :: _, _, _ => .droppedWarn
  | .alist _ :: _, _, _ => .droppedWarn

/-- NixIO._write_property: convert one annotation value into a metadata
    property (or drop it with a warning, or crash). -/
def writeProperty : AnnValue → PropResult
  | .aquantS mag u => .written ⟨[.vnum mag], some u⟩
  | .aquantL mags u => .written ⟨mags.map .vnum, some u⟩
  | .astr s => .written ⟨[.vstr s], none⟩
  | .anum q => .written ⟨[.vnum q], none⟩
  | .alist items => writePropItems items [] none

def toQ : NixValue → Option ℚ
  | .vnum q => some q
  | .vstr _ => none

def toAnnScalar : NixValue → AnnValue
  | .vnum q => .anum q
  | .vstr s => .astr s

/-- The per-property part of NixIO._nix_attr_to_neo: a property with a
    unit becomes a quantity, and a value list of length one collapses to
    a scalar. -/
def readProp (p : NixProp) : Option AnnValue :=
  match p.unit with
  | some u =>
    match p.values.mapM toQ with
    | none => none
    | some qs =>
      if qs.length = 1 then some (.aquantS (qs.headD 0) u) else some (.aquantL qs u)
  | none =>
    match p.values with
    | [v] => some (toAnnScalar v)
    | vs => some (.alist (vs.map toAnnScalar))

/-! ## The store model (the NIX file as seen through nixio) -/

/-- A metadata section: flat store of all sections, each remembering the
    top-level section (the block) it lives under, so that deleting a
    block's section tree is a filter on rootName. -/
structure MDSec where
  id : ℕ
  name : String
  typ : String
  rootName : String
  props : List (String × NixProp) := []
  deriving DecidableEq, Repr

def findSec (secs : List MDSec) (i : ℕ) : Option MDSec :=
  secs.find? (fun s => s.id = i)

/-- Update the props of the section with the given id. -/
def setSecProp (secs : List MDSec) (i : ℕ) (k : String) (p : NixProp) : List MDSec :=
  secs.map (fun s => if s.id = i then { s with props := aset s.props k p } else s)

inductive Dimension
  | sampled (interval : ℚ) (unit : Option String) (offset : Option ℚ) (label : Option String)
  | range (ticks : List ℚ) (unit : Option String) (label : Option String)
  | setdim (labels : List String)
  deriving DecidableEq, Repr

inductive ArrData
  | d1 (xs : List ℚ)
  | d3 (xs : List (List (List ℚ)))
  deriving DecidableEq, Repr

structure DataArray where
  name : String
  typ : String
  data : ArrData
  unit : Option String := none
  definition : Option String := none
  mdId : Option ℕ := none
  dims : List Dimension := []
  deriving DecidableEq, Repr

structure MultiTag where
  name : String
  typ : String
  positionsName : String
  extentsName : Option String := none
  mdId : Option ℕ := none
  definition : Option String := none
  featuresNames : List String := []
  referencesNames : List String := []
  deriving DecidableEq, Repr

/-- A NIX Group (the physical container of a Segment); it holds
    references, by name, into the block's data arrays and multi tags. -/
structure NixGroup where
  name : String
  typ : String
  definition : Option String := none
  mdId : Option ℕ := none
  createdAt : ℤ := 0
  dataArrayNames : List String := []
  multiTagNames : List String := []
  deriving DecidableEq, Repr

/-- A NIX Source (ChannelIndex, per-channel child, or Unit); sources
    are stored flat with the parent source's name (none = directly under
    the block). -/
structure SrcNode where
  name : String
  typ : String
  parent : Option String := none
  definition : Option String := none
  mdId : Option ℕ := none
  deriving DecidableEq, Repr

structure NixBlock where
  name : String
  typ : String
  definition : Option String := none
  mdId : Option ℕ := none
  createdAt : ℤ := 0
  dataArrays : List DataArray := []
  multiTags : List MultiTag := []
  groups : List NixGroup := []
  sources : List SrcNode := []
  daSources : List (String × List String) := []
  mtSources : List (String × List String) := []
  deriving DecidableEq, Repr

structure NixFile where
  blocks : List NixBlock := []
  secs : List MDSec := []
  nextSec : ℕ := 0
  createdCount : ℕ := 0
  clock : ℤ := 0
  fresh : ℕ := 0
  deriving DecidableEq, Repr

/-! ## The Neo entity model -/

structure Quantity1 where
  mag : ℚ
  unit : String
  deriving DecidableEq, Repr

structure QuantityV where
  mags : List ℚ
  unit : String
  deriving DecidableEq, Repr

structure QuantityM where
  mags : List (List ℚ)
  unit : String
  deriving DecidableEq, Repr

structure Quantity3 where
  mags : List (List (List ℚ))
  unit : String
  deriving DecidableEq, Repr

structure AnalogSignal where
  name : Option String := none
  description : Option String := none
  annotations : Annotations := []
  signal : QuantityM
  sampling_period : Quantity1
  t_start : Quantity1

structure IrregularlySampledSignal where
  name : Option String := none
  description : Option String := none
  annotations : Annotations := []
  signal : QuantityM
  times : QuantityV

structure NeoEvent where
  name : Option String := none
  description : Option String := none
  annotations : Annotations := []
  times : QuantityV
  labels : List String := []

structure NeoEpoch where
  name : Option String := none
  description : Option String := none
  annotations : Annotations := []
  times : QuantityV
  durations : QuantityV
  labels : List String := []

structure SpikeTrain where
  name : Option String := none
  description : Option String := none
  annotations : Annotations := []
  times : QuantityV
  t_start : Quantity1
  t_stop : Quantity1
  waveforms : Option Quantity3 := none
  sampling_period : Option Quantity1 := none
  left_sweep : Option Quantity1 := none

/-- A Unit (spike cluster). Its member spike trains are the same Python
    objects held by the block's segments: aliasing is modelled by
    (segment index, spiketrain index) references. -/
structure NeoUnit where
  name : Option String := none
  description : Option String := none
  annotations : Annotations := []
  spiketrainRefs : List (ℕ × ℕ) := []

/-- A ChannelIndex (channel group). Member signals are aliased objects
    from the block's segments: (segment index, signal index) references. -/
structure ChannelIndex where
  name : Option String := none
  description : Option String := none
  annotations : Annotations := []
  index : List ℤ := []
  channel_names : List String := []
  channel_ids : List ℤ := []
  coordinates : Option (List (List Quantity1)) := none
  units : List NeoUnit := []
  analogsignalRefs : List (ℕ × ℕ) := []
  irregularsignalRefs : List (ℕ × ℕ) := []

structure NeoSegment where
  name : Option String := none
  description : Option String := none
  annotations : Annotations := []
  rec_datetime : Option ℤ := none
  file_datetime : Option ℤ := none
  analogsignals : List AnalogSignal := []
  irregularlysampledsignals : List IrregularlySampledSignal := []
  events : List NeoEvent := []
  epochs : List NeoEpoch := []
  spiketrains : List SpikeTrain := []

structure NeoBlock where
  name : Option String := none
  description : Option String := none
  annotations : Annotations := []
  rec_datetime : Option ℤ := none
  file_datetime : Option ℤ := none
  segments : List NeoSegment := []
  channel_indexes : List ChannelIndex := []

/-! ## The content hash (NixIO._hash_object)

    The MD5 digest is modelled as the exact stream of update calls fed
    to it: strupdate(a) hashes str(a) and dupdate(d) hashes the raw
    buffer of a numpy array or quantity, which holds the magnitudes
    only.  Two objects receive equal digests exactly when their update
    streams are equal (an idealisation of MD5 as injective). -/

inductive HToken
  | hstr (s : String)
  | hq (q : ℚ)
  | hqs (qs : List ℚ)
  | hqm (m : List (List ℚ))
  | hq3 (w : List (List (List ℚ)))
  deriving DecidableEq, Repr

/-- str(x) for an optional string attribute (str(None) = "None"). -/
def strOfOpt : Option String → String
  | none => "None"
  | some s => s

/-- str(x) for an optional timestamp attribute. -/
def optIntStr : Option ℤ → String
  | none => "None"
  | some t => toString t

def q1str (q : Quantity1) : String := toString q.mag ++ " " ++ q.unit

mutual

/-- str(v) for an annotation value (an abstract printer standing in for
    Python str; its exact spelling is irrelevant to the theorems). -/
def annValueStr : AnnValue → String
  | .astr s => s
  | .anum q => toString q
  | .aquantS m u => toString m ++ " " ++ u
  | .aquantL ms u => toString ms ++ " " ++ u
  | .alist items => "[" ++ annValueStrList items ++ "]"

def annValueStrList : List AnnValue → String
  | [] => ""
  | [x] => annValueStr x
  | x :: xs => annValueStr x ++ ", " ++ annValueStrList xs

end

/-- The update calls common to every entity kind: str(name),
    str(description), then the annotation map sorted by key. -/
def hashCommon (name description : Option String) (annotations : Annotations) :
    List HToken :=
  [.hstr (strOfOpt name), .hstr (strOfOpt description)] ++
    (sortByName (fun kv => kv.1) annotations).flatMap
      (fun kv => [.hstr kv.1, .hstr (annValueStr kv.2)])

/-- obj.sampling_rate for an AnalogSignal: 1 / sampling_period. -/
def samplingRate (a : AnalogSignal) : ℚ := 1 / a.sampling_period.mag

/-- obj.t_stop for an AnalogSignal: t_start + n_samples * period. -/
def tStopOf (a : AnalogSignal) : ℚ :=
  a.t_start.mag + a.signal.mags.length * a.sampling_period.mag

inductive NeoObjAny
  | blockA (b : NeoBlock)
  | segmentA (s : NeoSegment)
  | chxA (c : ChannelIndex)
  | unitA (u : NeoUnit)
  | asigA (a : AnalogSignal)
  | isigA (i : IrregularlySampledSignal)
  | eventA (e : NeoEvent)
  | epochA (e : NeoEpoch)
  | stA (s : SpikeTrain)

/-- The type-specific update calls of NixIO._hash_object.  A SpikeTrain
    whose sampling_rate is None makes hashlib.update raise, hence the
    Option.  Child containers (segments, signal lists, units, ...) are
    never consulted. -/
def hashSpecific : NeoObjAny → Option (List HToken)
  | .blockA b => some [.hstr (optIntStr b.rec_datetime), .hstr (optIntStr b.file_datetime)]
  | .segmentA s => some [.hstr (optIntStr s.rec_datetime), .hstr (optIntStr s.file_datetime)]
  | .chxA c =>
    some (c.index.map (fun i => .hstr (toString i)) ++
      c.channel_names.map (fun n => .hstr n) ++
      (match c.coordinates with
       | none => []
       | some rows => rows.flatMap (fun row => row.map (fun p => .hstr (q1str p)))))
  | .unitA _ => some []
  | .asigA a =>
    some [.hqm a.signal.mags, .hq 1, .hq a.t_start.mag, .hq (samplingRate a),
      .hq (tStopOf a)]
  | .isigA i => some [.hqm i.signal.mags, .hqs i.times.mags, .hq 1]
  | .eventA e => some ([.hqs e.times.mags] ++ e.labels.map (fun l => .hstr l))
  | .epochA e =>
    some ([.hqs e.times.mags, .hqs e.durations.mags] ++ e.labels.map (fun l => .hstr l))
  | .stA s =>
    match s.sampling_period with
    | none => none
    | some sp =>
      some ([.hqs s.times.mags, .hq 1, .hq s.t_stop.mag, .hq s.t_start.mag] ++
        (match s.waveforms with
         | none => []
         | some w => [.hq3 w.mags]) ++
        [.hq (1 / sp.mag)] ++
        (match s.left_sweep with
         | none => []
         | some ls => [.hstr (q1str ls)]))

def objName : NeoObjAny → Option String
  | .blockA b => b.name
  | .segmentA s => s.name
  | .chxA c => c.name
  | .unitA u => u.name
  | .asigA a => a.name
  | .isigA i => i.name
  | .eventA e => e.name
  | .epochA e => e.name
  | .stA s => s.name

def objDescription : NeoObjAny → Option String
  | .blockA b => b.description
  | .segmentA s => s.description
  | .chxA c => c.description
  | .unitA u => u.description
  | .asigA a => a.description
  | .isigA i => i.description
  | .eventA e => e.description
  | .epochA e => e.description
  | .stA s => s.description

def objAnnotations : NeoObjAny → Annotations
  | .blockA b => b.annotations
  | .segmentA s => s.annotations
  | .chxA c => c.annotations
  | .unitA u => u.annotations
  | .asigA a => a.annotations
  | .isigA i => i.annotations
  | .eventA e => e.annotations
  | .epochA e => e.annotations
  | .stA s => s.annotations

def objTypeName : NeoObjAny → String
  | .blockA _ => "Block"
  | .segmentA _ => "Segment"
  | .chxA _ => "ChannelIndex"
  | .unitA _ => "Unit"
  | .asigA _ => "AnalogSignal"
  | .isigA _ => "IrregularlySampledSignal"
  | .eventA _ => "Event"
  | .epochA _ => "Epoch"
  | .stA _ => "SpikeTrain"

/-- NixIO._hash_object: the full MD5 update stream of one entity. -/
def hashStream (o : NeoObjAny) : Option (List HToken) :=
  match hashSpecific o with
  | none => none
  | some specific =>
    some (hashCommon (objName o) (objDescription o) (objAnnotations o) ++
      specific ++ [.hstr (objTypeName o)])

/-! ## The write path (NixIO.write_block and its helpers)

    The write is modelled as a function threading an explicit state: the
    NIX block under construction, the flat section store, allocation
    counters, a clock for creation timestamps, the fresh-name counter of
    the uuid4 supply, and the per-write _signal_map.  Failures of the
    Python code (KeyError, IndexError, a store refusal) become errors of
    an Except monad. -/

inductive Err
  | keyError
  | indexError
  | typeError
  | valueError
  | nameError
  | storeError
  | unitMismatch
  | assertionError
  | attributeError
  deriving DecidableEq, Repr

structure WSt where
  blk : NixBlock
  secs : List MDSec
  nextSec : ℕ
  createdCount : ℕ
  clock : ℤ
  fresh : ℕ
  signalMap : List (String × List String) := []

/-- The value of an entity name written to the neo_name property
    (a name of None is written as the empty string). -/
def neoNameStr : Option String → String
  | none => ""
  | some s => s

/-- Quantity rescaling, modelled only for equal unit strings (unit
    conversion belongs to the external quantities collaborator). -/
def rescaleTo (q : Quantity1) (u : String) : Except Err ℚ :=
  if q.unit = u then .ok q.mag else .error .unitMismatch

/-- The ensure-identifier step shared by every writer: reuse the
    nix_name annotation when present, otherwise generate
    neo.<kind>.<hex> from the supply and attach it. -/
def ensureName (sup : ℕ → String) (kind : String) (annotations : Annotations)
    (st : WSt) : Except Err (String × Annotations × WSt) :=
  match alookup annotations "nix_name" with
  | some (.astr n) => .ok (n, annotations, st)
  | some _ => .error .typeError
  | none =>
    let n := "neo." ++ kind ++ "." ++ sup st.fresh
    .ok (n, aset annotations "nix_name" (.astr n), { st with fresh := st.fresh + 1 })

def stSetProp (st : WSt) (i : ℕ) (k : String) (p : NixProp) : WSt :=
  { st with secs := setSecProp st.secs i k p }

def stSetNeoName (st : WSt) (i : ℕ) (name : Option String) : WSt :=
  stSetProp st i "neo_name" ⟨[.vstr (neoNameStr name)], none⟩

/-- create_section: allocate a fresh section under the current block's
    section tree. -/
def stCreateSection (name typ : String) (st : WSt) : ℕ × WSt :=
  (st.nextSec,
   { st with
      secs := st.secs ++ [⟨st.nextSec, name, typ, st.blk.name, []⟩],
      nextSec := st.nextSec + 1 })

/-- create_data_array: the store refuses a duplicate name. -/
def stCreateDA (name typ : String) (data : ArrData) (unit defin : Option String)
    (mdId : Option ℕ) (dims : List Dimension) (st : WSt) : Except Err WSt :=
  if st.blk.dataArrays.any (fun d => d.name = name) then .error .storeError
  else
    .ok { st with
      blk := { st.blk with
        dataArrays := st.blk.dataArrays ++
          [⟨name, typ, data, unit, defin, mdId, dims⟩] },
      createdCount := st.createdCount + 1 }

def modifyGroup (gname : String) (f : NixGroup → NixGroup) (st : WSt) : WSt :=
  { st with
    blk := { st.blk with
      groups := st.blk.groups.map (fun g => if g.name = gname then f g else g) } }

def findGroup (st : WSt) (gname : String) : Option NixGroup :=
  st.blk.groups.find? (fun g => g.name = gname)

/-- The annotation loop of every writer: one _write_property call per
    key; a dropped value skips its key, a crash aborts the write. -/
def writeAnns (i : ℕ) : Annotations → WSt → Except Err WSt
  | [], st => .ok st
  | (k, v) :: rest, st =>
    match writeProperty v with
    | .written p => writeAnns i rest (stSetProp st i k p)
    | .droppedWarn => writeAnns i rest st
    | .crashed => .error .valueError

/-- The enumerate-until-miss loop collecting base.0, base.1, ... among
    existing names (fuelled by the store size; Python iterates
    itertools.count until the first miss). -/
def collectSuffixedGo (names : List String) (base : String) : ℕ → ℕ → List String
  | 0, _ => []
  | fuel + 1, idx =>
    let n := suffixed base idx
    if names.contains n then n :: collectSuffixedGo names base fuel (idx + 1) else []

def collectSuffixed (names : List String) (base : String) : List String :=
  collectSuffixedGo names base (names.length + 1) 0

def daNames (st : WSt) : List String := st.blk.dataArrays.map (fun d => d.name)

/-- The per-row loop of _write_analogsignal / _write_irregularlysampledsignal:
    one DataArray per channel row, every one pointing at the shared
    metadata section, the time-axis properties re-assigned on every
    iteration. -/
def writeSignalRows (typ : String) (base : String) (unit defin : Option String)
    (mdIdx : ℕ) (dims : List Dimension) (gname : String)
    (tprop : Option NixProp) :
    List (List ℚ) → ℕ → WSt → Except Err WSt
  | [], _, st => .ok st
  | row :: rest, idx, st => do
    let daname := suffixed base idx
    let st ← stCreateDA daname typ (.d1 row) unit defin (some mdIdx) dims st
    let st :=
      match tprop with
      | some p => stSetProp st mdIdx "t_start" p
      | none => st
    let st := modifyGroup gname
      (fun g => { g with dataArrayNames := g.dataArrayNames ++ [daname] }) st
    writeSignalRows typ base unit defin mdIdx dims gname tprop rest (idx + 1) st

/-- NixIO._write_analogsignal. -/
def writeAnalogSignal (sup : ℕ → String) (asig : AnalogSignal) (gname : String)
    (st : WSt) : Except Err (AnalogSignal × WSt) := do
  let (nixName, anns1, st) ← ensureName sup "analogsignal" asig.annotations st
  let asig1 := { asig with annotations := anns1 }
  if st.blk.dataArrays.any (fun d => d.name = suffixed nixName 0) then
    -- the AnalogSignal is in multiple Segments: append the existing
    -- DataArrays to this Group and return
    let dalist := collectSuffixed (daNames st) nixName
    .ok (asig1, modifyGroup gname
      (fun g => { g with dataArrayNames := g.dataArrayNames ++ dalist }) st)
  else
    let data := transposeRect asig1.signal.mags
    let (mdIdx, st) := stCreateSection nixName "neo.analogsignal.metadata" st
    let offset ← rescaleTo asig1.t_start asig1.sampling_period.unit
    let dims := [Dimension.sampled asig1.sampling_period.mag
      (some asig1.sampling_period.unit) (some offset) (some "time")]
    let tprop : NixProp := ⟨[.vnum asig1.t_start.mag], some asig1.t_start.unit⟩
    let st ← writeSignalRows "neo.analogsignal" nixName (some asig1.signal.unit)
      asig1.description mdIdx dims gname (some tprop) data 0 st
    let st := stSetNeoName st mdIdx asig1.name
    let st ← writeAnns mdIdx asig1.annotations st
    let rowNames := (List.range data.length).map (suffixed nixName)
    .ok (asig1, { st with signalMap := st.signalMap ++ [(nixName, rowNames)] })

/-- NixIO._write_irregularlysampledsignal. -/
def writeIrregularSignal (sup : ℕ → String) (isig : IrregularlySampledSignal)
    (gname : String) (st : WSt) : Except Err (IrregularlySampledSignal × WSt) := do
  let (nixName, anns1, st) ← ensureName sup "irregularlysampledsignal"
    isig.annotations st
  let isig1 := { isig with annotations := anns1 }
  if st.blk.dataArrays.any (fun d => d.name = suffixed nixName 0) then
    let dalist := collectSuffixed (daNames st) nixName
    .ok (isig1, modifyGroup gname
      (fun g => { g with dataArrayNames := g.dataArrayNames ++ dalist }) st)
  else
    let data := transposeRect isig1.signal.mags
    let (mdIdx, st) := stCreateSection nixName
      "neo.irregularlysampledsignal.metadata" st
    let dims := [Dimension.range isig1.times.mags (some isig1.times.unit)
      (some "time")]
    let st ← writeSignalRows "neo.irregularlysampledsignal" nixName
      (some isig1.signal.unit) isig1.description mdIdx dims gname none data 0 st
    let st := stSetNeoName st mdIdx isig1.name
    let st ← writeAnns mdIdx isig1.annotations st
    let rowNames := (List.range data.length).map (suffixed nixName)
    .ok (isig1, { st with signalMap := st.signalMap ++ [(nixName, rowNames)] })

/-- The Group data arrays that hold signals, by name (the reference loop
    at the end of _write_event and _write_epoch). -/
def groupSignalDANames (st : WSt) (gname : String) : List String :=
  match findGroup st gname with
  | none => []
  | some g =>
    ((g.dataArrayNames.filterMap
        (fun n => st.blk.dataArrays.find? (fun d => d.name = n))).filter
      (fun d => d.typ = "neo.analogsignal" ∨
        d.typ = "neo.irregularlysampledsignal")).map (fun d => d.name)

def stAddMultiTag (mt : MultiTag) (st : WSt) : WSt :=
  { st with blk := { st.blk with multiTags := st.blk.multiTags ++ [mt] } }

def groupAddMT (gname mtName : String) (st : WSt) : WSt :=
  modifyGroup gname (fun g => { g with multiTagNames := g.multiTagNames ++ [mtName] }) st

/-- NixIO._write_event. -/
def writeEvent (sup : ℕ → String) (ev : NeoEvent) (gname : String) (st : WSt) :
    Except Err (NeoEvent × WSt) := do
  let (nixName, anns1, st) ← ensureName sup "event" ev.annotations st
  let ev1 := { ev with annotations := anns1 }
  if st.blk.multiTags.any (fun m => m.name = nixName) then
    -- the Event is in multiple Segments: append to the Group and return
    .ok (ev1, groupAddMT gname nixName st)
  else
    let timesName := nixName ++ ".times"
    let st ← stCreateDA timesName "neo.event.times" (.d1 ev1.times.mags)
      (some ev1.times.unit) none none [.setdim ev1.labels] st
    let (mdIdx, st) := stCreateSection nixName "neo.event.metadata" st
    let st := stAddMultiTag
      ⟨nixName, "neo.event", timesName, none, some mdIdx, ev1.description, [],
        groupSignalDANames st gname⟩ st
    let st := stSetNeoName st mdIdx ev1.name
    let st ← writeAnns mdIdx ev1.annotations st
    .ok (ev1, groupAddMT gname nixName st)

/-- NixIO._write_epoch. -/
def writeEpoch (sup : ℕ → String) (ep : NeoEpoch) (gname : String) (st : WSt) :
    Except Err (NeoEpoch × WSt) := do
  let (nixName, anns1, st) ← ensureName sup "epoch" ep.annotations st
  let ep1 := { ep with annotations := anns1 }
  if st.blk.multiTags.any (fun m => m.name = nixName) then
    .ok (ep1, groupAddMT gname nixName st)
  else
    let timesName := nixName ++ ".times"
    let duraName := nixName ++ ".durations"
    let st ← stCreateDA timesName "neo.epoch.times" (.d1 ep1.times.mags)
      (some ep1.times.unit) none none [.setdim ep1.labels] st
    let st ← stCreateDA duraName "neo.epoch.durations" (.d1 ep1.durations.mags)
      (some ep1.durations.unit) none none [] st
    let (mdIdx, st) := stCreateSection nixName "neo.epoch.metadata" st
    let st := stAddMultiTag
      ⟨nixName, "neo.epoch", timesName, some duraName, some mdIdx,
        ep1.description, [], groupSignalDANames st gname⟩ st
    let st := stSetNeoName st mdIdx ep1.name
    let st ← writeAnns mdIdx ep1.annotations st
    .ok (ep1, groupAddMT gname nixName st)

def stModifyMT (mtName : String) (f : MultiTag → MultiTag) (st : WSt) : WSt :=
  { st with blk := { st.blk with
      multiTags := st.blk.multiTags.map (fun m => if m.name = mtName then f m else m) } }

/-- NixIO._write_spiketrain. -/
def writeSpikeTrain (sup : ℕ → String) (strain : SpikeTrain) (gname : String)
    (st : WSt) : Except Err (SpikeTrain × WSt) := do
  let (nixName, anns1, st) ← ensureName sup "spiketrain" strain.annotations st
  let strain1 := { strain with annotations := anns1 }
  if st.blk.multiTags.any (fun m => m.name = nixName) then
    .ok (strain1, groupAddMT gname nixName st)
  else
    let timesName := nixName ++ ".times"
    let st ← stCreateDA timesName "neo.spiketrain.times" (.d1 strain1.times.mags)
      (some strain1.times.unit) none none [] st
    let (mdIdx, st) := stCreateSection nixName "neo.spiketrain.metadata" st
    let st := stAddMultiTag
      ⟨nixName, "neo.spiketrain", timesName, none, some mdIdx,
        strain1.description, [], []⟩ st
    let st := stSetNeoName st mdIdx strain1.name
    let st := stSetProp st mdIdx "t_start"
      ⟨[.vnum strain1.t_start.mag], some strain1.t_start.unit⟩
    let st := stSetProp st mdIdx "t_stop"
      ⟨[.vnum strain1.t_stop.mag], some strain1.t_stop.unit⟩
    let st ← writeAnns mdIdx strain1.annotations st
    let st := groupAddMT gname nixName st
    let (wfMdOpt, st) ← do
      match strain1.waveforms with
      | none => pure ((none : Option ℕ), st)
      | some wf => do
        let sp ← match strain1.sampling_period with
          | some sp => pure sp
          | none => .error Err.attributeError
        let wfName := nixName ++ ".waveforms"
        let (wfMd, st) := stCreateSection wfName "neo.waveforms.metadata" st
        let st ← stCreateDA wfName "neo.waveforms" (.d3 wf.mags) (some wf.unit)
          none (some wfMd) [.setdim [], .setdim [],
            .sampled sp.mag (some sp.unit) none (some "time")] st
        pure (some wfMd, stModifyMT nixName
          (fun m => { m with featuresNames := m.featuresNames ++ [wfName] }) st)
    match strain1.left_sweep with
    | none => .ok (strain1, st)
    | some ls =>
      match wfMdOpt with
      | none => .error .nameError  -- wfda is unbound when no waveforms were written
      | some wfMd =>
        .ok (strain1, stSetProp st wfMd "left_sweep"
          ⟨[.vnum ls.mag], some ls.unit⟩)

def stAddSource (s : SrcNode) (st : WSt) : WSt :=
  { st with blk := { st.blk with sources := st.blk.sources ++ [s] } }

def findSource (st : WSt) (parent : Option String) (name : String) : Option SrcNode :=
  st.blk.sources.find? (fun s => s.parent = parent ∧ s.name = name)

def updateSourceDef (parent : Option String) (name : String)
    (defin : Option String) (st : WSt) : WSt :=
  let srcs := st.blk.sources.map (fun s =>
    if s.parent = parent ∧ s.name = name then { s with definition := defin } else s)
  { st with blk := { st.blk with sources := srcs } }

/-- The create-or-reuse step for a Source and its metadata section
    (shared by _write_channelindex, its channel children and
    _write_unit): reuse an existing source of that name (its metadata
    must be present), otherwise create the source with a fresh child
    section. -/
def getOrCreateSourceMd (name typ : String) (parent : Option String) (st : WSt) :
    Except Err (ℕ × WSt) :=
  match findSource st parent name with
  | some s =>
    match s.mdId with
    | some i => .ok (i, st)
    | none => .error Err.typeError
  | none =>
    let (i, st) := stCreateSection name (typ ++ ".metadata") st
    .ok (i, stAddSource ⟨name, typ, parent, none, some i⟩ st)

/-- The per-channel child-source loop of NixIO._write_channelindex. -/
def writeChannel (chxName : String) (defin : Option String)
    (chanNames : List String) (chanIds : List ℤ)
    (coords : Option (List (List Quantity1))) :
    List ℤ → ℕ → WSt → Except Err WSt
  | [], _, st => .ok st
  | channel :: rest, idx, st => do
    let channame := chxName ++ ".ChannelIndex" ++ toString idx
    let (chanMd, st) ← getOrCreateSourceMd channame "neo.channelindex"
      (some chxName) st
    let st := updateSourceDef (some chxName) channame defin st
    let st := stSetProp st chanMd "index" ⟨[.vnum (channel : ℚ)], none⟩
    let st ← do
      if chanNames.length ≠ 0 then
        match chanNames.get? idx with
        | some nm => pure (stSetProp st chanMd "neo_name" ⟨[.vstr nm], none⟩)
        | none => .error Err.indexError
      else pure st
    let st ← do
      if chanIds.length ≠ 0 then
        match chanIds.get? idx with
        | some cid => pure (stSetProp st chanMd "channel_id" ⟨[.vnum (cid : ℚ)], none⟩)
        | none => .error Err.indexError
      else pure st
    let st ← do
      match coords with
      | none => pure st
      | some rows =>
        match rows.get? idx with
        | none => .error Err.indexError
        | some row =>
          match row.head? with
          | none => .error Err.indexError
          | some p0 =>
            let cu := p0.unit
            let mags ← row.mapM (fun c => rescaleTo c cu)
            pure (stSetProp st chanMd "coordinates"
              ⟨mags.map NixValue.vnum, some cu⟩)
    writeChannel chxName defin chanNames chanIds coords rest (idx + 1) st

/-- NixIO._write_unit. -/
def writeUnit (sup : ℕ → String) (u : NeoUnit) (chxName : String) (st : WSt) :
    Except Err (NeoUnit × WSt) := do
  let (nixName, anns1, st) ← ensureName sup "unit" u.annotations st
  let u1 := { u with annotations := anns1 }
  let (mdIdx, st) ← getOrCreateSourceMd nixName "neo.unit" (some chxName) st
  let st := stSetNeoName st mdIdx u1.name
  let st := updateSourceDef (some chxName) nixName u1.description st
  let st ← writeAnns mdIdx u1.annotations st
  .ok (u1, st)

def writeUnits (sup : ℕ → String) (chxName : String) :
    List NeoUnit → WSt → Except Err (List NeoUnit × WSt)
  | [], st => .ok ([], st)
  | u :: rest, st => do
    let (u1, st) ← writeUnit sup u chxName st
    let (us1, st) ← writeUnits sup chxName rest st
    .ok (u1 :: us1, st)

/-- NixIO._write_channelindex. -/
def writeChannelIndex (sup : ℕ → String) (chx : ChannelIndex) (st : WSt) :
    Except Err (ChannelIndex × WSt) := do
  let (nixName, anns1, st) ← ensureName sup "channelindex" chx.annotations st
  let chx1 := { chx with annotations := anns1 }
  let (mdIdx, st) ← getOrCreateSourceMd nixName "neo.channelindex" none st
  let st := stSetNeoName st mdIdx chx1.name
  let st := updateSourceDef none nixName chx1.description st
  let st ← writeAnns mdIdx chx1.annotations st
  let st ← writeChannel nixName chx1.description chx1.channel_names
    chx1.channel_ids chx1.coordinates chx1.index 0 st
  let (units1, st) ← writeUnits sup nixName chx1.units st
  .ok ({ chx1 with units := units1 }, st)

/-- NixIO._write_segment: ensure the identifier, create or reuse the
    Group and its metadata section, write attributes and annotations,
    then descend into the five leaf containers in source order. -/
def writeASigs (sup : ℕ → String) (gname : String) :
    List AnalogSignal → WSt → Except Err (List AnalogSignal × WSt)
  | [], st => .ok ([], st)
  | a :: rest, st => do
    let (a1, st) ← writeAnalogSignal sup a gname st
    let (as1, st) ← writeASigs sup gname rest st
    .ok (a1 :: as1, st)

def writeISigs (sup : ℕ → String) (gname : String) :
    List IrregularlySampledSignal → WSt →
      Except Err (List IrregularlySampledSignal × WSt)
  | [], st => .ok ([], st)
  | a :: rest, st => do
    let (a1, st) ← writeIrregularSignal sup a gname st
    let (as1, st) ← writeISigs sup gname rest st
    .ok (a1 :: as1, st)

def writeEvents (sup : ℕ → String) (gname : String) :
    List NeoEvent → WSt → Except Err (List NeoEvent × WSt)
  | [], st => .ok ([], st)
  | a :: rest, st => do
    let (a1, st) ← writeEvent sup a gname st
    let (as1, st) ← writeEvents sup gname rest st
    .ok (a1 :: as1, st)

def writeEpochs (sup : ℕ → String) (gname : String) :
    List NeoEpoch → WSt → Except Err (List NeoEpoch × WSt)
  | [], st => .ok ([], st)
  | a :: rest, st => do
    let (a1, st) ← writeEpoch sup a gname st
    let (as1, st) ← writeEpochs sup gname rest st
    .ok (a1 :: as1, st)

def writeSTs (sup : ℕ → String) (gname : String) :
    List SpikeTrain → WSt → Except Err (List SpikeTrain × WSt)
  | [], st => .ok ([], st)
  | a :: rest, st => do
    let (a1, st) ← writeSpikeTrain sup a gname st
    let (as1, st) ← writeSTs sup gname rest st
    .ok (a1 :: as1, st)

/-- The create-or-reuse step for a Segment's Group and its metadata
    section. -/
def getOrCreateGroupMd (name : String) (st : WSt) : Except Err (ℕ × WSt) :=
  match findGroup st name with
  | some g =>
    match g.mdId with
    | some i => .ok (i, st)
    | none => .error Err.typeError
  | none =>
    let (i, st) := stCreateSection name "neo.segment.metadata" st
    let grp : NixGroup := ⟨name, "neo.segment", none, some i, st.clock, [], []⟩
    .ok (i, { st with blk := { st.blk with groups := st.blk.groups ++ [grp] }, clock := st.clock + 1 })

def writeSegment (sup : ℕ → String) (seg : NeoSegment) (st : WSt) :
    Except Err (NeoSegment × WSt) := do
  let (nixName, anns1, st) ← ensureName sup "segment" seg.annotations st
  let seg1 := { seg with annotations := anns1 }
  let (mdIdx, st) ← getOrCreateGroupMd nixName st
  let st := stSetNeoName st mdIdx seg1.name
  let st := modifyGroup nixName (fun g => { g with definition := seg1.description }) st
  let st :=
    match seg1.rec_datetime with
    | some t => modifyGroup nixName (fun g => { g with createdAt := t }) st
    | none => st
  let st ← do
    match seg1.file_datetime with
    | some _ => .error Err.typeError  -- the store metadata takes no raw datetime value
    | none => pure st
  let st ← writeAnns mdIdx seg1.annotations st
  let (asigs, st) ← writeASigs sup nixName seg1.analogsignals st
  let (isigs, st) ← writeISigs sup nixName seg1.irregularlysampledsignals st
  let (evs, st) ← writeEvents sup nixName seg1.events st
  let (eps, st) ← writeEpochs sup nixName seg1.epochs st
  let (sts, st) ← writeSTs sup nixName seg1.spiketrains st
  let seg2 := { seg1 with analogsignals := asigs, irregularlysampledsignals := isigs, events := evs, epochs := eps, spiketrains := sts }
  .ok (seg2, st)

def writeSegments (sup : ℕ → String) :
    List NeoSegment → WSt → Except Err (List NeoSegment × WSt)
  | [], st => .ok ([], st)
  | s :: rest, st => do
    let (s1, st) ← writeSegment sup s st
    let (ss1, st) ← writeSegments sup rest st
    .ok (s1 :: ss1, st)

def writeChxs (sup : ℕ → String) :
    List ChannelIndex → WSt → Except Err (List ChannelIndex × WSt)
  | [], st => .ok ([], st)
  | c :: rest, st => do
    let (c1, st) ← writeChannelIndex sup c st
    let (cs1, st) ← writeChxs sup rest st
    .ok (c1 :: cs1, st)

/-! ### The cross-reference linker (NixIO._create_source_links) -/

def annNixName (annotations : Annotations) : Except Err String :=
  match alookup annotations "nix_name" with
  | some (.astr n) => .ok n
  | _ => .error Err.keyError

def resolveASig (b : NeoBlock) (r : ℕ × ℕ) : Except Err AnalogSignal :=
  match b.segments.get? r.1 with
  | none => .error .indexError
  | some seg =>
    match seg.analogsignals.get? r.2 with
    | none => .error .indexError
    | some a => .ok a

def resolveISig (b : NeoBlock) (r : ℕ × ℕ) : Except Err IrregularlySampledSignal :=
  match b.segments.get? r.1 with
  | none => .error .indexError
  | some seg =>
    match seg.irregularlysampledsignals.get? r.2 with
    | none => .error .indexError
    | some a => .ok a

def resolveST (b : NeoBlock) (r : ℕ × ℕ) : Except Err SpikeTrain :=
  match b.segments.get? r.1 with
  | none => .error .indexError
  | some seg =>
    match seg.spiketrains.get? r.2 with
    | none => .error .indexError
    | some a => .ok a

def addDaSource (daname srcname : String) (st : WSt) : WSt :=
  let v := (alookup st.blk.daSources daname).getD [] ++ [srcname]
  { st with blk := { st.blk with daSources := aset st.blk.daSources daname v } }

def addMtSource (mtname srcname : String) (st : WSt) : WSt :=
  let v := (alookup st.blk.mtSources mtname).getD [] ++ [srcname]
  { st with blk := { st.blk with mtSources := aset st.blk.mtSources mtname v } }

/-- Attach the ChannelIndex source to every DataArray of one member
    signal, found through _signal_map (KeyError when absent). -/
def linkSignalName (chxName name : String) (st : WSt) : Except Err WSt :=
  match alookup st.signalMap name with
  | none => .error .keyError
  | some das => .ok (das.foldl (fun s d => addDaSource d chxName s) st)

def linkSignals (chxName : String) : List String → WSt → Except Err WSt
  | [], st => .ok st
  | n :: rest, st => do
    let st ← linkSignalName chxName n st
    linkSignals chxName rest st

def linkUnitSTs (b : NeoBlock) (chxName unitName : String) :
    List (ℕ × ℕ) → WSt → Except Err WSt
  | [], st => .ok st
  | r :: rest, st => do
    let strain ← resolveST b r
    let stName ← annNixName strain.annotations
    if st.blk.multiTags.any (fun m => m.name = stName) then
      linkUnitSTs b chxName unitName rest
        (addMtSource stName unitName (addMtSource stName chxName st))
    else .error .keyError

def linkUnits (b : NeoBlock) (chxName : String) :
    List NeoUnit → WSt → Except Err WSt
  | [], st => .ok st
  | u :: rest, st => do
    let unitName ← annNixName u.annotations
    let st ← do
      match findSource st (some chxName) unitName with
      | none => .error Err.keyError
      | some _ => pure st
    let st ← linkUnitSTs b chxName unitName u.spiketrainRefs st
    linkUnits b chxName rest st

def linkChx (b : NeoBlock) : List ChannelIndex → WSt → Except Err WSt
  | [], st => .ok st
  | chx :: rest, st => do
    let chxName ← annNixName chx.annotations
    let st ← do
      match findSource st none chxName with
      | none => .error Err.keyError
      | some _ => pure st
    let sigNames ← chx.analogsignalRefs.mapM (fun r => do
      let a ← resolveASig b r
      annNixName a.annotations)
    let isigNames ← chx.irregularsignalRefs.mapM (fun r => do
      let i ← resolveISig b r
      annNixName i.annotations)
    let st ← linkSignals chxName (sigNames ++ isigNames) st
    let st ← linkUnits b chxName chx.units st
    linkChx b rest st

/-- NixIO.write_block: ensure the block identifier, delete an existing
    block of that name together with its section tree, recreate the
    block and its metadata, write attributes and annotations, descend
    into Segments then ChannelIndexes, and finally attach the source
    links. -/
def writeBlock (sup : ℕ → String) (b : NeoBlock) (f : NixFile) :
    Except Err (NeoBlock × NixFile) := do
  let (nixName, anns1, fresh1) ← do
    match alookup b.annotations "nix_name" with
    | some (.astr n) => Except.ok (n, b.annotations, f.fresh)
    | some _ => .error Err.typeError
    | none =>
      let n := "neo.block." ++ sup f.fresh
      .ok (n, aset b.annotations "nix_name" (.astr n), f.fresh + 1)
  let b1 := { b with annotations := anns1 }
  let (blocks0, secs0) :=
    if f.blocks.any (fun blk => blk.name = nixName) then
      (f.blocks.filter (fun blk => ¬ blk.name = nixName),
       f.secs.filter (fun s => ¬ s.rootName = nixName))
    else (f.blocks, f.secs)
  let mdIdx := f.nextSec
  let blkSec : MDSec := ⟨mdIdx, nixName, "neo.block.metadata", nixName, []⟩
  let blk0 : NixBlock :=
    { name := nixName, typ := "neo.block", mdId := some mdIdx, createdAt := f.clock }
  let st : WSt :=
    { blk := blk0, secs := secs0 ++ [blkSec], nextSec := mdIdx + 1,
      createdCount := f.createdCount, clock := f.clock + 1, fresh := fresh1,
      signalMap := [] }
  let st := stSetNeoName st mdIdx b1.name
  let st := { st with blk := { st.blk with definition := b1.description } }
  let st :=
    match b1.rec_datetime with
    | some t => { st with blk := { st.blk with createdAt := t } }
    | none => st
  let st ← do
    match b1.file_datetime with
    | some _ => .error Err.typeError  -- the store metadata takes no raw datetime value
    | none => pure st
  let st ← writeAnns mdIdx b1.annotations st
  let (segs1, st) ← writeSegments sup b1.segments st
  let (chxs1, st) ← writeChxs sup b1.channel_indexes st
  let b2 := { b1 with segments := segs1, channel_indexes := chxs1 }
  let st ← linkChx b2 b2.channel_indexes st
  .ok (b2,
    { blocks := blocks0 ++ [st.blk], secs := st.secs, nextSec := st.nextSec,
      createdCount := st.createdCount, clock := st.clock, fresh := st.fresh })

/-! ## The read path (NixIO.read_block and its helpers) -/

/-- stringify: str(x) unless None. -/
def stringifyAnn : Option AnnValue → Option String
  | none => none
  | some (.astr s) => some s
  | some v => some (annValueStr v)

structure NeoAttrs where
  nix_name : String
  description : Option String
  props : List (String × AnnValue)

/-- NixIO._nix_attr_to_neo: common attributes plus all metadata
    properties of one NIX object (None when a property cannot be
    reconstructed or the metadata reference dangles). -/
def nixAttrToNeo (secs : List MDSec) (objName : String) (defin : Option String)
    (mdId : Option ℕ) : Option NeoAttrs := do
  let props ←
    match mdId with
    | none => some []
    | some i =>
      match findSec secs i with
      | none => none
      | some sec =>
        sec.props.mapM (fun kp => (readProp kp.2).map (fun v => (kp.1, v)))
  some ⟨objName, defin, props⟩

/-- The annotation dictionary a Neo constructor receives: nix_name
    first (its property value wins over the object name when present),
    then the remaining properties, minus the keys the constructor
    consumes. -/
def readAnnotations (objName : String) (props : List (String × AnnValue))
    (consumed : List String) : Annotations :=
  let nn :=
    match alookup props "nix_name" with
    | some v => v
    | none => AnnValue.astr objName
  let rest := props.filter (fun kv => ¬ kv.1 = "nix_name")
  (("nix_name", nn) :: rest).filter (fun kv => ¬ consumed.contains kv.1)

/-- The file_datetime property consumed by the Block and Segment
    constructors (datetime.fromtimestamp of the stored number). -/
def fdtOf (props : List (String × AnnValue)) : Option ℤ :=
  match alookup props "file_datetime" with
  | some (.anum q) => some q.floor
  | _ => none

def attrName (a : NeoAttrs) : Option String :=
  stringifyAnn (alookup a.props "neo_name")

/-- NixIO._get_time_dimension: the first dimension labelled "time". -/
def getTimeDimension (dims : List Dimension) : Option Dimension :=
  dims.find? (fun d =>
    match d with
    | .sampled _ _ _ lab => lab = some "time"
    | .range _ _ lab => lab = some "time"
    | .setdim _ => false)

def findDA (blk : NixBlock) (n : String) : Option DataArray :=
  blk.dataArrays.find? (fun d => d.name = n)

def findMT (blk : NixBlock) (n : String) : Option MultiTag :=
  blk.multiTags.find? (fun m => m.name = n)

/-- NixIO._nix_to_neo_analogsignal: sort the group's arrays by name,
    take attributes and metadata from the first, stack the rows and
    transpose, read the sampling period from the time dimension and the
    start time from the metadata (falling back to the dimension
    offset). -/
def nixToNeoAnalogSignal (secs : List MDSec) (das : List DataArray) :
    Option AnalogSignal := do
  let dasSorted := sortByName (fun d => d.name) das
  let first ← dasSorted.head?
  let attrs ← nixAttrToNeo secs first.name first.definition first.mdId
  let mdSec ← (first.mdId.bind (findSec secs))
  let unit ← first.unit
  let rows ← dasSorted.mapM (fun d =>
    match d.data with
    | .d1 xs => some xs
    | _ => none)
  let signaldata := transposeRect rows
  let timedim ← getTimeDimension first.dims
  let (interval, dimUnitOpt, off) ←
    match timedim with
    | .sampled i u o _ => some (i, u, o)
    | _ => none
  let spUnit ← dimUnitOpt
  let t_start : Quantity1 ←
    match alookup attrs.props "t_start" with
    | some (.aquantS m u) => some ⟨m, u⟩
    | some _ => none
    | none =>
      match off with
      | some o => some ⟨o, spUnit⟩
      | none => none
  let annotations := aset
    (readAnnotations first.name attrs.props ["t_start"]) "nix_name"
    (AnnValue.astr mdSec.name)
  some { name := attrName attrs, description := attrs.description,
         annotations := annotations, signal := ⟨signaldata, unit⟩,
         sampling_period := ⟨interval, spUnit⟩, t_start := t_start }

/-- NixIO._nix_to_neo_irregularlysampledsignal. -/
def nixToNeoIrregularSignal (secs : List MDSec) (das : List DataArray) :
    Option IrregularlySampledSignal := do
  let dasSorted := sortByName (fun d => d.name) das
  let first ← dasSorted.head?
  let attrs ← nixAttrToNeo secs first.name first.definition first.mdId
  let mdSec ← (first.mdId.bind (findSec secs))
  let unit ← first.unit
  let rows ← dasSorted.mapM (fun d =>
    match d.data with
    | .d1 xs => some xs
    | _ => none)
  let signaldata := transposeRect rows
  let timedim ← getTimeDimension first.dims
  let (ticks, tUnitOpt) ←
    match timedim with
    | .range t u _ => some (t, u)
    | _ => none
  let tUnit ← tUnitOpt
  let annotations := aset
    (readAnnotations first.name attrs.props []) "nix_name"
    (AnnValue.astr mdSec.name)
  some { name := attrName attrs, description := attrs.description,
         annotations := annotations, signal := ⟨signaldata, unit⟩,
         times := ⟨ticks, tUnit⟩ }

/-- NixIO._nix_to_neo_event. -/
def nixToNeoEvent (blk : NixBlock) (secs : List MDSec) (mt : MultiTag) :
    Option NeoEvent := do
  let attrs ← nixAttrToNeo secs mt.name mt.definition mt.mdId
  let posda ← findDA blk mt.positionsName
  let times ←
    match posda.data with
    | .d1 xs => some xs
    | _ => none
  let tUnit ← posda.unit
  let labels ←
    match posda.dims.head? with
    | some (.setdim ls) => some ls
    | _ => none
  some { name := attrName attrs, description := attrs.description,
         annotations := readAnnotations mt.name attrs.props [],
         times := ⟨times, tUnit⟩, labels := labels }

/-- NixIO._nix_to_neo_epoch. -/
def nixToNeoEpoch (blk : NixBlock) (secs : List MDSec) (mt : MultiTag) :
    Option NeoEpoch := do
  let attrs ← nixAttrToNeo secs mt.name mt.definition mt.mdId
  let posda ← findDA blk mt.positionsName
  let times ←
    match posda.data with
    | .d1 xs => some xs
    | _ => none
  let tUnit ← posda.unit
  let extName ← mt.extentsName
  let extda ← findDA blk extName
  let durations ←
    match extda.data with
    | .d1 xs => some xs
    | _ => none
  let dUnit ← extda.unit
  let labels ←
    match posda.dims.head? with
    | some (.setdim ls) => some ls
    | _ => none
  some { name := attrName attrs, description := attrs.description,
         annotations := readAnnotations mt.name attrs.props [],
         times := ⟨times, tUnit⟩, durations := ⟨durations, dUnit⟩,
         labels := labels }

/-- NixIO._nix_to_neo_spiketrain.  t_start and t_stop come back through
    the metadata properties; the waveform block, when a feature is
    present, restores waveforms, the sampling period, and left_sweep
    (the latter re-labelled with the time dimension's unit, as in the
    source). -/
def nixToNeoSpikeTrain (blk : NixBlock) (secs : List MDSec) (mt : MultiTag) :
    Option SpikeTrain := do
  let attrs ← nixAttrToNeo secs mt.name mt.definition mt.mdId
  let posda ← findDA blk mt.positionsName
  let times ←
    match posda.data with
    | .d1 xs => some xs
    | _ => none
  let tUnit ← posda.unit
  let t_stop : Quantity1 ←
    match alookup attrs.props "t_stop" with
    | some (.aquantS m u) => some ⟨m, u⟩
    | _ => none
  let t_start : Quantity1 ←
    match alookup attrs.props "t_start" with
    | some (.aquantS m u) => some ⟨m, u⟩
    | some _ => none
    | none => some ⟨0, "s"⟩  -- the constructor default
  let (waveforms, sampling_period, left_sweep) ←
    match mt.featuresNames.head? with
    | none => some (none, none, none)
    | some wfName => do
      let wfda ← findDA blk wfName
      let wfMags ←
        match wfda.data with
        | .d3 xs => some xs
        | _ => none
      let wfUnit ← wfda.unit
      let wftime ← getTimeDimension wfda.dims
      let (interval, iUnitOpt) ←
        match wftime with
        | .sampled i u _ _ => some (i, u)
        | _ => none
      let iUnit ← iUnitOpt
      let wfSec ← wfda.mdId.bind (findSec secs)
      let ls : Option Quantity1 ←
        match alookup wfSec.props "left_sweep" with
        | none => some none
        | some p =>
          match p.values with
          | [.vnum m] => some (some ⟨m, iUnit⟩)
          | _ => none
      some (some (⟨wfMags, wfUnit⟩ : Quantity3), some (⟨interval, iUnit⟩ : Quantity1), ls)
  some { name := attrName attrs, description := attrs.description,
         annotations := readAnnotations mt.name attrs.props ["t_start", "t_stop"],
         times := ⟨times, tUnit⟩, t_start := t_start, t_stop := t_stop,
         waveforms := waveforms, sampling_period := sampling_period,
         left_sweep := left_sweep }

/-- The grouping dictionary of NixIO._group_signals: sort all arrays by
    name, then bucket them by base name in first-seen order. -/
def groupsInsert (base : String) (da : DataArray) :
    List (String × List DataArray) → List (String × List DataArray)
  | [] => [(base, [da])]
  | (b, g) :: rest =>
    if b = base then (b, g ++ [da]) :: rest else (b, g) :: groupsInsert base da rest

def groupSignals (das : List DataArray) : List (String × List DataArray) :=
  (sortByName (fun d => d.name) das).foldl
    (fun gs da => groupsInsert (basename da.name) da gs) []

def isSignalType (d : DataArray) : Bool :=
  d.typ = "neo.analogsignal" ∨ d.typ = "neo.irregularlysampledsignal"

def groupIsType (t : String) (bg : String × List DataArray) : Bool :=
  match bg.2.head? with
  | some d => d.typ = t
  | none => false

/-- NixIO._nix_to_neo_segment. -/
def nixToNeoSegment (blk : NixBlock) (secs : List MDSec) (grp : NixGroup) :
    Option NeoSegment := do
  let attrs ← nixAttrToNeo secs grp.name grp.definition grp.mdId
  let resolved := grp.dataArrayNames.filterMap (findDA blk)
  let dataarrays := resolved.filter isSignalType
  let groups := groupSignals dataarrays
  let asigs ← (groups.filter (groupIsType "neo.analogsignal")).mapM
    (fun bg => nixToNeoAnalogSignal secs bg.2)
  let isigs ← (groups.filter (groupIsType "neo.irregularlysampledsignal")).mapM
    (fun bg => nixToNeoIrregularSignal secs bg.2)
  let mts := grp.multiTagNames.filterMap (findMT blk)
  let events ← (mts.filter (fun m => m.typ = "neo.event")).mapM
    (nixToNeoEvent blk secs)
  let epochs ← (mts.filter (fun m => m.typ = "neo.epoch")).mapM
    (nixToNeoEpoch blk secs)
  let strains ← (mts.filter (fun m => m.typ = "neo.spiketrain")).mapM
    (nixToNeoSpikeTrain blk secs)
  some { name := attrName attrs, description := attrs.description,
         annotations := readAnnotations grp.name attrs.props ["file_datetime"],
         rec_datetime := some grp.createdAt, file_datetime := fdtOf attrs.props,
         analogsignals := asigs, irregularlysampledsignals := isigs,
         events := events, epochs := epochs, spiketrains := strains }

/-- NixIO._nix_to_neo_block: attributes, then the segments from the
    block's groups.  ChannelIndexes are not reconstructed: the returned
    Block keeps the constructor's empty channel_indexes list. -/
def nixToNeoBlock (f : NixFile) (nb : NixBlock) : Option NeoBlock := do
  let attrs ← nixAttrToNeo f.secs nb.name nb.definition nb.mdId
  let segs ← nb.groups.mapM (nixToNeoSegment nb f.secs)
  some { name := attrName attrs, description := attrs.description,
         annotations := readAnnotations nb.name attrs.props ["file_datetime"],
         rec_datetime := some nb.createdAt, file_datetime := fdtOf attrs.props,
         segments := segs, channel_indexes := [] }

/-- The neoname scan of read_block ("neo_name" in blk.metadata and a
    comparison; a block without metadata raises). -/
def blockNeoNameIs (f : NixFile) (nb : NixBlock) (nm : String) : Except Err Bool :=
  match nb.mdId with
  | none => .error .typeError
  | some i =>
    match findSec f.secs i with
    | none => .error .typeError
    | some sec =>
      match alookup sec.props "neo_name" with
      | some p => .ok (p.values = [.vstr nm])
      | none => .ok false

def findByNeoName (f : NixFile) (nm : String) :
    List NixBlock → Except Err (Option NixBlock)
  | [] => .ok none
  | nb :: rest => do
    let b ← blockNeoNameIs f nb nm
    if b then .ok (some nb) else findByNeoName f nm rest

/-- The selection step of read_block: validating index, nixname or
    neoname (in precedence order) can raise a lookup error; with no
    argument, a counter beyond the block count returns None (proceed =
    false) without incrementing. -/
def readBlockSelect (f : NixFile) (index : Option ℕ)
    (nixname neoname : Option String) (counter : ℕ) : Except Err Bool :=
  match index with
  | some i =>
    match f.blocks.get? i with
    | some _ => .ok true
    | none => .error Err.indexError
  | none =>
    match nixname with
    | some nm =>
      if f.blocks.any (fun blk => blk.name = nm) then .ok true
      else .error Err.keyError
    | none =>
      match neoname with
      | some nm => do
        let r ← findByNeoName f nm f.blocks
        match r with
        | some _ => pure true
        | none => .error Err.keyError
      | none => .ok (decide (¬ counter > f.blocks.length))

/-- The conversion step of read_block: whatever the selection argument
    was, the block converted is the one at the consecutive-read
    counter's position, and the counter advances by one. -/
def readBlockConvert (f : NixFile) (counter : ℕ) (proceed : Bool) :
    Except Err (Option NeoBlock × ℕ) :=
  if proceed then
    match f.blocks.get? counter with
    | none => .error Err.indexError
    | some nb =>
      match nixToNeoBlock f nb with
      | none => .error Err.typeError
      | some neo => .ok (some neo, counter + 1)
  else .ok (none, counter)

/-- NixIO.read_block. -/
def readBlock (f : NixFile) (index : Option ℕ) (nixname neoname : Option String)
    (counter : ℕ) : Except Err (Option NeoBlock × ℕ) := do
  let proceed ← readBlockSelect f index nixname neoname counter
  readBlockConvert f counter proceed

/-- The legacy NixIO._read_signal: collect the suffixed arrays from the
    parent group, assert that every one references the identical
    metadata record (AssertionError otherwise); a passing check then
    reaches the undefined self._signal_da_to_neo and raises
    AttributeError. -/
def readSignalLegacy (blk : NixBlock) (grp : NixGroup) (base : String) :
    Except Err Unit := do
  let danames := collectSuffixed grp.dataArrayNames base
  let das := danames.filterMap (findDA blk)
  match das.head? with
  | none => .error Err.indexError
  | some first =>
    if das.all (fun d => d.mdId = first.mdId) then .error Err.attributeError
    else .error Err.assertionError

/-! ## Claim theorems -/

/-- C3: the content hash computed by NixIO._hash_object is a function
    only of the entity's own attributes, annotations and payload, never
    of its children: replacing the segments and channel groups of a
    Block, the five leaf-entity containers of a Segment, or the units of
    a ChannelIndex, leaves the digest stream unchanged. -/
theorem hash_object_ignores_children :
    (∀ (b : NeoBlock) (segs1 segs2 : List NeoSegment)
      (chxs1 chxs2 : List ChannelIndex),
      hashStream (.blockA { b with segments := segs1, channel_indexes := chxs1 }) =
        hashStream (.blockA { b with segments := segs2, channel_indexes := chxs2 })) ∧
    (∀ (s : NeoSegment) (a1 a2 : List AnalogSignal)
      (i1 i2 : List IrregularlySampledSignal) (e1 e2 : List NeoEvent)
      (p1 p2 : List NeoEpoch) (t1 t2 : List SpikeTrain),
      hashStream (.segmentA { s with analogsignals := a1, irregularlysampledsignals := i1, events := e1, epochs := p1, spiketrains := t1 }) =
        hashStream (.segmentA { s with analogsignals := a2, irregularlysampledsignals := i2, events := e2, epochs := p2, spiketrains := t2 })) ∧
    (∀ (c : ChannelIndex) (u1 u2 : List NeoUnit),
      hashStream (.chxA { c with units := u1 }) =
        hashStream (.chxA { c with units := u2 })) :=
  ⟨fun _ _ _ _ _ => rfl, fun _ _ _ _ _ _ _ _ _ _ _ => rfl, fun _ _ _ => rfl⟩

/-- C10: for every call to read_block, whatever selection argument is
    supplied (index, nixname or neoname), the Block converted and
    returned is the one at the position of the internal consecutive-read
    counter, and the counter is incremented by one; the selection
    argument can only cause a lookup error. -/
theorem read_block_uses_counter (f : NixFile) (index : Option ℕ)
    (nixname neoname : Option String) (counter : ℕ) (nb : NeoBlock) (c2 : ℕ)
    (h : readBlock f index nixname neoname counter = .ok (some nb, c2)) :
    ∃ blkc, f.blocks.get? counter = some blkc ∧ nixToNeoBlock f blkc = some nb ∧
      c2 = counter + 1 := by
  unfold readBlock at h
  cases hsel : readBlockSelect f index nixname neoname counter with
  | error e => rw [hsel] at h; simp [Bind.bind, Except.bind] at h
  | ok proceed =>
    rw [hsel] at h
    simp only [Bind.bind, Except.bind] at h
    unfold readBlockConvert at h
    cases proceed with
    | false => simp at h
    | true =>
      simp only [if_pos] at h
      cases hb : f.blocks.get? counter with
      | none => rw [hb] at h; simp at h
      | some blkc =>
        rw [hb] at h
        dsimp only at h
        cases hc : nixToNeoBlock f blkc with
        | none => rw [hc] at h; simp at h
        | some neo =>
          rw [hc] at h
          dsimp only at h
          simp only [Except.ok.injEq, Prod.mk.injEq, Option.some.injEq] at h
          exact ⟨blkc, rfl, by rw [hc, h.1], h.2.symm⟩

def rbFile : NixFile :=
  { blocks := [{ name := "b0", typ := "neo.block" }, { name := "b1", typ := "neo.block" }] }

def rbNeo0 : NeoBlock :=
  { name := none, description := none, annotations := [("nix_name", .astr "b0")],
    rec_datetime := some 0, file_datetime := none, segments := [],
    channel_indexes := [] }

/-- C10 witness: a file with two blocks, read with index = 1 while the
    consecutive-read counter is 0, still returns block 0 (and advances
    the counter to 1). -/
theorem read_block_uses_counter_witness :
    ∃ blkc, rbFile.blocks.get? 0 = some blkc ∧
      nixToNeoBlock rbFile blkc = some rbNeo0 ∧ 1 = 0 + 1 :=
  read_block_uses_counter rbFile (some 1) none none 0 rbNeo0 1 (by rfl)

def wst0 : WSt :=
  { blk := { name := "b", typ := "neo.block" }, secs := [], nextSec := 0,
    createdCount := 0, clock := 0, fresh := 0 }

/-- C9 counterexample: the annotation value [Quantity([1, 2], "mV")] is
    a nested container of a non-scalar item, yet _write_property does
    not drop it with a warning: magnitude.item() raises and the write of
    the owning entity aborts instead of completing. -/
theorem write_property_quantity_item_crashes :
    writeProperty (.alist [.aquantL [1, 2] "mV"]) = .crashed ∧
    writeAnns 0 [("k", .alist [.aquantL [1, 2] "mV"])] wst0 = .error .valueError :=
  ⟨rfl, rfl⟩

/-- A supported scalar item of an iterable annotation value: a plain
    number or a scalar quantity. -/
def scalarItem : AnnValue → Bool
  | .anum _ => true
  | .aquantS _ _ => true
  | _ => false

/-- An item of an iterable annotation value that the item loop rejects
    as a plain container: a nested list, or a string (Python strings are
    Iterable, and the loop has no string branch). -/
def containerItem : AnnValue → Bool
  | .astr _ => true
  | .alist _ => true
  | _ => false

/-- C9 (amended): an annotation value that is a container whose scalar
    items are followed by a plain container item (a nested list or a
    string) is dropped with a warning and no property is written, and
    the write of the remaining annotations completes normally; only a
    multi-element quantity item makes the write fail instead. -/
theorem write_property_drops_nested_containers (pre post : List AnnValue)
    (bad : AnnValue) (i : ℕ) (k : String) (rest : Annotations) (st : WSt)
    (hpre : pre.all scalarItem = true) (hbad : containerItem bad = true) :
    writeProperty (.alist (pre ++ bad :: post)) = .droppedWarn ∧
    writeAnns i ((k, .alist (pre ++ bad :: post)) :: rest) st =
      writeAnns i rest st := by
  have key : ∀ (pre2 : List AnnValue) (acc : List NixValue) (u : Option String),
      pre2.all scalarItem = true →
      writePropItems (pre2 ++ bad :: post) acc u = .droppedWarn := by
    intro pre2
    induction pre2 with
    | nil =>
      intro acc u _
      cases bad with
      | astr s => rfl
      | alist l => rfl
      | anum q => simp [containerItem] at hbad
      | aquantS m qu => simp [containerItem] at hbad
      | aquantL ms qu => simp [containerItem] at hbad
    | cons x xs ih =>
      intro acc u hall
      simp only [List.all_cons, Bool.and_eq_true] at hall
      cases x with
      | anum q => simpa [writePropItems] using ih _ _ hall.2
      | aquantS m qu => simpa [writePropItems] using ih _ _ hall.2
      | astr s => simp [scalarItem] at hall
      | aquantL ms qu => simp [scalarItem] at hall
      | alist l => simp [scalarItem] at hall
  have h1 : writeProperty (.alist (pre ++ bad :: post)) = .droppedWarn :=
    key pre [] none hpre
  refine ⟨h1, ?_⟩
  simp only [writeAnns, h1]

/-- C9 witness: the values [1, ["x"]] (nested list item) and [1, "y"]
    (string item) are each dropped with a warning and the rest of the
    annotation write proceeds. -/
theorem write_property_drops_nested_containers_witness :
    ([AnnValue.anum 1].all scalarItem = true) ∧
    containerItem (.alist [.astr "x"]) = true ∧
    containerItem (.astr "y") = true ∧
    (writeProperty (.alist ([.anum 1] ++ .alist [.astr "x"] :: [])) = .droppedWarn ∧
     writeAnns 0 (("k", .alist ([.anum 1] ++ .alist [.astr "x"] :: [])) :: []) wst0 =
       writeAnns 0 [] wst0) ∧
    (writeProperty (.alist ([.anum 1] ++ .astr "y" :: [])) = .droppedWarn ∧
     writeAnns 0 (("k", .alist ([.anum 1] ++ .astr "y" :: [])) :: []) wst0 =
       writeAnns 0 [] wst0) :=
  ⟨rfl, rfl, rfl,
    write_property_drops_nested_containers [.anum 1] [] (.alist [.astr "x"])
      0 "k" [] wst0 rfl rfl,
    write_property_drops_nested_containers [.anum 1] [] (.astr "y")
      0 "k" [] wst0 rfl rfl⟩

def c5sec0 : MDSec :=
  ⟨0, "s", "neo.analogsignal.metadata", "b",
    [("neo_name", ⟨[.vstr "x"], none⟩), ("t_start", ⟨[.vnum 0], some "s"⟩)]⟩

def c5sec1 : MDSec :=
  ⟨1, "s", "neo.analogsignal.metadata", "b",
    [("neo_name", ⟨[.vstr "x"], none⟩), ("t_start", ⟨[.vnum 0], some "s"⟩)]⟩

def c5dims : List Dimension := [.sampled 1 (some "s") (some 0) (some "time")]

def c5da0 : DataArray :=
  ⟨"s.0", "neo.analogsignal", .d1 [1], some "mV", none, some 0, c5dims⟩

def c5da1 : DataArray :=
  ⟨"s.1", "neo.analogsignal", .d1 [2], some "mV", none, some 1, c5dims⟩

def c5grp : NixGroup := ⟨"g", "neo.segment", none, none, 0, ["s.0", "s.1"], []⟩

def c5blk : NixBlock :=
  { name := "b", typ := "neo.block", dataArrays := [c5da0, c5da1], groups := [c5grp] }

def c5file : NixFile := { blocks := [c5blk], secs := [c5sec0, c5sec1] }

def c5sig : AnalogSignal :=
  { name := some "x", description := none,
    annotations := [("nix_name", .astr "s"), ("neo_name", .astr "x")],
    signal := ⟨[[1, 2]], "mV"⟩, sampling_period := ⟨1, "s"⟩, t_start := ⟨0, "s"⟩ }

def c5seg : NeoSegment :=
  { name := none, description := none, annotations := [("nix_name", .astr "g")],
    rec_datetime := some 0, file_datetime := none, analogsignals := [c5sig],
    irregularlysampledsignals := [], events := [], epochs := [], spiketrains := [] }

def c5read : NeoBlock :=
  { name := none, description := none, annotations := [("nix_name", .astr "b")],
    rec_datetime := some 0, file_datetime := none, segments := [c5seg],
    channel_indexes := [] }

/-- C5: in a store holding a two-channel signal whose per-channel arrays
    s.0 and s.1 reference two different metadata records (sections 0 and
    1), read_block raises no corruption condition: it silently
    reassembles the matrix [[1, 2]] using the first array's metadata.
    Only the orphaned legacy helper _read_signal would raise the
    assertion (and, past the check, it would crash on the undefined
    _signal_da_to_neo). -/
theorem read_block_ignores_metadata_divergence :
    readBlock c5file none none none 0 = .ok (some c5read, 1) ∧
    readSignalLegacy c5blk c5grp "s" = .error .assertionError :=
  ⟨rfl, rfl⟩

/-- A concrete injective, dot-free fresh-name supply standing in for
    uuid4().hex. -/
def sup0 (n : ℕ) : String := String.mk (List.replicate (n + 1) 'u')

/-- Write a block into an empty store, then read it back through
    read_block. -/
def roundTrip (sup : ℕ → String) (b : NeoBlock) : Option NeoBlock :=
  match writeBlock sup b {} with
  | .error _ => none
  | .ok (_, f) =>
    match readBlock f none none none 0 with
    | .ok (some nb, _) => some nb
    | _ => none

/-- The store's bulk-array creation count after writing a block into an
    empty store. -/
def writeCreated (sup : ℕ → String) (b : NeoBlock) : Option ℕ :=
  match writeBlock sup b {} with
  | .ok (_, f) => some f.createdCount
  | .error _ => none

def c1sig : AnalogSignal :=
  { name := some "sig", signal := ⟨[[1, 2], [3, 4]], "mV"⟩,
    sampling_period := ⟨1, "s"⟩, t_start := ⟨0, "s"⟩ }

def c1seg : NeoSegment := { name := some "seg", analogsignals := [c1sig] }

def c1chx : ChannelIndex :=
  { name := some "cg", index := [0], analogsignalRefs := [(0, 0)] }

def c1blk : NeoBlock :=
  { name := some "blk", segments := [c1seg], channel_indexes := [c1chx] }

/-- C1: read(write(graph)) does not reproduce the entity set: a Block
    written with one ChannelGroup (and one Segment with one signal,
    which does come back with its payload intact) is read back with an
    empty channel-group list, because _nix_to_neo_block reconstructs
    only the segments. -/
theorem round_trip_drops_channel_groups :
    c1blk.channel_indexes.length = 1 ∧
    (roundTrip sup0 c1blk).map (fun nb => nb.channel_indexes.length) = some 0 ∧
    (roundTrip sup0 c1blk).map
      (fun nb => nb.segments.map (fun s => s.analogsignals.map (fun a => a.signal.mags))) =
      some [[[[1, 2], [3, 4]]]] :=
  ⟨rfl, rfl, rfl⟩

def c8sig : AnalogSignal :=
  { name := some "shared",
    annotations := [("nix_name", .astr "neo.analogsignal.sh")],
    signal := ⟨[[1, 2]], "mV"⟩, sampling_period := ⟨1, "s"⟩, t_start := ⟨0, "s"⟩ }

def c8seg1 : NeoSegment := { name := some "s1", analogsignals := [c8sig] }

def c8seg2 : NeoSegment := { name := some "s2", analogsignals := [c8sig] }

def c8chx : ChannelIndex :=
  { name := some "cg", index := [0], analogsignalRefs := [(0, 0)] }

def c8blk : NeoBlock :=
  { name := some "blk", segments := [c8seg1, c8seg2], channel_indexes := [c8chx] }

/-- C8: a ChannelGroup referencing the same Signal instance attached
    to two different Segments does not, on read, yield a group with one
    deduplicated member: read_block reconstructs no ChannelGroups at
    all (while the write did share the bulk arrays: only 2 per-channel
    arrays were created for the signal appearing in both segments, and
    both read-back segments hold the signal). -/
theorem shared_signal_group_not_reconstructed :
    writeCreated sup0 c8blk = some 2 ∧
    (roundTrip sup0 c8blk).map
      (fun nb => (nb.channel_indexes.length, nb.segments.map (fun s => s.analogsignals.length))) =
      some (0, [1, 1]) :=
  ⟨rfl, rfl⟩

/-! ## C7: ordering of per-channel arrays -/

theorem string_data_append (a b : String) : (a ++ b).data = a.data ++ b.data := rfl

theorem charsLt_asymm : ∀ a b : Chars, charsLt a b = true → charsLt b a = false := by
  intro a
  induction a with
  | nil => intro b h; cases b with
    | nil => simp [charsLt] at h
    | cons c cs => rfl
  | cons x xs ih =>
    intro b h
    cases b with
    | nil => simp [charsLt] at h
    | cons y ys =>
      simp only [charsLt] at h ⊢
      by_cases hxy : x < y
      · rw [if_neg (asymm hxy), if_pos hxy]
      · rw [if_neg hxy] at h
        by_cases hyx : y < x
        · rw [if_pos hyx] at h; exact absurd h (by simp)
        · rw [if_neg hyx] at h
          rw [if_neg hyx, if_neg hxy]
          exact ih ys h

theorem charsLt_append_left : ∀ (p a b : Chars),
    charsLt (p ++ a) (p ++ b) = charsLt a b := by
  intro p
  induction p with
  | nil => intro a b; rfl
  | cons c cs ih =>
    intro a b
    simp only [List.cons_append, charsLt, if_neg (lt_irrefl c)]
    exact ih a b

theorem digitLt : ∀ i, i < 10 → ∀ j, j < 10 → i < j →
    charsLt (toString i).data (toString j).data = true := by decide

theorem strLt_suffixed (base : String) (i j : ℕ) (hi : i < 10) (hj : j < 10)
    (hij : i < j) : strLt (suffixed base i) (suffixed base j) = true := by
  unfold strLt suffixed
  rw [string_data_append, string_data_append, string_data_append, string_data_append,
    List.append_assoc, List.append_assoc, charsLt_append_left, charsLt_append_left]
  exact digitLt i hi j hj hij

/-- An already strictly ascending list is left unchanged by Python's
    sorted. -/
theorem sortByName_eq_self (key : α → String) (xs : List α)
    (h : xs.Pairwise (fun a b => strLt (key a) (key b) = true)) :
    sortByName key xs = xs := by
  induction xs with
  | nil => rfl
  | cons x xs ih =>
    rw [List.pairwise_cons] at h
    have step : sortByName key (x :: xs) = insertByName key x (sortByName key xs) := rfl
    rw [step, ih h.2]
    cases xs with
    | nil => rfl
    | cons y ys =>
      have hyx : strLt (key y) (key x) = false := by
        have := h.1 y (by simp)
        unfold strLt at this ⊢
        exact charsLt_asymm _ _ this
      simp [insertByName, hyx]

/-- A per-channel data array of a written analog signal, as the claim's
    reassembly scenario fixes it (shared metadata section 0). -/
def c7da (base : String) (j : ℕ) (row : List ℚ) : DataArray :=
  ⟨suffixed base j, "neo.analogsignal", .d1 row, some "mV", none, some 0,
    [.sampled 1 (some "s") (some 0) (some "time")]⟩

/-- The arrays base.j, base.j+1, ... holding the given channel rows. -/
def c7das (base : String) (j : ℕ) : List (List ℚ) → List DataArray
  | [] => []
  | r :: rs => c7da base j r :: c7das base (j + 1) rs

def c7sec (base : String) : MDSec :=
  ⟨0, base, "neo.analogsignal.metadata", "b", []⟩

theorem c7das_mem_name (base : String) : ∀ (rows : List (List ℚ)) (j : ℕ)
    (da : DataArray), da ∈ c7das base j rows →
    ∃ k, j ≤ k ∧ k < j + rows.length ∧ da.name = suffixed base k := by
  intro rows
  induction rows with
  | nil => intro j da h; simp [c7das] at h
  | cons r rs ih =>
    intro j da h
    rw [c7das, List.mem_cons] at h
    cases h with
    | inl h => exact ⟨j, le_refl j, by simp, by rw [h]; rfl⟩
    | inr h =>
      obtain ⟨k, hk1, hk2, hk3⟩ := ih (j + 1) da h
      exact ⟨k, by omega, by simp at hk2 ⊢; omega, hk3⟩

theorem c7das_pairwise (base : String) : ∀ (rows : List (List ℚ)) (j : ℕ),
    j + rows.length ≤ 10 →
    (c7das base j rows).Pairwise (fun a b => strLt a.name b.name = true) := by
  intro rows
  induction rows with
  | nil => intro j h; exact List.Pairwise.nil
  | cons r rs ih =>
    intro j h
    simp only [List.length_cons] at h
    rw [c7das]
    refine List.Pairwise.cons ?_ (ih (j + 1) (by omega))
    intro da hda
    obtain ⟨k, hk1, hk2, hk3⟩ := c7das_mem_name base rs (j + 1) da hda
    have hname : (c7da base j r).name = suffixed base j := rfl
    rw [hname, hk3]
    exact strLt_suffixed base j k (by omega) (by omega) (by omega)

theorem c7das_mapM (base : String) : ∀ (rows : List (List ℚ)) (j : ℕ),
    (c7das base j rows).mapM (fun d =>
      match d.data with
      | .d1 xs => some xs
      | _ => none) = some rows := by
  intro rows
  induction rows with
  | nil => intro j; rfl
  | cons r rs ih =>
    intro j
    rw [c7das, List.mapM_cons, ih (j + 1)]
    rfl

/-- C7 (amended): the reassembly sorts the per-channel arrays by their
    full string name; this coincides with numeric-suffix order exactly
    while the channel count stays at ten or below, in which case the
    arrays built in index order are left in place and row i of the
    stacked matrix comes from base.i. -/
theorem signal_reassembly_orders_by_string_name (base : String)
    (rows : List (List ℚ)) (hlen : rows.length ≤ 10) (hne : rows ≠ []) :
    sortByName (fun d => d.name) (c7das base 0 rows) = c7das base 0 rows ∧
    (nixToNeoAnalogSignal [c7sec base] (c7das base 0 rows)).map
      (fun a => a.signal.mags) = some (transposeRect rows) := by
  have hsort : sortByName (fun d => d.name) (c7das base 0 rows) = c7das base 0 rows :=
    sortByName_eq_self _ _ (c7das_pairwise base rows 0 (by omega))
  refine ⟨hsort, ?_⟩
  obtain ⟨r, rs, rfl⟩ : ∃ r rs, rows = r :: rs := by
    cases rows with
    | nil => exact absurd rfl hne
    | cons r rs => exact ⟨r, rs, rfl⟩
  unfold nixToNeoAnalogSignal
  rw [hsort]
  simp only [c7das, List.head?_cons, Option.bind_eq_bind, Option.some_bind]
  rw [show c7da base 0 r :: c7das base (0 + 1) rs = c7das base 0 (r :: rs) from rfl,
    c7das_mapM base (r :: rs) 0]
  rfl

def c7rows : List (List ℚ) := (List.range 11).map (fun j => [(j : ℚ)])

/-- C7 counterexample: with eleven channels s.0 ... s.10 holding sample
    values 0 ... 10, the reassembled matrix lists channel s.10 at row
    position 2 (string order), not channel s.2 as numeric-suffix order
    would: the read matrix is [[0,1,10,2,...,9]] while index order would
    give [[0,1,2,...,10]]. -/
theorem signal_rows_misordered_beyond_ten :
    (nixToNeoAnalogSignal [c7sec "s"] (c7das "s" 0 c7rows)).map
      (fun a => a.signal.mags) =
      some [[0, 1, 10, 2, 3, 4, 5, 6, 7, 8, 9]] ∧
    transposeRect c7rows = [[0, 1, 2, 3, 4, 5, 6, 7, 8, 9, 10]] :=
  ⟨rfl, rfl⟩

/-- C7 witness: three channels reassemble in index order. -/
theorem signal_reassembly_orders_by_string_name_witness :
    ([[1], [2], [3]] : List (List ℚ)).length ≤ 10 ∧
    ([[1], [2], [3]] : List (List ℚ)) ≠ [] ∧
    (sortByName (fun d => d.name) (c7das "s" 0 [[1], [2], [3]]) =
        c7das "s" 0 [[1], [2], [3]] ∧
      (nixToNeoAnalogSignal [c7sec "s"] (c7das "s" 0 [[1], [2], [3]])).map
        (fun a => a.signal.mags) = some (transposeRect [[1], [2], [3]])) :=
  ⟨by decide, by decide,
    signal_reassembly_orders_by_string_name "s" [[1], [2], [3]] (by decide) (by decide)⟩

/-! ## Write-path effect lemmas (for the identifier and rewrite claims) -/

def hasNixName (annotations : Annotations) : Bool :=
  match alookup annotations "nix_name" with
  | some (.astr _) => true
  | _ => false

def mtNames (st : WSt) : List String := st.blk.multiTags.map (fun m => m.name)

def grpNames (st : WSt) : List String := st.blk.groups.map (fun g => g.name)

theorem alookup_aset_self (l : List (String × α)) (k : String) (v : α) :
    alookup (aset l k v) k = some v := by
  induction l with
  | nil => simp [aset, alookup]
  | cons kv rest ih =>
    obtain ⟨k0, v0⟩ := kv
    by_cases hk : k0 = k
    · simp [aset, alookup, hk]
    · simp [aset, alookup, hk, ih]

theorem aset_of_alookup_eq (l : List (String × α)) (k : String) (v : α)
    (h : alookup l k = some v) : aset l k v = l := by
  induction l with
  | nil => simp [alookup] at h
  | cons kv rest ih =>
    obtain ⟨k0, v0⟩ := kv
    by_cases hk : k0 = k
    · subst hk
      simp [alookup] at h
      simp [aset, h]
    · simp [alookup, hk] at h
      simp [aset, hk, ih h]

theorem except_bind_ok {α β : Type} {x : Except Err α} {f : α → Except Err β}
    {b : β} (h : (x >>= f) = .ok b) : ∃ a, x = .ok a ∧ f a = .ok b := by
  cases x with
  | error e => simp [Bind.bind, Except.bind] at h
  | ok a => exact ⟨a, rfl, by simpa [Bind.bind, Except.bind] using h⟩

/-- The uniform description of the ensure-identifier step: the result
    annotations are always aset of the original, the state changes only
    in the fresh counter, and an already named entity passes through
    untouched. -/
theorem ensureName_spec {sup : ℕ → String} {kind : String} {anns : Annotations}
    {st : WSt} {nm : String} {anns1 : Annotations} {st' : WSt}
    (h : ensureName sup kind anns st = .ok (nm, anns1, st')) :
    anns1 = aset anns "nix_name" (.astr nm) ∧
    alookup anns1 "nix_name" = some (.astr nm) ∧
    st'.blk = st.blk ∧ st'.secs = st.secs ∧ st'.nextSec = st.nextSec ∧
    st'.createdCount = st.createdCount ∧ st'.clock = st.clock ∧
    st'.signalMap = st.signalMap ∧
    (hasNixName anns = true → anns1 = anns ∧ st' = st) := by
  unfold ensureName at h
  cases hl : alookup anns "nix_name" with
  | none =>
    rw [hl] at h
    simp only [Except.ok.injEq, Prod.mk.injEq] at h
    obtain ⟨h1, h2, h3⟩ := h
    subst h1 h2 h3
    refine ⟨rfl, alookup_aset_self _ _ _, rfl, rfl, rfl, rfl, rfl, rfl, ?_⟩
    intro hn
    simp [hasNixName, hl] at hn
  | some v =>
    rw [hl] at h
    cases v with
    | astr n =>
      simp only [Except.ok.injEq, Prod.mk.injEq] at h
      obtain ⟨h1, h2, h3⟩ := h
      subst h1 h2 h3
      exact ⟨(aset_of_alookup_eq _ _ _ hl).symm, hl, rfl, rfl, rfl, rfl, rfl, rfl,
        fun _ => ⟨rfl, rfl⟩⟩
    | anum q => simp at h
    | aquantS m u => simp at h
    | aquantL ms u => simp at h
    | alist items => simp at h

@[simp] theorem daNames_stSetProp (st : WSt) (i : ℕ) (k : String) (p : NixProp) :
    daNames (stSetProp st i k p) = daNames st := rfl

@[simp] theorem mtNames_stSetProp (st : WSt) (i : ℕ) (k : String) (p : NixProp) :
    mtNames (stSetProp st i k p) = mtNames st := rfl

@[simp] theorem createdCount_stSetProp (st : WSt) (i : ℕ) (k : String) (p : NixProp) :
    (stSetProp st i k p).createdCount = st.createdCount := rfl

@[simp] theorem fresh_stSetProp (st : WSt) (i : ℕ) (k : String) (p : NixProp) :
    (stSetProp st i k p).fresh = st.fresh := rfl

@[simp] theorem daNames_stSetNeoName (st : WSt) (i : ℕ) (n : Option String) :
    daNames (stSetNeoName st i n) = daNames st := rfl

@[simp] theorem mtNames_stSetNeoName (st : WSt) (i : ℕ) (n : Option String) :
    mtNames (stSetNeoName st i n) = mtNames st := rfl

@[simp] theorem createdCount_stSetNeoName (st : WSt) (i : ℕ) (n : Option String) :
    (stSetNeoName st i n).createdCount = st.createdCount := rfl

@[simp] theorem fresh_stSetNeoName (st : WSt) (i : ℕ) (n : Option String) :
    (stSetNeoName st i n).fresh = st.fresh := rfl

@[simp] theorem daNames_stCreateSection (n t : String) (st : WSt) :
    daNames (stCreateSection n t st).2 = daNames st := rfl

@[simp] theorem mtNames_stCreateSection (n t : String) (st : WSt) :
    mtNames (stCreateSection n t st).2 = mtNames st := rfl

@[simp] theorem createdCount_stCreateSection (n t : String) (st : WSt) :
    (stCreateSection n t st).2.createdCount = st.createdCount := rfl

@[simp] theorem fresh_stCreateSection (n t : String) (st : WSt) :
    (stCreateSection n t st).2.fresh = st.fresh := rfl

@[simp] theorem daNames_modifyGroup (g : String) (f : NixGroup → NixGroup) (st : WSt) :
    daNames (modifyGroup g f st) = daNames st := rfl

@[simp] theorem mtNames_modifyGroup (g : String) (f : NixGroup → NixGroup) (st : WSt) :
    mtNames (modifyGroup g f st) = mtNames st := rfl

@[simp] theorem createdCount_modifyGroup (g : String) (f : NixGroup → NixGroup)
    (st : WSt) : (modifyGroup g f st).createdCount = st.createdCount := rfl

@[simp] theorem fresh_modifyGroup (g : String) (f : NixGroup → NixGroup) (st : WSt) :
    (modifyGroup g f st).fresh = st.fresh := rfl

@[simp] theorem daNames_groupAddMT (g n : String) (st : WSt) :
    daNames (groupAddMT g n st) = daNames st := rfl

@[simp] theorem mtNames_groupAddMT (g n : String) (st : WSt) :
    mtNames (groupAddMT g n st) = mtNames st := rfl

@[simp] theorem createdCount_groupAddMT (g n : String) (st : WSt) :
    (groupAddMT g n st).createdCount = st.createdCount := rfl

@[simp] theorem fresh_groupAddMT (g n : String) (st : WSt) :
    (groupAddMT g n st).fresh = st.fresh := rfl

@[simp] theorem daNames_stAddMultiTag (mt : MultiTag) (st : WSt) :
    daNames (stAddMultiTag mt st) = daNames st := rfl

theorem mtNames_stAddMultiTag (mt : MultiTag) (st : WSt) :
    mtNames (stAddMultiTag mt st) = mtNames st ++ [mt.name] := by
  simp [mtNames, stAddMultiTag]

@[simp] theorem createdCount_stAddMultiTag (mt : MultiTag) (st : WSt) :
    (stAddMultiTag mt st).createdCount = st.createdCount := rfl

@[simp] theorem fresh_stAddMultiTag (mt : MultiTag) (st : WSt) :
    (stAddMultiTag mt st).fresh = st.fresh := rfl

@[simp] theorem daNames_stModifyMT (n : String) (f : MultiTag → MultiTag) (st : WSt) :
    daNames (stModifyMT n f st) = daNames st := rfl

theorem mtNames_stModifyMT (n : String) (f : MultiTag → MultiTag) (st : WSt)
    (hf : ∀ m, (f m).name = m.name) : mtNames (stModifyMT n f st) = mtNames st := by
  simp only [mtNames, stModifyMT, List.map_map]
  refine List.map_congr_left ?_
  intro m _
  by_cases hm : m.name = n <;> simp [hm, hf]

@[simp] theorem createdCount_stModifyMT (n : String) (f : MultiTag → MultiTag)
    (st : WSt) : (stModifyMT n f st).createdCount = st.createdCount := rfl

@[simp] theorem fresh_stModifyMT (n : String) (f : MultiTag → MultiTag) (st : WSt) :
    (stModifyMT n f st).fresh = st.fresh := rfl

@[simp] theorem daNames_addDaSource (d s : String) (st : WSt) :
    daNames (addDaSource d s st) = daNames st := rfl

@[simp] theorem mtNames_addDaSource (d s : String) (st : WSt) :
    mtNames (addDaSource d s st) = mtNames st := rfl

@[simp] theorem createdCount_addDaSource (d s : String) (st : WSt) :
    (addDaSource d s st).createdCount = st.createdCount := rfl

@[simp] theorem fresh_addDaSource (d s : String) (st : WSt) :
    (addDaSource d s st).fresh = st.fresh := rfl

@[simp] theorem daNames_addMtSource (d s : String) (st : WSt) :
    daNames (addMtSource d s st) = daNames st := rfl

@[simp] theorem mtNames_addMtSource (d s : String) (st : WSt) :
    mtNames (addMtSource d s st) = mtNames st := rfl

@[simp] theorem createdCount_addMtSource (d s : String) (st : WSt) :
    (addMtSource d s st).createdCount = st.createdCount := rfl

@[simp] theorem fresh_addMtSource (d s : String) (st : WSt) :
    (addMtSource d s st).fresh = st.fresh := rfl

@[simp] theorem daNames_updateSourceDef (p : Option String) (n : String)
    (d : Option String) (st : WSt) : daNames (updateSourceDef p n d st) = daNames st := rfl

@[simp] theorem mtNames_updateSourceDef (p : Option String) (n : String)
    (d : Option String) (st : WSt) : mtNames (updateSourceDef p n d st) = mtNames st := rfl

@[simp] theorem createdCount_updateSourceDef (p : Option String) (n : String)
    (d : Option String) (st : WSt) :
    (updateSourceDef p n d st).createdCount = st.createdCount := rfl

@[simp] theorem fresh_updateSourceDef (p : Option String) (n : String)
    (d : Option String) (st : WSt) : (updateSourceDef p n d st).fresh = st.fresh := rfl

@[simp] theorem daNames_stAddSource (s : SrcNode) (st : WSt) :
    daNames (stAddSource s st) = daNames st := rfl

@[simp] theorem mtNames_stAddSource (s : SrcNode) (st : WSt) :
    mtNames (stAddSource s st) = mtNames st := rfl

@[simp] theorem createdCount_stAddSource (s : SrcNode) (st : WSt) :
    (stAddSource s st).createdCount = st.createdCount := rfl

@[simp] theorem fresh_stAddSource (s : SrcNode) (st : WSt) :
    (stAddSource s st).fresh = st.fresh := rfl

theorem map_gname_ite (l : List NixGroup) (g : String) (f : NixGroup → NixGroup)
    (hf : ∀ x, (f x).name = x.name) :
    ((l.map (fun x => if x.name = g then f x else x)).map (fun x => x.name)) =
      l.map (fun x => x.name) := by
  induction l with
  | nil => rfl
  | cons a t ih => by_cases h : a.name = g <;> simp [h, hf a, ih]

theorem grpNames_modifyGroup (g : String) (f : NixGroup → NixGroup) (st : WSt)
    (hf : ∀ x, (f x).name = x.name) :
    grpNames (modifyGroup g f st) = grpNames st :=
  map_gname_ite st.blk.groups g f hf

@[simp] theorem grpNames_stSetProp (st : WSt) (i : ℕ) (k : String) (p : NixProp) :
    grpNames (stSetProp st i k p) = grpNames st := rfl

@[simp] theorem grpNames_stSetNeoName (st : WSt) (i : ℕ) (n : Option String) :
    grpNames (stSetNeoName st i n) = grpNames st := rfl

@[simp] theorem grpNames_stCreateSection (n t : String) (st : WSt) :
    grpNames (stCreateSection n t st).2 = grpNames st := rfl

@[simp] theorem grpNames_groupAddMT (g n : String) (st : WSt) :
    grpNames (groupAddMT g n st) = grpNames st :=
  grpNames_modifyGroup _ _ _ (fun _ => rfl)

@[simp] theorem grpNames_stAddMultiTag (mt : MultiTag) (st : WSt) :
    grpNames (stAddMultiTag mt st) = grpNames st := rfl

@[simp] theorem grpNames_stModifyMT (n : String) (f : MultiTag → MultiTag) (st : WSt) :
    grpNames (stModifyMT n f st) = grpNames st := rfl

@[simp] theorem grpNames_addDaSource (d s : String) (st : WSt) :
    grpNames (addDaSource d s st) = grpNames st := rfl

@[simp] theorem grpNames_addMtSource (d s : String) (st : WSt) :
    grpNames (addMtSource d s st) = grpNames st := rfl

@[simp] theorem grpNames_updateSourceDef (p : Option String) (n : String)
    (df : Option String) (st : WSt) :
    grpNames (updateSourceDef p n df st) = grpNames st := rfl

@[simp] theorem grpNames_stAddSource (s : SrcNode) (st : WSt) :
    grpNames (stAddSource s st) = grpNames st := rfl

theorem grpNames_blk_eq {st st' : WSt} (h : st'.blk = st.blk) :
    grpNames st' = grpNames st := by
  unfold grpNames
  rw [h]

theorem stCreateDA_ok {n t : String} {d : ArrData} {u df : Option String}
    {md : Option ℕ} {dims : List Dimension} {st st' : WSt}
    (h : stCreateDA n t d u df md dims st = .ok st') :
    daNames st' = daNames st ++ [n] ∧ mtNames st' = mtNames st ∧
    st'.createdCount = st.createdCount + 1 ∧ st'.fresh = st.fresh ∧
    grpNames st' = grpNames st := by
  unfold stCreateDA at h
  split at h
  · simp at h
  · simp only [Except.ok.injEq] at h
    subst h
    refine ⟨?_, rfl, rfl, rfl, rfl⟩
    simp [daNames]

theorem writeAnns_ok {i : ℕ} (anns : Annotations) : ∀ (st st' : WSt),
    writeAnns i anns st = .ok st' →
    st'.blk = st.blk ∧ st'.createdCount = st.createdCount ∧ st'.fresh = st.fresh := by
  induction anns with
  | nil =>
    intro st st' h
    simp only [writeAnns, Except.ok.injEq] at h
    subst h
    exact ⟨rfl, rfl, rfl⟩
  | cons kv rest ih =>
    intro st st' h
    obtain ⟨k, v⟩ := kv
    simp only [writeAnns] at h
    cases hw : writeProperty v with
    | written p =>
      rw [hw] at h
      dsimp only at h
      exact ih (stSetProp st i k p) st' h
    | droppedWarn =>
      rw [hw] at h
      dsimp only at h
      exact ih st st' h
    | crashed => rw [hw] at h; simp at h

theorem daNames_writeAnns {i : ℕ} {anns : Annotations} {st st' : WSt}
    (h : writeAnns i anns st = .ok st') : daNames st' = daNames st := by
  rw [daNames, (writeAnns_ok anns st st' h).1]; rfl

theorem mtNames_writeAnns {i : ℕ} {anns : Annotations} {st st' : WSt}
    (h : writeAnns i anns st = .ok st') : mtNames st' = mtNames st := by
  rw [mtNames, (writeAnns_ok anns st st' h).1]; rfl

theorem writeSignalRows_ok {typ base : String} {u df : Option String} {mdIdx : ℕ}
    {dims : List Dimension} {g : String} {tp : Option NixProp}
    (rows : List (List ℚ)) : ∀ (idx : ℕ) (st st' : WSt),
    writeSignalRows typ base u df mdIdx dims g tp rows idx st = .ok st' →
    daNames st' = daNames st ++ (List.range' idx rows.length).map (suffixed base) ∧
    mtNames st' = mtNames st ∧
    st'.createdCount = st.createdCount + rows.length ∧ st'.fresh = st.fresh ∧
    grpNames st' = grpNames st := by
  induction rows with
  | nil =>
    intro idx st st' h
    simp only [writeSignalRows, Except.ok.injEq] at h
    subst h
    simp [List.range']
  | cons r rs ih =>
    intro idx st st' h
    simp only [writeSignalRows] at h
    obtain ⟨stA, hA, h⟩ := except_bind_ok h
    obtain ⟨hA1, hA2, hA3, hA4, hA5⟩ := stCreateDA_ok hA
    cases tp with
    | none =>
      obtain ⟨hB1, hB2, hB3, hB4, hB5⟩ := ih _ _ _ h
      refine ⟨?_, ?_, ?_, ?_, ?_⟩
      · rw [hB1, daNames_modifyGroup, hA1]
        simp [List.range'_succ]
      · rw [hB2, mtNames_modifyGroup, hA2]
      · rw [hB3, createdCount_modifyGroup, hA3]
        simp only [List.length_cons]
        omega
      · rw [hB4, fresh_modifyGroup, hA4]
      · rw [hB5]
        exact (grpNames_modifyGroup g
          (fun gg => { gg with dataArrayNames := gg.dataArrayNames ++ [suffixed base idx] })
          _ (fun _ => rfl)).trans hA5
    | some p =>
      obtain ⟨hB1, hB2, hB3, hB4, hB5⟩ := ih _ _ _ h
      refine ⟨?_, ?_, ?_, ?_, ?_⟩
      · rw [hB1, daNames_modifyGroup, daNames_stSetProp, hA1]
        simp [List.range'_succ]
      · rw [hB2, mtNames_modifyGroup, mtNames_stSetProp, hA2]
      · rw [hB3, createdCount_modifyGroup, createdCount_stSetProp, hA3]
        simp only [List.length_cons]
        omega
      · rw [hB4, fresh_modifyGroup, fresh_stSetProp, hA4]
      · rw [hB5]
        exact (grpNames_modifyGroup g
          (fun gg => { gg with dataArrayNames := gg.dataArrayNames ++ [suffixed base idx] })
          _ (fun _ => rfl)).trans ((grpNames_stSetProp _ _ _ _).trans hA5)

theorem mtNames_blk_eq {st st' : WSt} (h : st'.blk = st.blk) :
    mtNames st' = mtNames st := by
  unfold mtNames
  rw [h]

theorem daNames_blk_eq {st st' : WSt} (h : st'.blk = st.blk) :
    daNames st' = daNames st := by
  unfold daNames
  rw [h]

theorem any_name_map (l : List DataArray) (s : String) :
    (l.any fun d => decide (d.name = s)) =
      ((l.map (fun d => d.name)).any fun x => decide (x = s)) := by
  induction l with
  | nil => rfl
  | cons d ds ih => simp [List.any_cons, ih]

@[simp] theorem grpNames_addDAs (g : String) (ds : List String) (st : WSt) :
    grpNames (modifyGroup g
      (fun gg => { gg with dataArrayNames := gg.dataArrayNames ++ ds }) st) =
      grpNames st :=
  grpNames_modifyGroup _ _ _ (fun _ => rfl)

@[simp] theorem grpNames_setGroupDef (g : String) (d : Option String) (st : WSt) :
    grpNames (modifyGroup g (fun gg => { gg with definition := d }) st) =
      grpNames st :=
  grpNames_modifyGroup _ _ _ (fun _ => rfl)

@[simp] theorem grpNames_setGroupCreatedAt (g : String) (t : ℤ) (st : WSt) :
    grpNames (modifyGroup g (fun gg => { gg with createdAt := t }) st) =
      grpNames st :=
  grpNames_modifyGroup _ _ _ (fun _ => rfl)

theorem writeAnalogSignal_effects {sup : ℕ → String} {a : AnalogSignal} {g : String}
    {st : WSt} {a1 : AnalogSignal} {st1 : WSt}
    (h : writeAnalogSignal sup a g st = .ok (a1, st1)) :
    ∃ nm,
      a1 = { a with annotations := aset a.annotations "nix_name" (.astr nm) } ∧
      alookup a1.annotations "nix_name" = some (.astr nm) ∧
      (hasNixName a.annotations = true → a1 = a ∧ st1.fresh = st.fresh) ∧
      mtNames st1 = mtNames st ∧
      grpNames st1 = grpNames st ∧
      (if (daNames st).any (fun x => x = suffixed nm 0) then
        daNames st1 = daNames st ∧ st1.createdCount = st.createdCount
      else
        daNames st1 = daNames st ++
            (List.range' 0 (transposeRect a.signal.mags).length).map (suffixed nm) ∧
          st1.createdCount = st.createdCount +
            (transposeRect a.signal.mags).length) := by
  unfold writeAnalogSignal at h
  obtain ⟨⟨nm, anns1, stE⟩, hE, h⟩ := except_bind_ok h
  obtain ⟨he1, he2, heblk, hesecs, hens, hecc, heck, hesm, hnamed⟩ := ensureName_spec hE
  have hany : ∀ s, stE.blk.dataArrays.any (fun d => d.name = s) =
      (daNames st).any (fun x => x = s) := by
    intro s
    rw [heblk]
    unfold daNames
    exact any_name_map _ s
  refine ⟨nm, ?_⟩
  dsimp only at h
  split at h
  case isTrue hc =>
    simp only [Except.ok.injEq, Prod.mk.injEq] at h
    obtain ⟨ha1, hst1⟩ := h
    have hcond : (daNames st).any (fun x => x = suffixed nm 0) = true := by
      rw [← hany]; exact hc
    refine ⟨by rw [← ha1, he1], by rw [← ha1]; exact he2, ?_, ?_, ?_, ?_⟩
    · intro hn
      obtain ⟨hanns, hstE⟩ := hnamed hn
      constructor
      · rw [← ha1, hanns]
      · rw [← hst1, fresh_modifyGroup, hstE]
    · rw [← hst1, mtNames_modifyGroup]
      exact mtNames_blk_eq heblk
    · rw [← hst1]
      exact (grpNames_addDAs _ _ _).trans (grpNames_blk_eq heblk)
    · rw [hcond]
      simp only [if_true]
      constructor
      · rw [← hst1, daNames_modifyGroup]
        exact daNames_blk_eq heblk
      · rw [← hst1, createdCount_modifyGroup, hecc]
  case isFalse hc =>
    have hcond : (daNames st).any (fun x => x = suffixed nm 0) = false := by
      rw [← hany]
      exact Bool.not_eq_true _ ▸ (by simpa using hc)
    rcases hCS : stCreateSection nm "neo.analogsignal.metadata" stE with ⟨mdIdx, stC⟩
    rw [hCS] at h
    dsimp only at h
    have hC2 : (stCreateSection nm "neo.analogsignal.metadata" stE).2 = stC :=
      congrArg Prod.snd hCS
    obtain ⟨off, hoff, h⟩ := except_bind_ok h
    try dsimp only at h
    obtain ⟨stR, hR, h⟩ := except_bind_ok h
    obtain ⟨hR1, hR2, hR3, hR4, hR5⟩ := writeSignalRows_ok _ _ _ _ hR
    try dsimp only at h
    obtain ⟨stA, hA, h⟩ := except_bind_ok h
    obtain ⟨hAblk, hAcc, hAfr⟩ := writeAnns_ok _ _ _ hA
    simp only [Except.ok.injEq, Prod.mk.injEq] at h
    obtain ⟨ha1, hst1⟩ := h
    have hCda : daNames stC = daNames st := by
      rw [← hC2, daNames_stCreateSection, daNames_blk_eq heblk]
    have hCmt : mtNames stC = mtNames st := by
      rw [← hC2, mtNames_stCreateSection, mtNames_blk_eq heblk]
    have hCcc : stC.createdCount = st.createdCount := by
      rw [← hC2, createdCount_stCreateSection, hecc]
    have hCgrp : grpNames stC = grpNames st := by
      rw [← hC2, grpNames_stCreateSection, grpNames_blk_eq heblk]
    refine ⟨by rw [← ha1, he1], by rw [← ha1]; exact he2, ?_, ?_, ?_, ?_⟩
    · intro hn
      obtain ⟨hanns, hstE⟩ := hnamed hn
      constructor
      · rw [← ha1, hanns]
      · rw [← hst1]
        show stA.fresh = st.fresh
        rw [hAfr]
        show stR.fresh = st.fresh
        rw [hR4, ← hC2, fresh_stCreateSection, hstE]
    · rw [← hst1]
      show mtNames stA = mtNames st
      rw [mtNames_blk_eq hAblk]
      show mtNames stR = mtNames st
      rw [hR2, hCmt]
    · rw [← hst1]
      show grpNames stA = grpNames st
      rw [grpNames_blk_eq hAblk]
      show grpNames stR = grpNames st
      rw [hR5, hCgrp]
    · rw [hcond]
      simp only [Bool.false_eq_true, if_false]
      constructor
      · rw [← hst1]
        show daNames stA = _
        rw [daNames_blk_eq hAblk]
        show daNames stR = _
        rw [hR1, hCda]
      · rw [← hst1]
        show stA.createdCount = _
        rw [hAcc]
        show stR.createdCount = _
        rw [hR3, hCcc]

theorem getOrCreateSourceMd_ok {name typ : String} {parent : Option String}
    {st : WSt} {i : ℕ} {st' : WSt}
    (h : getOrCreateSourceMd name typ parent st = .ok (i, st')) :
    daNames st' = daNames st ∧ mtNames st' = mtNames st ∧
    st'.createdCount = st.createdCount ∧ st'.fresh = st.fresh ∧
    grpNames st' = grpNames st := by
  unfold getOrCreateSourceMd stCreateSection at h
  cases hf : findSource st parent name with
  | none =>
    rw [hf] at h
    dsimp only at h
    simp only [Except.ok.injEq, Prod.mk.injEq] at h
    obtain ⟨h1, h2⟩ := h
    subst h2
    exact ⟨rfl, rfl, rfl, rfl, rfl⟩
  | some s =>
    rw [hf] at h
    dsimp only at h
    cases hm : s.mdId with
    | none => rw [hm] at h; simp at h
    | some j =>
      rw [hm] at h
      simp only [Except.ok.injEq, Prod.mk.injEq] at h
      obtain ⟨h1, h2⟩ := h
      subst h2
      exact ⟨rfl, rfl, rfl, rfl, rfl⟩

theorem find_gname_any (l : List NixGroup) (n : String) :
    (l.find? (fun g => g.name = n)).isSome =
      (l.map (fun g => g.name)).any (fun x => x = n) := by
  induction l with
  | nil => rfl
  | cons a t ih => by_cases h : a.name = n <;> simp [List.find?, h, ih]

theorem getOrCreateGroupMd_ok {name : String} {st : WSt} {i : ℕ} {st' : WSt}
    (h : getOrCreateGroupMd name st = .ok (i, st')) :
    daNames st' = daNames st ∧ mtNames st' = mtNames st ∧
    st'.createdCount = st.createdCount ∧ st'.fresh = st.fresh ∧
    (if (grpNames st).any (fun x => x = name) then grpNames st' = grpNames st
     else grpNames st' = grpNames st ++ [name]) := by
  have hfa := find_gname_any st.blk.groups name
  unfold getOrCreateGroupMd stCreateSection at h
  cases hf : findGroup st name with
  | none =>
    rw [hf] at h
    dsimp only at h
    simp only [Except.ok.injEq, Prod.mk.injEq] at h
    obtain ⟨h1, h2⟩ := h
    subst h2
    have hcond : (grpNames st).any (fun x => x = name) = false := by
      unfold findGroup at hf
      rw [hf] at hfa
      exact hfa.symm
    refine ⟨rfl, rfl, rfl, rfl, ?_⟩
    rw [hcond]
    simp only [Bool.false_eq_true, if_false]
    simp [grpNames]
  | some g =>
    rw [hf] at h
    dsimp only at h
    cases hm : g.mdId with
    | none => rw [hm] at h; simp at h
    | some j =>
      rw [hm] at h
      simp only [Except.ok.injEq, Prod.mk.injEq] at h
      obtain ⟨h1, h2⟩ := h
      subst h2
      have hcond : (grpNames st).any (fun x => x = name) = true := by
        unfold findGroup at hf
        rw [hf] at hfa
        exact hfa.symm
      refine ⟨rfl, rfl, rfl, rfl, ?_⟩
      rw [hcond]
      simp only [if_true]

theorem writeIrregularSignal_effects {sup : ℕ → String}
    {a : IrregularlySampledSignal} {g : String} {st : WSt}
    {a1 : IrregularlySampledSignal} {st1 : WSt}
    (h : writeIrregularSignal sup a g st = .ok (a1, st1)) :
    ∃ nm,
      a1 = { a with annotations := aset a.annotations "nix_name" (.astr nm) } ∧
      alookup a1.annotations "nix_name" = some (.astr nm) ∧
      (hasNixName a.annotations = true → a1 = a ∧ st1.fresh = st.fresh) ∧
      mtNames st1 = mtNames st ∧
      grpNames st1 = grpNames st ∧
      (if (daNames st).any (fun x => x = suffixed nm 0) then
        daNames st1 = daNames st ∧ st1.createdCount = st.createdCount
      else
        daNames st1 = daNames st ++
            (List.range' 0 (transposeRect a.signal.mags).length).map (suffixed nm) ∧
          st1.createdCount = st.createdCount +
            (transposeRect a.signal.mags).length) := by
  unfold writeIrregularSignal at h
  obtain ⟨⟨nm, anns1, stE⟩, hE, h⟩ := except_bind_ok h
  obtain ⟨he1, he2, heblk, hesecs, hens, hecc, heck, hesm, hnamed⟩ := ensureName_spec hE
  have hany : ∀ s, stE.blk.dataArrays.any (fun d => d.name = s) =
      (daNames st).any (fun x => x = s) := by
    intro s
    rw [heblk]
    unfold daNames
    exact any_name_map _ s
  refine ⟨nm, ?_⟩
  dsimp only at h
  split at h
  case isTrue hc =>
    simp only [Except.ok.injEq, Prod.mk.injEq] at h
    obtain ⟨ha1, hst1⟩ := h
    have hcond : (daNames st).any (fun x => x = suffixed nm 0) = true := by
      rw [← hany]; exact hc
    refine ⟨by rw [← ha1, he1], by rw [← ha1]; exact he2, ?_, ?_, ?_, ?_⟩
    · intro hn
      obtain ⟨hanns, hstE⟩ := hnamed hn
      constructor
      · rw [← ha1, hanns]
      · rw [← hst1, fresh_modifyGroup, hstE]
    · rw [← hst1, mtNames_modifyGroup]
      exact mtNames_blk_eq heblk
    · rw [← hst1]
      exact (grpNames_addDAs _ _ _).trans (grpNames_blk_eq heblk)
    · rw [hcond]
      simp only [if_true]
      constructor
      · rw [← hst1, daNames_modifyGroup]
        exact daNames_blk_eq heblk
      · rw [← hst1, createdCount_modifyGroup, hecc]
  case isFalse hc =>
    have hcond : (daNames st).any (fun x => x = suffixed nm 0) = false := by
      rw [← hany]
      exact Bool.not_eq_true _ ▸ (by simpa using hc)
    rcases hCS : stCreateSection nm "neo.irregularlysampledsignal.metadata" stE with ⟨mdIdx, stC⟩
    rw [hCS] at h
    dsimp only at h
    have hC2 : (stCreateSection nm "neo.irregularlysampledsignal.metadata" stE).2 = stC :=
      congrArg Prod.snd hCS
    obtain ⟨stR, hR, h⟩ := except_bind_ok h
    obtain ⟨hR1, hR2, hR3, hR4, hR5⟩ := writeSignalRows_ok _ _ _ _ hR
    try dsimp only at h
    obtain ⟨stA, hA, h⟩ := except_bind_ok h
    obtain ⟨hAblk, hAcc, hAfr⟩ := writeAnns_ok _ _ _ hA
    simp only [Except.ok.injEq, Prod.mk.injEq] at h
    obtain ⟨ha1, hst1⟩ := h
    have hCda : daNames stC = daNames st := by
      rw [← hC2, daNames_stCreateSection, daNames_blk_eq heblk]
    have hCmt : mtNames stC = mtNames st := by
      rw [← hC2, mtNames_stCreateSection, mtNames_blk_eq heblk]
    have hCcc : stC.createdCount = st.createdCount := by
      rw [← hC2, createdCount_stCreateSection, hecc]
    have hCgrp : grpNames stC = grpNames st := by
      rw [← hC2, grpNames_stCreateSection, grpNames_blk_eq heblk]
    refine ⟨by rw [← ha1, he1], by rw [← ha1]; exact he2, ?_, ?_, ?_, ?_⟩
    · intro hn
      obtain ⟨hanns, hstE⟩ := hnamed hn
      constructor
      · rw [← ha1, hanns]
      · rw [← hst1]
        show stA.fresh = st.fresh
        rw [hAfr]
        show stR.fresh = st.fresh
        rw [hR4, ← hC2, fresh_stCreateSection, hstE]
    · rw [← hst1]
      show mtNames stA = mtNames st
      rw [mtNames_blk_eq hAblk]
      show mtNames stR = mtNames st
      rw [hR2, hCmt]
    · rw [← hst1]
      show grpNames stA = grpNames st
      rw [grpNames_blk_eq hAblk]
      show grpNames stR = grpNames st
      rw [hR5, hCgrp]
    · rw [hcond]
      simp only [Bool.false_eq_true, if_false]
      constructor
      · rw [← hst1]
        show daNames stA = _
        rw [daNames_blk_eq hAblk]
        show daNames stR = _
        rw [hR1, hCda]
      · rw [← hst1]
        show stA.createdCount = _
        rw [hAcc]
        show stR.createdCount = _
        rw [hR3, hCcc]

theorem any_mtname_map (l : List MultiTag) (s : String) :
    (l.any fun m => decide (m.name = s)) =
      ((l.map (fun m => m.name)).any fun x => decide (x = s)) := by
  induction l with
  | nil => rfl
  | cons d ds ih => simp [List.any_cons, ih]

theorem writeEvent_effects {sup : ℕ → String} {ev : NeoEvent} {g : String}
    {st : WSt} {ev1 : NeoEvent} {st1 : WSt}
    (h : writeEvent sup ev g st = .ok (ev1, st1)) :
    ∃ nm,
      ev1 = { ev with annotations := aset ev.annotations "nix_name" (.astr nm) } ∧
      alookup ev1.annotations "nix_name" = some (.astr nm) ∧
      (hasNixName ev.annotations = true → ev1 = ev ∧ st1.fresh = st.fresh) ∧
      grpNames st1 = grpNames st ∧
      (if (mtNames st).any (fun x => x = nm) then
        daNames st1 = daNames st ∧ mtNames st1 = mtNames st ∧
          st1.createdCount = st.createdCount
      else
        daNames st1 = daNames st ++ [nm ++ ".times"] ∧
          mtNames st1 = mtNames st ++ [nm] ∧
          st1.createdCount = st.createdCount + 1) := by
  unfold writeEvent at h
  obtain ⟨⟨nm, anns1, stE⟩, hE, h⟩ := except_bind_ok h
  obtain ⟨he1, he2, heblk, hesecs, hens, hecc, heck, hesm, hnamed⟩ := ensureName_spec hE
  have hany : stE.blk.multiTags.any (fun m => m.name = nm) =
      (mtNames st).any (fun x => x = nm) := by
    rw [heblk]
    unfold mtNames
    exact any_mtname_map _ nm
  refine ⟨nm, ?_⟩
  dsimp only at h
  split at h
  case isTrue hc =>
    simp only [Except.ok.injEq, Prod.mk.injEq] at h
    obtain ⟨ha1, hst1⟩ := h
    have hcond : (mtNames st).any (fun x => x = nm) = true := by rw [← hany]; exact hc
    refine ⟨by rw [← ha1, he1], by rw [← ha1]; exact he2, ?_, ?_, ?_⟩
    · intro hn
      obtain ⟨hanns, hstE⟩ := hnamed hn
      exact ⟨by rw [← ha1, hanns], by rw [← hst1, fresh_groupAddMT, hstE]⟩
    · rw [← hst1, grpNames_groupAddMT]
      exact grpNames_blk_eq heblk
    · rw [hcond]
      simp only [if_true]
      refine ⟨?_, ?_, ?_⟩
      · rw [← hst1, daNames_groupAddMT]
        exact daNames_blk_eq heblk
      · rw [← hst1, mtNames_groupAddMT]
        exact mtNames_blk_eq heblk
      · rw [← hst1, createdCount_groupAddMT, hecc]
  case isFalse hc =>
    have hcond : (mtNames st).any (fun x => x = nm) = false := by
      rw [← hany]
      exact Bool.not_eq_true _ ▸ (by simpa using hc)
    obtain ⟨stD, hD, h⟩ := except_bind_ok h
    obtain ⟨hD1, hD2, hD3, hD4, hD5⟩ := stCreateDA_ok hD
    try dsimp only at h
    rcases hCS : stCreateSection nm "neo.event.metadata" stD with ⟨mdIdx, stC⟩
    rw [hCS] at h
    dsimp only at h
    have hC2 : (stCreateSection nm "neo.event.metadata" stD).2 = stC :=
      congrArg Prod.snd hCS
    obtain ⟨stA, hA, h⟩ := except_bind_ok h
    obtain ⟨hAblk, hAcc, hAfr⟩ := writeAnns_ok _ _ _ hA
    simp only [Except.ok.injEq, Prod.mk.injEq] at h
    obtain ⟨ha1, hst1⟩ := h
    have hCda : daNames stC = daNames stD := by rw [← hC2, daNames_stCreateSection]
    have hCmt : mtNames stC = mtNames stD := by rw [← hC2, mtNames_stCreateSection]
    have hCcc : stC.createdCount = stD.createdCount := by
      rw [← hC2, createdCount_stCreateSection]
    have hCfr : stC.fresh = stD.fresh := by rw [← hC2, fresh_stCreateSection]
    have hAda : daNames stA = daNames stC := by
      have hb := daNames_blk_eq hAblk
      simpa using hb
    have hAmt : mtNames stA = mtNames stC ++ [nm] := by
      have hb := mtNames_blk_eq hAblk
      rw [mtNames_stSetNeoName, mtNames_stAddMultiTag] at hb
      exact hb
    have hAcc2 : stA.createdCount = stC.createdCount := by simpa using hAcc
    have hAfr2 : stA.fresh = stC.fresh := by simpa using hAfr
    have hCgrp : grpNames stC = grpNames stD := by rw [← hC2, grpNames_stCreateSection]
    have hAgrp : grpNames stA = grpNames stC := by
      have hb := grpNames_blk_eq hAblk
      simpa using hb
    refine ⟨by rw [← ha1, he1], by rw [← ha1]; exact he2, ?_, ?_, ?_⟩
    · intro hn
      obtain ⟨hanns, hstE⟩ := hnamed hn
      constructor
      · rw [← ha1, hanns]
      · rw [← hst1, fresh_groupAddMT, hAfr2, hCfr, hD4, hstE]
    · rw [← hst1, grpNames_groupAddMT, hAgrp, hCgrp, hD5, grpNames_blk_eq heblk]
    · rw [hcond]
      simp only [Bool.false_eq_true, if_false]
      refine ⟨?_, ?_, ?_⟩
      · rw [← hst1, daNames_groupAddMT, hAda, hCda, hD1, daNames_blk_eq heblk]
      · rw [← hst1, mtNames_groupAddMT, hAmt, hCmt, hD2, mtNames_blk_eq heblk]
      · rw [← hst1, createdCount_groupAddMT, hAcc2, hCcc, hD3, hecc]

theorem writeEpoch_effects {sup : ℕ → String} {ep : NeoEpoch} {g : String}
    {st : WSt} {ep1 : NeoEpoch} {st1 : WSt}
    (h : writeEpoch sup ep g st = .ok (ep1, st1)) :
    ∃ nm,
      ep1 = { ep with annotations := aset ep.annotations "nix_name" (.astr nm) } ∧
      alookup ep1.annotations "nix_name" = some (.astr nm) ∧
      (hasNixName ep.annotations = true → ep1 = ep ∧ st1.fresh = st.fresh) ∧
      grpNames st1 = grpNames st ∧
      (if (mtNames st).any (fun x => x = nm) then
        daNames st1 = daNames st ∧ mtNames st1 = mtNames st ∧
          st1.createdCount = st.createdCount
      else
        daNames st1 = daNames st ++ [nm ++ ".times", nm ++ ".durations"] ∧
          mtNames st1 = mtNames st ++ [nm] ∧
          st1.createdCount = st.createdCount + 2) := by
  unfold writeEpoch at h
  obtain ⟨⟨nm, anns1, stE⟩, hE, h⟩ := except_bind_ok h
  obtain ⟨he1, he2, heblk, hesecs, hens, hecc, heck, hesm, hnamed⟩ := ensureName_spec hE
  have hany : stE.blk.multiTags.any (fun m => m.name = nm) =
      (mtNames st).any (fun x => x = nm) := by
    rw [heblk]
    unfold mtNames
    exact any_mtname_map _ nm
  refine ⟨nm, ?_⟩
  dsimp only at h
  split at h
  case isTrue hc =>
    simp only [Except.ok.injEq, Prod.mk.injEq] at h
    obtain ⟨ha1, hst1⟩ := h
    have hcond : (mtNames st).any (fun x => x = nm) = true := by rw [← hany]; exact hc
    refine ⟨by rw [← ha1, he1], by rw [← ha1]; exact he2, ?_, ?_, ?_⟩
    · intro hn
      obtain ⟨hanns, hstE⟩ := hnamed hn
      exact ⟨by rw [← ha1, hanns], by rw [← hst1, fresh_groupAddMT, hstE]⟩
    · rw [← hst1, grpNames_groupAddMT]
      exact grpNames_blk_eq heblk
    · rw [hcond]
      simp only [if_true]
      refine ⟨?_, ?_, ?_⟩
      · rw [← hst1, daNames_groupAddMT]
        exact daNames_blk_eq heblk
      · rw [← hst1, mtNames_groupAddMT]
        exact mtNames_blk_eq heblk
      · rw [← hst1, createdCount_groupAddMT, hecc]
  case isFalse hc =>
    have hcond : (mtNames st).any (fun x => x = nm) = false := by
      rw [← hany]
      exact Bool.not_eq_true _ ▸ (by simpa using hc)
    obtain ⟨stD, hD, h⟩ := except_bind_ok h
    obtain ⟨hD1, hD2, hD3, hD4, hD5⟩ := stCreateDA_ok hD
    try dsimp only at h
    obtain ⟨stF, hF, h⟩ := except_bind_ok h
    obtain ⟨hF1, hF2, hF3, hF4, hF5⟩ := stCreateDA_ok hF
    try dsimp only at h
    rcases hCS : stCreateSection nm "neo.epoch.metadata" stF with ⟨mdIdx, stC⟩
    rw [hCS] at h
    dsimp only at h
    have hC2 : (stCreateSection nm "neo.epoch.metadata" stF).2 = stC :=
      congrArg Prod.snd hCS
    obtain ⟨stA, hA, h⟩ := except_bind_ok h
    obtain ⟨hAblk, hAcc, hAfr⟩ := writeAnns_ok _ _ _ hA
    simp only [Except.ok.injEq, Prod.mk.injEq] at h
    obtain ⟨ha1, hst1⟩ := h
    have hCda : daNames stC = daNames stF := by rw [← hC2, daNames_stCreateSection]
    have hCmt : mtNames stC = mtNames stF := by rw [← hC2, mtNames_stCreateSection]
    have hCcc : stC.createdCount = stF.createdCount := by
      rw [← hC2, createdCount_stCreateSection]
    have hCfr : stC.fresh = stF.fresh := by rw [← hC2, fresh_stCreateSection]
    have hCgrp : grpNames stC = grpNames stF := by rw [← hC2, grpNames_stCreateSection]
    have hAda : daNames stA = daNames stC := by
      have hb := daNames_blk_eq hAblk
      simpa using hb
    have hAmt : mtNames stA = mtNames stC ++ [nm] := by
      have hb := mtNames_blk_eq hAblk
      rw [mtNames_stSetNeoName, mtNames_stAddMultiTag] at hb
      exact hb
    have hAcc2 : stA.createdCount = stC.createdCount := by simpa using hAcc
    have hAfr2 : stA.fresh = stC.fresh := by simpa using hAfr
    have hAgrp : grpNames stA = grpNames stC := by
      have hb := grpNames_blk_eq hAblk
      simpa using hb
    refine ⟨by rw [← ha1, he1], by rw [← ha1]; exact he2, ?_, ?_, ?_⟩
    · intro hn
      obtain ⟨hanns, hstE⟩ := hnamed hn
      constructor
      · rw [← ha1, hanns]
      · rw [← hst1, fresh_groupAddMT, hAfr2, hCfr, hF4, hD4, hstE]
    · rw [← hst1, grpNames_groupAddMT, hAgrp, hCgrp, hF5, hD5, grpNames_blk_eq heblk]
    · rw [hcond]
      simp only [Bool.false_eq_true, if_false]
      refine ⟨?_, ?_, ?_⟩
      · rw [← hst1, daNames_groupAddMT, hAda, hCda, hF1, hD1, daNames_blk_eq heblk]
        simp
      · rw [← hst1, mtNames_groupAddMT, hAmt, hCmt, hF2, hD2, mtNames_blk_eq heblk]
      · rw [← hst1, createdCount_groupAddMT, hAcc2, hCcc, hF3, hD3, hecc]

@[simp] theorem mtNames_addFeature (n : String) (w : String) (st : WSt) :
    mtNames (stModifyMT n
      (fun m => { m with featuresNames := m.featuresNames ++ [w] }) st) =
      mtNames st :=
  mtNames_stModifyMT _ _ _ (fun _ => rfl)

theorem writeSpikeTrain_effects {sup : ℕ → String} {strain : SpikeTrain}
    {g : String} {st : WSt} {s1 : SpikeTrain} {st1 : WSt}
    (h : writeSpikeTrain sup strain g st = .ok (s1, st1)) :
    ∃ nm,
      s1 = { strain with annotations := aset strain.annotations "nix_name" (.astr nm) } ∧
      alookup s1.annotations "nix_name" = some (.astr nm) ∧
      (hasNixName strain.annotations = true → s1 = strain ∧ st1.fresh = st.fresh) ∧
      grpNames st1 = grpNames st ∧
      (if (mtNames st).any (fun x => x = nm) then
        daNames st1 = daNames st ∧ mtNames st1 = mtNames st ∧
          st1.createdCount = st.createdCount
      else
        daNames st1 = daNames st ++
            ((nm ++ ".times") ::
              (match strain.waveforms with
               | none => []
               | some _ => [nm ++ ".waveforms"])) ∧
          mtNames st1 = mtNames st ++ [nm] ∧
          st1.createdCount = st.createdCount +
            (match strain.waveforms with | none => 1 | some _ => 2)) := by
  unfold writeSpikeTrain at h
  obtain ⟨⟨nm, anns1, stE⟩, hE, h⟩ := except_bind_ok h
  obtain ⟨he1, he2, heblk, hesecs, hens, hecc, heck, hesm, hnamed⟩ := ensureName_spec hE
  have hany : stE.blk.multiTags.any (fun m => m.name = nm) =
      (mtNames st).any (fun x => x = nm) := by
    rw [heblk]
    unfold mtNames
    exact any_mtname_map _ nm
  refine ⟨nm, ?_⟩
  dsimp only at h
  split at h
  case isTrue hc =>
    simp only [Except.ok.injEq, Prod.mk.injEq] at h
    obtain ⟨ha1, hst1⟩ := h
    have hcond : (mtNames st).any (fun x => x = nm) = true := by rw [← hany]; exact hc
    refine ⟨by rw [← ha1, he1], by rw [← ha1]; exact he2, ?_, ?_, ?_⟩
    · intro hn
      obtain ⟨hanns, hstE⟩ := hnamed hn
      exact ⟨by rw [← ha1, hanns], by rw [← hst1, fresh_groupAddMT, hstE]⟩
    · rw [← hst1, grpNames_groupAddMT]
      exact grpNames_blk_eq heblk
    · rw [hcond]
      simp only [if_true]
      refine ⟨?_, ?_, ?_⟩
      · rw [← hst1, daNames_groupAddMT]
        exact daNames_blk_eq heblk
      · rw [← hst1, mtNames_groupAddMT]
        exact mtNames_blk_eq heblk
      · rw [← hst1, createdCount_groupAddMT, hecc]
  case isFalse hc =>
    have hcond : (mtNames st).any (fun x => x = nm) = false := by
      rw [← hany]
      exact Bool.not_eq_true _ ▸ (by simpa using hc)
    obtain ⟨stD, hD, h⟩ := except_bind_ok h
    obtain ⟨hD1, hD2, hD3, hD4, hD5⟩ := stCreateDA_ok hD
    try dsimp only at h
    rcases hCS : stCreateSection nm "neo.spiketrain.metadata" stD with ⟨mdIdx, stC⟩
    rw [hCS] at h
    dsimp only at h
    have hC2 : (stCreateSection nm "neo.spiketrain.metadata" stD).2 = stC :=
      congrArg Prod.snd hCS
    obtain ⟨stA, hA, h⟩ := except_bind_ok h
    obtain ⟨hAblk, hAcc, hAfr⟩ := writeAnns_ok _ _ _ hA
    try dsimp only at h
    have hCda : daNames stC = daNames stD := by rw [← hC2, daNames_stCreateSection]
    have hCmt : mtNames stC = mtNames stD := by rw [← hC2, mtNames_stCreateSection]
    have hCcc : stC.createdCount = stD.createdCount := by
      rw [← hC2, createdCount_stCreateSection]
    have hCfr : stC.fresh = stD.fresh := by rw [← hC2, fresh_stCreateSection]
    have hCgrp : grpNames stC = grpNames stD := by rw [← hC2, grpNames_stCreateSection]
    have hAda : daNames stA = daNames stC := by
      have hb := daNames_blk_eq hAblk
      simpa using hb
    have hAmt : mtNames stA = mtNames stC ++ [nm] := by
      have hb := mtNames_blk_eq hAblk
      rw [mtNames_stSetProp, mtNames_stSetProp, mtNames_stSetNeoName,
        mtNames_stAddMultiTag] at hb
      exact hb
    have hAcc2 : stA.createdCount = stC.createdCount := by simpa using hAcc
    have hAfr2 : stA.fresh = stC.fresh := by simpa using hAfr
    have hAgrp : grpNames stA = grpNames stC := by
      have hb := grpNames_blk_eq hAblk
      simpa using hb
    cases hwf : strain.waveforms with
    | none =>
      rw [hwf] at h
      dsimp only at h
      obtain ⟨y, hy, h⟩ := except_bind_ok h
      simp only [pure, Except.pure, Except.ok.injEq] at hy
      subst hy
      dsimp only at h
      cases hls : strain.left_sweep with
      | none =>
        rw [hls] at h
        dsimp only at h
        simp only [Except.ok.injEq, Prod.mk.injEq] at h
        obtain ⟨ha1, hst1⟩ := h
        refine ⟨by rw [← ha1, he1], by rw [← ha1]; exact he2, ?_, ?_, ?_⟩
        · intro hn
          obtain ⟨hanns, hstE⟩ := hnamed hn
          constructor
          · rw [← ha1, hanns, ← hwf, ← hls]
          · rw [← hst1, fresh_groupAddMT, hAfr2, hCfr, hD4, hstE]
        · rw [← hst1, grpNames_groupAddMT, hAgrp, hCgrp, hD5,
            grpNames_blk_eq heblk]
        · rw [hcond]
          simp only [Bool.false_eq_true, if_false]
          refine ⟨?_, ?_, ?_⟩
          · rw [← hst1, daNames_groupAddMT, hAda, hCda, hD1,
              daNames_blk_eq heblk]
          · rw [← hst1, mtNames_groupAddMT, hAmt, hCmt, hD2,
              mtNames_blk_eq heblk]
          · rw [← hst1, createdCount_groupAddMT, hAcc2, hCcc, hD3, hecc]
      | some ls =>
        rw [hls] at h
        dsimp only at h
        simp at h
    | some wf =>
      rw [hwf] at h
      dsimp only at h
      cases hsp : strain.sampling_period with
      | none =>
        rw [hsp] at h
        dsimp only at h
        simp [Bind.bind, Except.bind] at h
      | some sp =>
        rw [hsp] at h
        dsimp only at h
        obtain ⟨sp2, hsp2, h⟩ := except_bind_ok h
        simp only [pure, Except.pure, Except.ok.injEq] at hsp2
        subst hsp2
        rcases hCS2 : stCreateSection (nm ++ ".waveforms") "neo.waveforms.metadata"
          (groupAddMT g nm stA) with ⟨wfMd, stG⟩
        rw [hCS2] at h
        dsimp only at h
        have hG2 : (stCreateSection (nm ++ ".waveforms") "neo.waveforms.metadata"
            (groupAddMT g nm stA)).2 = stG := congrArg Prod.snd hCS2
        obtain ⟨stH, hH, h⟩ := except_bind_ok h
        obtain ⟨hH1, hH2, hH3, hH4, hH5⟩ := stCreateDA_ok hH
        obtain ⟨y, hy, h⟩ := except_bind_ok h
        simp only [pure, Except.pure, Except.ok.injEq] at hy
        subst hy
        dsimp only at h
        have hGda : daNames stG = daNames stA := by
          rw [← hG2, daNames_stCreateSection, daNames_groupAddMT]
        have hGmt : mtNames stG = mtNames stA := by
          rw [← hG2, mtNames_stCreateSection, mtNames_groupAddMT]
        have hGcc : stG.createdCount = stA.createdCount := by
          rw [← hG2, createdCount_stCreateSection, createdCount_groupAddMT]
        have hGfr : stG.fresh = stA.fresh := by
          rw [← hG2, fresh_stCreateSection, fresh_groupAddMT]
        have hGgrp : grpNames stG = grpNames stA := by
          rw [← hG2, grpNames_stCreateSection, grpNames_groupAddMT]
        cases hls : strain.left_sweep with
        | none =>
          rw [hls] at h
          dsimp only at h
          simp only [Except.ok.injEq, Prod.mk.injEq] at h
          obtain ⟨ha1, hst1⟩ := h
          refine ⟨by rw [← ha1, he1], by rw [← ha1]; exact he2, ?_, ?_, ?_⟩
          · intro hn
            obtain ⟨hanns, hstE⟩ := hnamed hn
            constructor
            · rw [← ha1, hanns, ← hwf, ← hsp, ← hls]
            · rw [← hst1, fresh_stModifyMT, hH4, hGfr, hAfr2, hCfr, hD4, hstE]
          · rw [← hst1, grpNames_stModifyMT, hH5, hGgrp, hAgrp, hCgrp, hD5,
              grpNames_blk_eq heblk]
          · rw [hcond]
            simp only [Bool.false_eq_true, if_false]
            refine ⟨?_, ?_, ?_⟩
            · rw [← hst1, daNames_stModifyMT, hH1, hGda, hAda, hCda, hD1,
                daNames_blk_eq heblk]
              simp
            · rw [← hst1, mtNames_addFeature, hH2, hGmt, hAmt, hCmt, hD2,
                mtNames_blk_eq heblk]
            · rw [← hst1, createdCount_stModifyMT, hH3, hGcc, hAcc2, hCcc,
                hD3, hecc]
        | some ls =>
          rw [hls] at h
          dsimp only at h
          simp only [Except.ok.injEq, Prod.mk.injEq] at h
          obtain ⟨ha1, hst1⟩ := h
          refine ⟨by rw [← ha1, he1], by rw [← ha1]; exact he2, ?_, ?_, ?_⟩
          · intro hn
            obtain ⟨hanns, hstE⟩ := hnamed hn
            constructor
            · rw [← ha1, hanns, ← hwf, ← hsp, ← hls]
            · rw [← hst1, fresh_stSetProp, fresh_stModifyMT, hH4, hGfr, hAfr2,
                hCfr, hD4, hstE]
          · rw [← hst1, grpNames_stSetProp, grpNames_stModifyMT, hH5, hGgrp,
              hAgrp, hCgrp, hD5, grpNames_blk_eq heblk]
          · rw [hcond]
            simp only [Bool.false_eq_true, if_false]
            refine ⟨?_, ?_, ?_⟩
            · rw [← hst1, daNames_stSetProp, daNames_stModifyMT, hH1, hGda,
                hAda, hCda, hD1, daNames_blk_eq heblk]
              simp
            · rw [← hst1, mtNames_stSetProp, mtNames_addFeature, hH2, hGmt,
                hAmt, hCmt, hD2, mtNames_blk_eq heblk]
            · rw [← hst1, createdCount_stSetProp, createdCount_stModifyMT, hH3,
                hGcc, hAcc2, hCcc, hD3, hecc]

/-! ### Preservation of the name-relevant store state -/

def sameNames (st' st : WSt) : Prop :=
  daNames st' = daNames st ∧ mtNames st' = mtNames st ∧ grpNames st' = grpNames st

theorem sameNames_refl (st : WSt) : sameNames st st := ⟨rfl, rfl, rfl⟩

theorem sameNames_trans {a b c : WSt} (h1 : sameNames a b) (h2 : sameNames b c) :
    sameNames a c :=
  ⟨h1.1.trans h2.1, h1.2.1.trans h2.2.1, h1.2.2.trans h2.2.2⟩

theorem sameNames_of_blk {st' st : WSt} (h : st'.blk = st.blk) : sameNames st' st :=
  ⟨daNames_blk_eq h, mtNames_blk_eq h, grpNames_blk_eq h⟩

/-- A step that changes none of the name-relevant state, the bulk-array
    counter or the identifier supply. -/
def inert (st' st : WSt) : Prop :=
  sameNames st' st ∧ st'.createdCount = st.createdCount ∧ st'.fresh = st.fresh

theorem inert_refl (st : WSt) : inert st st := ⟨sameNames_refl st, rfl, rfl⟩

theorem inert_trans {a b c : WSt} (h1 : inert a b) (h2 : inert b c) : inert a c :=
  ⟨sameNames_trans h1.1 h2.1, h1.2.1.trans h2.2.1, h1.2.2.trans h2.2.2⟩

theorem inert_stSetProp (st : WSt) (i : ℕ) (k : String) (p : NixProp) :
    inert (stSetProp st i k p) st := ⟨⟨rfl, rfl, rfl⟩, rfl, rfl⟩

theorem inert_stSetNeoName (st : WSt) (i : ℕ) (n : Option String) :
    inert (stSetNeoName st i n) st := ⟨⟨rfl, rfl, rfl⟩, rfl, rfl⟩

theorem inert_updateSourceDef (p : Option String) (n : String) (d : Option String)
    (st : WSt) : inert (updateSourceDef p n d st) st := ⟨⟨rfl, rfl, rfl⟩, rfl, rfl⟩

theorem inert_getOrCreateSourceMd {name typ : String} {parent : Option String}
    {st : WSt} {i : ℕ} {st' : WSt}
    (h : getOrCreateSourceMd name typ parent st = .ok (i, st')) : inert st' st := by
  obtain ⟨h1, h2, h3, h4, h5⟩ := getOrCreateSourceMd_ok h
  exact ⟨⟨h1, h2, h5⟩, h3, h4⟩

theorem inert_writeAnns {i : ℕ} {anns : Annotations} {st st' : WSt}
    (h : writeAnns i anns st = .ok st') : inert st' st := by
  obtain ⟨h1, h2, h3⟩ := writeAnns_ok _ _ _ h
  exact ⟨sameNames_of_blk h1, h2, h3⟩

/-- The per-channel child-source loop touches only sources and
    metadata. -/
theorem writeChannel_ok {chxName : String} {defin : Option String}
    {chanNames : List String} {chanIds : List ℤ}
    {coords : Option (List (List Quantity1))} (channels : List ℤ) :
    ∀ (idx : ℕ) (st st' : WSt),
    writeChannel chxName defin chanNames chanIds coords channels idx st = .ok st' →
    inert st' st := by
  induction channels with
  | nil =>
    intro idx st st' h
    simp only [writeChannel, Except.ok.injEq] at h
    subst h
    exact inert_refl st
  | cons c rest ih =>
    intro idx st st' h
    simp only [writeChannel] at h
    obtain ⟨⟨chanMd, stM⟩, hM, h⟩ := except_bind_ok h
    have hMi := inert_getOrCreateSourceMd hM
    dsimp only at h
    split at h
    · cases hg1 : chanNames.get? idx with
      | none => rw [hg1] at h; simp [Bind.bind, Except.bind] at h
      | some nmv =>
        rw [hg1] at h
        obtain ⟨y1, hy1, h⟩ := except_bind_ok h
        simp only [pure, Except.pure, Except.ok.injEq] at hy1
        subst hy1
        split at h
        · cases hg2 : chanIds.get? idx with
          | none => rw [hg2] at h; simp [Bind.bind, Except.bind] at h
          | some cid =>
            rw [hg2] at h
            obtain ⟨y2, hy2, h⟩ := except_bind_ok h
            simp only [pure, Except.pure, Except.ok.injEq] at hy2
            subst hy2
            cases coords with
            | none =>
              obtain ⟨y3, hy3, h⟩ := except_bind_ok h
              simp only [pure, Except.pure, Except.ok.injEq] at hy3
              subst hy3
              exact inert_trans (ih _ _ _ h) (inert_trans ⟨⟨by simp, by simp, by simp⟩, by simp, by simp⟩ hMi)
            | some rows =>
              dsimp only at h
              cases hg3 : rows.get? idx with
              | none => rw [hg3] at h; simp [Bind.bind, Except.bind] at h
              | some row =>
                rw [hg3] at h
                dsimp only at h
                cases hh : row.head? with
                | none => rw [hh] at h; simp [Bind.bind, Except.bind] at h
                | some p0 =>
                  rw [hh] at h
                  dsimp only at h
                  obtain ⟨mags, hmags, h⟩ := except_bind_ok h
                  obtain ⟨y3, hy3, h⟩ := except_bind_ok h
                  simp only [pure, Except.pure, Except.ok.injEq] at hy3
                  subst hy3
                  exact inert_trans (ih _ _ _ h) (inert_trans ⟨⟨by simp, by simp, by simp⟩, by simp, by simp⟩ hMi)
        · obtain ⟨y2, hy2, h⟩ := except_bind_ok h
          simp only [pure, Except.pure, Except.ok.injEq] at hy2
          subst hy2
          cases coords with
          | none =>
            obtain ⟨y3, hy3, h⟩ := except_bind_ok h
            simp only [pure, Except.pure, Except.ok.injEq] at hy3
            subst hy3
            exact inert_trans (ih _ _ _ h) (inert_trans ⟨⟨by simp, by simp, by simp⟩, by simp, by simp⟩ hMi)
          | some rows =>
            dsimp only at h
            cases hg3 : rows.get? idx with
            | none => rw [hg3] at h; simp [Bind.bind, Except.bind] at h
            | some row =>
              rw [hg3] at h
              dsimp only at h
              cases hh : row.head? with
              | none => rw [hh] at h; simp [Bind.bind, Except.bind] at h
              | some p0 =>
                rw [hh] at h
                dsimp only at h
                obtain ⟨mags, hmags, h⟩ := except_bind_ok h
                obtain ⟨y3, hy3, h⟩ := except_bind_ok h
                simp only [pure, Except.pure, Except.ok.injEq] at hy3
                subst hy3
                exact inert_trans (ih _ _ _ h) (inert_trans ⟨⟨by simp, by simp, by simp⟩, by simp, by simp⟩ hMi)
    · obtain ⟨y1, hy1, h⟩ := except_bind_ok h
      simp only [pure, Except.pure, Except.ok.injEq] at hy1
      subst hy1
      split at h
      · cases hg2 : chanIds.get? idx with
        | none => rw [hg2] at h; simp [Bind.bind, Except.bind] at h
        | some cid =>
          rw [hg2] at h
          obtain ⟨y2, hy2, h⟩ := except_bind_ok h
          simp only [pure, Except.pure, Except.ok.injEq] at hy2
          subst hy2
          cases coords with
          | none =>
            obtain ⟨y3, hy3, h⟩ := except_bind_ok h
            simp only [pure, Except.pure, Except.ok.injEq] at hy3
            subst hy3
            exact inert_trans (ih _ _ _ h) (inert_trans ⟨⟨by simp, by simp, by simp⟩, by simp, by simp⟩ hMi)
          | some rows =>
            dsimp only at h
            cases hg3 : rows.get? idx with
            | none => rw [hg3] at h; simp [Bind.bind, Except.bind] at h
            | some row =>
              rw [hg3] at h
              dsimp only at h
              cases hh : row.head? with
              | none => rw [hh] at h; simp [Bind.bind, Except.bind] at h
              | some p0 =>
                rw [hh] at h
                dsimp only at h
                obtain ⟨mags, hmags, h⟩ := except_bind_ok h
                obtain ⟨y3, hy3, h⟩ := except_bind_ok h
                simp only [pure, Except.pure, Except.ok.injEq] at hy3
                subst hy3
                exact inert_trans (ih _ _ _ h) (inert_trans ⟨⟨by simp, by simp, by simp⟩, by simp, by simp⟩ hMi)
      · obtain ⟨y2, hy2, h⟩ := except_bind_ok h
        simp only [pure, Except.pure, Except.ok.injEq] at hy2
        subst hy2
        cases coords with
        | none =>
          obtain ⟨y3, hy3, h⟩ := except_bind_ok h
          simp only [pure, Except.pure, Except.ok.injEq] at hy3
          subst hy3
          exact inert_trans (ih _ _ _ h) (inert_trans ⟨⟨by simp, by simp, by simp⟩, by simp, by simp⟩ hMi)
        | some rows =>
          dsimp only at h
          cases hg3 : rows.get? idx with
          | none => rw [hg3] at h; simp [Bind.bind, Except.bind] at h
          | some row =>
            rw [hg3] at h
            dsimp only at h
            cases hh : row.head? with
            | none => rw [hh] at h; simp [Bind.bind, Except.bind] at h
            | some p0 =>
              rw [hh] at h
              dsimp only at h
              obtain ⟨mags, hmags, h⟩ := except_bind_ok h
              obtain ⟨y3, hy3, h⟩ := except_bind_ok h
              simp only [pure, Except.pure, Except.ok.injEq] at hy3
              subst hy3
              exact inert_trans (ih _ _ _ h) (inert_trans ⟨⟨by simp, by simp, by simp⟩, by simp, by simp⟩ hMi)

/-- NixIO._write_unit: identifier, source-with-metadata, attributes and
    annotations; no data arrays, tags or groups are touched. -/
theorem writeUnit_effects {sup : ℕ → String} {u : NeoUnit} {chxName : String}
    {st : WSt} {u1 : NeoUnit} {st1 : WSt}
    (h : writeUnit sup u chxName st = .ok (u1, st1)) :
    ∃ nm,
      u1 = { u with annotations := aset u.annotations "nix_name" (.astr nm) } ∧
      alookup u1.annotations "nix_name" = some (.astr nm) ∧
      (hasNixName u.annotations = true → u1 = u ∧ st1.fresh = st.fresh) ∧
      sameNames st1 st ∧ st1.createdCount = st.createdCount := by
  unfold writeUnit at h
  obtain ⟨⟨nm, anns1, stE⟩, hE, h⟩ := except_bind_ok h
  obtain ⟨he1, he2, heblk, hesecs, hens, hecc, heck, hesm, hnamed⟩ := ensureName_spec hE
  dsimp only at h
  obtain ⟨⟨mdIdx, stM⟩, hM, h⟩ := except_bind_ok h
  have hMi := inert_getOrCreateSourceMd hM
  dsimp only at h
  obtain ⟨stA, hA, h⟩ := except_bind_ok h
  have hAi := inert_writeAnns hA
  simp only [Except.ok.injEq, Prod.mk.injEq] at h
  obtain ⟨ha1, hst1⟩ := h
  have hchain : inert stA stE :=
    inert_trans hAi (inert_trans (inert_updateSourceDef _ _ _ _)
      (inert_trans (inert_stSetNeoName _ _ _) hMi))
  refine ⟨nm, by rw [← ha1, he1], by rw [← ha1]; exact he2, ?_, ?_, ?_⟩
  · intro hn
    obtain ⟨hanns, hstE⟩ := hnamed hn
    constructor
    · rw [← ha1, hanns]
    · rw [← hst1, hchain.2.2, hstE]
  · rw [← hst1]
    exact sameNames_trans hchain.1 (sameNames_of_blk heblk)
  · rw [← hst1, hchain.2.1, hecc]

theorem hasNixName_of_alookup {anns : Annotations} {nm : String}
    (h : alookup anns "nix_name" = some (.astr nm)) : hasNixName anns = true := by
  unfold hasNixName
  rw [h]

/-- A ChannelIndex whose annotations and whose units' annotations all
    carry the identifier. -/
def namedChx (c : ChannelIndex) : Bool :=
  hasNixName c.annotations && c.units.all (fun u => hasNixName u.annotations)

/-- A Segment whose annotations and whose five leaf containers all
    carry the identifier. -/
def namedSeg (s : NeoSegment) : Bool :=
  hasNixName s.annotations &&
    s.analogsignals.all (fun a => hasNixName a.annotations) &&
    s.irregularlysampledsignals.all (fun a => hasNixName a.annotations) &&
    s.events.all (fun a => hasNixName a.annotations) &&
    s.epochs.all (fun a => hasNixName a.annotations) &&
    s.spiketrains.all (fun a => hasNixName a.annotations)

/-- A Block in which every entity carries the nix_name identifier. -/
def namedBlock (b : NeoBlock) : Bool :=
  hasNixName b.annotations && b.segments.all namedSeg &&
    b.channel_indexes.all namedChx

theorem writeUnits_ok {sup : ℕ → String} {chxName : String}
    (us : List NeoUnit) : ∀ (st : WSt) (us1 : List NeoUnit) (st1 : WSt),
    writeUnits sup chxName us st = .ok (us1, st1) →
    us1.all (fun u => hasNixName u.annotations) = true ∧
    (us.all (fun u => hasNixName u.annotations) = true →
      us1 = us ∧ st1.fresh = st.fresh) ∧
    sameNames st1 st ∧ st1.createdCount = st.createdCount := by
  induction us with
  | nil =>
    intro st us1 st1 h
    simp only [writeUnits, Except.ok.injEq, Prod.mk.injEq] at h
    obtain ⟨h1, h2⟩ := h
    subst h1 h2
    exact ⟨rfl, fun _ => ⟨rfl, rfl⟩, sameNames_refl st, rfl⟩
  | cons u rest ih =>
    intro st us1 st1 h
    simp only [writeUnits] at h
    obtain ⟨⟨u1, stA⟩, hA, h⟩ := except_bind_ok h
    dsimp only at h
    obtain ⟨⟨rest1, stB⟩, hB, h⟩ := except_bind_ok h
    dsimp only at h
    simp only [Except.ok.injEq, Prod.mk.injEq] at h
    obtain ⟨h1, h2⟩ := h
    subst h1 h2
    obtain ⟨nm, hu1, hu2, hu3, hu4, hu5⟩ := writeUnit_effects hA
    obtain ⟨hr1, hr2, hr3, hr4⟩ := ih stA rest1 stB hB
    refine ⟨?_, ?_, sameNames_trans hr3 hu4, hr4.trans hu5⟩
    · simp only [List.all_cons, Bool.and_eq_true]
      exact ⟨hasNixName_of_alookup hu2, hr1⟩
    · intro hall
      simp only [List.all_cons, Bool.and_eq_true] at hall
      obtain ⟨hu, hrest⟩ := hall
      obtain ⟨hfix, hfr⟩ := hu3 hu
      subst hfix
      obtain ⟨hfixr, hfrr⟩ := hr2 hrest
      subst hfixr
      exact ⟨rfl, hfrr.trans hfr⟩

theorem writeChannelIndex_effects {sup : ℕ → String} {chx : ChannelIndex}
    {st : WSt} {chx1 : ChannelIndex} {st1 : WSt}
    (h : writeChannelIndex sup chx st = .ok (chx1, st1)) :
    namedChx chx1 = true ∧
    (namedChx chx = true → chx1 = chx ∧ st1.fresh = st.fresh) ∧
    sameNames st1 st ∧ st1.createdCount = st.createdCount := by
  unfold writeChannelIndex at h
  obtain ⟨⟨nm, anns1, stE⟩, hE, h⟩ := except_bind_ok h
  obtain ⟨he1, he2, heblk, hesecs, hens, hecc, heck, hesm, hnamed⟩ := ensureName_spec hE
  dsimp only at h
  obtain ⟨⟨mdIdx, stM⟩, hM, h⟩ := except_bind_ok h
  have hMi := inert_getOrCreateSourceMd hM
  dsimp only at h
  obtain ⟨stA, hA, h⟩ := except_bind_ok h
  have hAi := inert_writeAnns hA
  obtain ⟨stC, hC, h⟩ := except_bind_ok h
  have hCi := writeChannel_ok _ _ _ _ hC
  obtain ⟨⟨units1, stU⟩, hU, h⟩ := except_bind_ok h
  obtain ⟨hU1, hU2, hU3, hU4⟩ := writeUnits_ok _ _ _ _ hU
  dsimp only at h
  simp only [Except.ok.injEq, Prod.mk.injEq] at h
  obtain ⟨h1, h2⟩ := h
  subst h2
  have hchain : inert stC stE :=
    inert_trans hCi (inert_trans hAi (inert_trans (inert_updateSourceDef _ _ _ _)
      (inert_trans (inert_stSetNeoName _ _ _) hMi)))
  refine ⟨?_, ?_, ?_, ?_⟩
  · rw [← h1]
    unfold namedChx
    simp only [Bool.and_eq_true]
    exact ⟨hasNixName_of_alookup he2, hU1⟩
  · intro hn
    unfold namedChx at hn
    simp only [Bool.and_eq_true] at hn
    obtain ⟨hna, hnu⟩ := hn
    obtain ⟨hanns, hstE⟩ := hnamed hna
    obtain ⟨hfixu, hfru⟩ := hU2 hnu
    constructor
    · rw [← h1, hfixu, hanns]
    · rw [hfru, hchain.2.2, hstE]
  · exact sameNames_trans hU3 (sameNames_trans hchain.1 (sameNames_of_blk heblk))
  · rw [hU4, hchain.2.1, hecc]

theorem writeChxs_ok {sup : ℕ → String} (cs : List ChannelIndex) :
    ∀ (st : WSt) (cs1 : List ChannelIndex) (st1 : WSt),
    writeChxs sup cs st = .ok (cs1, st1) →
    cs1.all namedChx = true ∧
    (cs.all namedChx = true → cs1 = cs ∧ st1.fresh = st.fresh) ∧
    sameNames st1 st ∧ st1.createdCount = st.createdCount := by
  induction cs with
  | nil =>
    intro st cs1 st1 h
    simp only [writeChxs, Except.ok.injEq, Prod.mk.injEq] at h
    obtain ⟨h1, h2⟩ := h
    subst h1 h2
    exact ⟨rfl, fun _ => ⟨rfl, rfl⟩, sameNames_refl st, rfl⟩
  | cons c rest ih =>
    intro st cs1 st1 h
    simp only [writeChxs] at h
    obtain ⟨⟨c1, stA⟩, hA, h⟩ := except_bind_ok h
    dsimp only at h
    obtain ⟨⟨rest1, stB⟩, hB, h⟩ := except_bind_ok h
    dsimp only at h
    simp only [Except.ok.injEq, Prod.mk.injEq] at h
    obtain ⟨h1, h2⟩ := h
    subst h1 h2
    obtain ⟨hc1, hc2, hc3, hc4⟩ := writeChannelIndex_effects hA
    obtain ⟨hr1, hr2, hr3, hr4⟩ := ih stA rest1 stB hB
    refine ⟨?_, ?_, sameNames_trans hr3 hc3, hr4.trans hc4⟩
    · simp only [List.all_cons, Bool.and_eq_true]
      exact ⟨hc1, hr1⟩
    · intro hall
      simp only [List.all_cons, Bool.and_eq_true] at hall
      obtain ⟨hc, hrest⟩ := hall
      obtain ⟨hfix, hfr⟩ := hc2 hc
      subst hfix
      obtain ⟨hfixr, hfrr⟩ := hr2 hrest
      subst hfixr
      exact ⟨rfl, hfrr.trans hfr⟩

/-- Writing the analog signal again (now carrying its identifier) from
    any store state with the same array, tag and group names mirrors the
    first write: same object, same name transitions, the same number of
    created arrays, and no identifier consumed. -/
theorem writeAnalogSignal_sim {sup : ℕ → String} {a : AnalogSignal} {g : String}
    {st : WSt} {a1 : AnalogSignal} {st1 : WSt}
    (h : writeAnalogSignal sup a g st = .ok (a1, st1)) :
    hasNixName a1.annotations = true ∧
    (hasNixName a.annotations = true → a1 = a ∧ st1.fresh = st.fresh) ∧
    ∀ {st₂ : WSt} {a2 : AnalogSignal} {st₃ : WSt}, sameNames st₂ st →
      writeAnalogSignal sup a1 g st₂ = .ok (a2, st₃) →
      a2 = a1 ∧ sameNames st₃ st1 ∧
      st₃.createdCount + st.createdCount = st1.createdCount + st₂.createdCount ∧
      st₃.fresh = st₂.fresh := by
  obtain ⟨nm, e1, e2, e3, e4, e5, e6⟩ := writeAnalogSignal_effects h
  refine ⟨hasNixName_of_alookup e2, e3, ?_⟩
  intro st₂ a2 st₃ hs h2
  obtain ⟨nm₂, f1, f2, f3, f4, f5, f6⟩ := writeAnalogSignal_effects h2
  obtain ⟨hfix, hfr⟩ := f3 (hasNixName_of_alookup e2)
  subst hfix
  rw [e2] at f2
  simp only [Option.some.injEq, AnnValue.astr.injEq] at f2
  subst f2
  have hsig : a2.signal = a.signal := by rw [e1]
  by_cases hc : ((daNames st).any fun x => x = suffixed nm 0) = true
  · simp only [hc, if_true] at e6
    simp only [hs.1, hc, if_true] at f6
    refine ⟨rfl, ⟨?_, ?_, ?_⟩, ?_, hfr⟩
    · exact f6.1.trans e6.1.symm
    · exact ((f4.trans hs.2.1).trans e4.symm)
    · exact ((f5.trans hs.2.2).trans e5.symm)
    · have := e6.2
      have := f6.2
      omega
  · have hc' : ((daNames st).any fun x => x = suffixed nm 0) = false :=
      (Bool.not_eq_true _) ▸ hc
    simp only [hc', Bool.false_eq_true, if_false] at e6
    simp only [hs.1, hc', Bool.false_eq_true, if_false] at f6
    have hlen := f6.2
    rw [hsig] at hlen
    refine ⟨rfl, ⟨?_, ?_, ?_⟩, ?_, hfr⟩
    · refine f6.1.trans ?_
      rw [hsig]
      exact e6.1.symm
    · exact ((f4.trans hs.2.1).trans e4.symm)
    · exact ((f5.trans hs.2.2).trans e5.symm)
    · have := e6.2
      omega

theorem writeIrregularSignal_sim {sup : ℕ → String}
    {a : IrregularlySampledSignal} {g : String} {st : WSt}
    {a1 : IrregularlySampledSignal} {st1 : WSt}
    (h : writeIrregularSignal sup a g st = .ok (a1, st1)) :
    hasNixName a1.annotations = true ∧
    (hasNixName a.annotations = true → a1 = a ∧ st1.fresh = st.fresh) ∧
    ∀ {st₂ : WSt} {a2 : IrregularlySampledSignal} {st₃ : WSt}, sameNames st₂ st →
      writeIrregularSignal sup a1 g st₂ = .ok (a2, st₃) →
      a2 = a1 ∧ sameNames st₃ st1 ∧
      st₃.createdCount + st.createdCount = st1.createdCount + st₂.createdCount ∧
      st₃.fresh = st₂.fresh := by
  obtain ⟨nm, e1, e2, e3, e4, e5, e6⟩ := writeIrregularSignal_effects h
  refine ⟨hasNixName_of_alookup e2, e3, ?_⟩
  intro st₂ a2 st₃ hs h2
  obtain ⟨nm₂, f1, f2, f3, f4, f5, f6⟩ := writeIrregularSignal_effects h2
  obtain ⟨hfix, hfr⟩ := f3 (hasNixName_of_alookup e2)
  subst hfix
  rw [e2] at f2
  simp only [Option.some.injEq, AnnValue.astr.injEq] at f2
  subst f2
  have hsig : a2.signal = a.signal := by rw [e1]
  by_cases hc : ((daNames st).any fun x => x = suffixed nm 0) = true
  · simp only [hc, if_true] at e6
    simp only [hs.1, hc, if_true] at f6
    refine ⟨rfl, ⟨?_, ?_, ?_⟩, ?_, hfr⟩
    · exact f6.1.trans e6.1.symm
    · exact ((f4.trans hs.2.1).trans e4.symm)
    · exact ((f5.trans hs.2.2).trans e5.symm)
    · have := e6.2
      have := f6.2
      omega
  · have hc' : ((daNames st).any fun x => x = suffixed nm 0) = false :=
      (Bool.not_eq_true _) ▸ hc
    simp only [hc', Bool.false_eq_true, if_false] at e6
    simp only [hs.1, hc', Bool.false_eq_true, if_false] at f6
    have hlen := f6.2
    rw [hsig] at hlen
    refine ⟨rfl, ⟨?_, ?_, ?_⟩, ?_, hfr⟩
    · refine f6.1.trans ?_
      rw [hsig]
      exact e6.1.symm
    · exact ((f4.trans hs.2.1).trans e4.symm)
    · exact ((f5.trans hs.2.2).trans e5.symm)
    · have := e6.2
      omega

theorem writeEvent_sim {sup : ℕ → String} {ev : NeoEvent} {g : String}
    {st : WSt} {ev1 : NeoEvent} {st1 : WSt}
    (h : writeEvent sup ev g st = .ok (ev1, st1)) :
    hasNixName ev1.annotations = true ∧
    (hasNixName ev.annotations = true → ev1 = ev ∧ st1.fresh = st.fresh) ∧
    ∀ {st₂ : WSt} {ev2 : NeoEvent} {st₃ : WSt}, sameNames st₂ st →
      writeEvent sup ev1 g st₂ = .ok (ev2, st₃) →
      ev2 = ev1 ∧ sameNames st₃ st1 ∧
      st₃.createdCount + st.createdCount = st1.createdCount + st₂.createdCount ∧
      st₃.fresh = st₂.fresh := by
  obtain ⟨nm, e1, e2, e3, e4, e5⟩ := writeEvent_effects h
  refine ⟨hasNixName_of_alookup e2, e3, ?_⟩
  intro st₂ ev2 st₃ hs h2
  obtain ⟨nm₂, f1, f2, f3, f4, f5⟩ := writeEvent_effects h2
  obtain ⟨hfix, hfr⟩ := f3 (hasNixName_of_alookup e2)
  subst hfix
  rw [e2] at f2
  simp only [Option.some.injEq, AnnValue.astr.injEq] at f2
  subst f2
  by_cases hc : ((mtNames st).any fun x => x = nm) = true
  · simp only [hc, if_true] at e5
    simp only [hs.1, hs.2.1, hc, if_true] at f5
    refine ⟨rfl, ⟨?_, ?_, ?_⟩, ?_, hfr⟩
    · exact f5.1.trans e5.1.symm
    · exact f5.2.1.trans e5.2.1.symm
    · exact ((f4.trans hs.2.2).trans e4.symm)
    · have := e5.2.2
      have := f5.2.2
      omega
  · have hc' : ((mtNames st).any fun x => x = nm) = false :=
      (Bool.not_eq_true _) ▸ hc
    simp only [hc', Bool.false_eq_true, if_false] at e5
    simp only [hs.1, hs.2.1, hc', Bool.false_eq_true, if_false] at f5
    refine ⟨rfl, ⟨?_, ?_, ?_⟩, ?_, hfr⟩
    · exact f5.1.trans e5.1.symm
    · exact f5.2.1.trans e5.2.1.symm
    · exact ((f4.trans hs.2.2).trans e4.symm)
    · have := e5.2.2
      have := f5.2.2
      omega

theorem writeEpoch_sim {sup : ℕ → String} {ep : NeoEpoch} {g : String}
    {st : WSt} {ep1 : NeoEpoch} {st1 : WSt}
    (h : writeEpoch sup ep g st = .ok (ep1, st1)) :
    hasNixName ep1.annotations = true ∧
    (hasNixName ep.annotations = true → ep1 = ep ∧ st1.fresh = st.fresh) ∧
    ∀ {st₂ : WSt} {ep2 : NeoEpoch} {st₃ : WSt}, sameNames st₂ st →
      writeEpoch sup ep1 g st₂ = .ok (ep2, st₃) →
      ep2 = ep1 ∧ sameNames st₃ st1 ∧
      st₃.createdCount + st.createdCount = st1.createdCount + st₂.createdCount ∧
      st₃.fresh = st₂.fresh := by
  obtain ⟨nm, e1, e2, e3, e4, e5⟩ := writeEpoch_effects h
  refine ⟨hasNixName_of_alookup e2, e3, ?_⟩
  intro st₂ ep2 st₃ hs h2
  obtain ⟨nm₂, f1, f2, f3, f4, f5⟩ := writeEpoch_effects h2
  obtain ⟨hfix, hfr⟩ := f3 (hasNixName_of_alookup e2)
  subst hfix
  rw [e2] at f2
  simp only [Option.some.injEq, AnnValue.astr.injEq] at f2
  subst f2
  by_cases hc : ((mtNames st).any fun x => x = nm) = true
  · simp only [hc, if_true] at e5
    simp only [hs.1, hs.2.1, hc, if_true] at f5
    refine ⟨rfl, ⟨?_, ?_, ?_⟩, ?_, hfr⟩
    · exact f5.1.trans e5.1.symm
    · exact f5.2.1.trans e5.2.1.symm
    · exact ((f4.trans hs.2.2).trans e4.symm)
    · have := e5.2.2
      have := f5.2.2
      omega
  · have hc' : ((mtNames st).any fun x => x = nm) = false :=
      (Bool.not_eq_true _) ▸ hc
    simp only [hc', Bool.false_eq_true, if_false] at e5
    simp only [hs.1, hs.2.1, hc', Bool.false_eq_true, if_false] at f5
    refine ⟨rfl, ⟨?_, ?_, ?_⟩, ?_, hfr⟩
    · exact f5.1.trans e5.1.symm
    · exact f5.2.1.trans e5.2.1.symm
    · exact ((f4.trans hs.2.2).trans e4.symm)
    · have := e5.2.2
      have := f5.2.2
      omega

theorem writeSpikeTrain_sim {sup : ℕ → String} {strain : SpikeTrain} {g : String}
    {st : WSt} {s1 : SpikeTrain} {st1 : WSt}
    (h : writeSpikeTrain sup strain g st = .ok (s1, st1)) :
    hasNixName s1.annotations = true ∧
    (hasNixName strain.annotations = true → s1 = strain ∧ st1.fresh = st.fresh) ∧
    ∀ {st₂ : WSt} {s2 : SpikeTrain} {st₃ : WSt}, sameNames st₂ st →
      writeSpikeTrain sup s1 g st₂ = .ok (s2, st₃) →
      s2 = s1 ∧ sameNames st₃ st1 ∧
      st₃.createdCount + st.createdCount = st1.createdCount + st₂.createdCount ∧
      st₃.fresh = st₂.fresh := by
  obtain ⟨nm, e1, e2, e3, e4, e5⟩ := writeSpikeTrain_effects h
  refine ⟨hasNixName_of_alookup e2, e3, ?_⟩
  intro st₂ s2 st₃ hs h2
  obtain ⟨nm₂, f1, f2, f3, f4, f5⟩ := writeSpikeTrain_effects h2
  obtain ⟨hfix, hfr⟩ := f3 (hasNixName_of_alookup e2)
  subst hfix
  rw [e2] at f2
  simp only [Option.some.injEq, AnnValue.astr.injEq] at f2
  subst f2
  have hwfeq : s2.waveforms = strain.waveforms := by rw [e1]
  rw [hwfeq] at f5
  by_cases hc : ((mtNames st).any fun x => x = nm) = true
  · simp only [hc, if_true] at e5
    simp only [hs.1, hs.2.1, hc, if_true] at f5
    refine ⟨rfl, ⟨?_, ?_, ?_⟩, ?_, hfr⟩
    · exact f5.1.trans e5.1.symm
    · exact f5.2.1.trans e5.2.1.symm
    · exact ((f4.trans hs.2.2).trans e4.symm)
    · have := e5.2.2
      have := f5.2.2
      omega
  · have hc' : ((mtNames st).any fun x => x = nm) = false :=
      (Bool.not_eq_true _) ▸ hc
    simp only [hc', Bool.false_eq_true, if_false] at e5
    simp only [hs.1, hs.2.1, hc', Bool.false_eq_true, if_false] at f5
    refine ⟨rfl, ⟨?_, ?_, ?_⟩, ?_, hfr⟩
    · exact f5.1.trans e5.1.symm
    · exact f5.2.1.trans e5.2.1.symm
    · exact ((f4.trans hs.2.2).trans e4.symm)
    · have := e5.2.2
      have := f5.2.2
      omega

theorem writeASigs_sim {sup : ℕ → String} {g : String} (xs : List AnalogSignal) :
    ∀ (st : WSt) (xs1 : List AnalogSignal) (st1 : WSt),
    writeASigs sup g xs st = .ok (xs1, st1) →
    xs1.all (fun a => hasNixName a.annotations) = true ∧
    (xs.all (fun a => hasNixName a.annotations) = true →
      xs1 = xs ∧ st1.fresh = st.fresh) ∧
    ∀ {st₂ : WSt} {xs2 : List AnalogSignal} {st₃ : WSt}, sameNames st₂ st →
      writeASigs sup g xs1 st₂ = .ok (xs2, st₃) →
      xs2 = xs1 ∧ sameNames st₃ st1 ∧
      st₃.createdCount + st.createdCount = st1.createdCount + st₂.createdCount ∧
      st₃.fresh = st₂.fresh := by
  induction xs with
  | nil =>
    intro st xs1 st1 h
    simp only [writeASigs, Except.ok.injEq, Prod.mk.injEq] at h
    obtain ⟨h1, h2⟩ := h
    subst h1 h2
    refine ⟨rfl, fun _ => ⟨rfl, rfl⟩, ?_⟩
    intro st₂ xs2 st₃ hs h2
    simp only [writeASigs, Except.ok.injEq, Prod.mk.injEq] at h2
    obtain ⟨h1, h2⟩ := h2
    subst h1 h2
    exact ⟨rfl, hs, by omega, rfl⟩
  | cons a rest ih =>
    intro st xs1 st1 h
    simp only [writeASigs] at h
    obtain ⟨⟨a1, stA⟩, hA, h⟩ := except_bind_ok h
    dsimp only at h
    obtain ⟨⟨rest1, stB⟩, hB, h⟩ := except_bind_ok h
    dsimp only at h
    simp only [Except.ok.injEq, Prod.mk.injEq] at h
    obtain ⟨h1, h2⟩ := h
    subst h1 h2
    obtain ⟨sA1, sA2, sA3⟩ := writeAnalogSignal_sim hA
    obtain ⟨sB1, sB2, sB3⟩ := ih stA rest1 stB hB
    refine ⟨?_, ?_, ?_⟩
    · simp only [List.all_cons, Bool.and_eq_true]
      exact ⟨sA1, sB1⟩
    · intro hall
      simp only [List.all_cons, Bool.and_eq_true] at hall
      obtain ⟨hfix, hfr⟩ := sA2 hall.1
      subst hfix
      obtain ⟨hfixr, hfrr⟩ := sB2 hall.2
      subst hfixr
      exact ⟨rfl, hfrr.trans hfr⟩
    · intro st₂ xs2 st₃ hs h2
      simp only [writeASigs] at h2
      obtain ⟨⟨a2, stA₂⟩, hA2, h2⟩ := except_bind_ok h2
      dsimp only at h2
      obtain ⟨⟨rest2, stB₂⟩, hB2, h2⟩ := except_bind_ok h2
      dsimp only at h2
      simp only [Except.ok.injEq, Prod.mk.injEq] at h2
      obtain ⟨h21, h22⟩ := h2
      subst h21
      subst h22
      obtain ⟨ha2, hsA, hccA, hfrA⟩ := sA3 hs hA2
      subst ha2
      obtain ⟨hr2, hsB, hccB, hfrB⟩ := sB3 hsA hB2
      subst hr2
      exact ⟨rfl, hsB, by omega, hfrB.trans hfrA⟩

theorem writeISigs_sim {sup : ℕ → String} {g : String} (xs : List IrregularlySampledSignal) :
    ∀ (st : WSt) (xs1 : List IrregularlySampledSignal) (st1 : WSt),
    writeISigs sup g xs st = .ok (xs1, st1) →
    xs1.all (fun a => hasNixName a.annotations) = true ∧
    (xs.all (fun a => hasNixName a.annotations) = true →
      xs1 = xs ∧ st1.fresh = st.fresh) ∧
    ∀ {st₂ : WSt} {xs2 : List IrregularlySampledSignal} {st₃ : WSt}, sameNames st₂ st →
      writeISigs sup g xs1 st₂ = .ok (xs2, st₃) →
      xs2 = xs1 ∧ sameNames st₃ st1 ∧
      st₃.createdCount + st.createdCount = st1.createdCount + st₂.createdCount ∧
      st₃.fresh = st₂.fresh := by
  induction xs with
  | nil =>
    intro st xs1 st1 h
    simp only [writeISigs, Except.ok.injEq, Prod.mk.injEq] at h
    obtain ⟨h1, h2⟩ := h
    subst h1 h2
    refine ⟨rfl, fun _ => ⟨rfl, rfl⟩, ?_⟩
    intro st₂ xs2 st₃ hs h2
    simp only [writeISigs, Except.ok.injEq, Prod.mk.injEq] at h2
    obtain ⟨h1, h2⟩ := h2
    subst h1 h2
    exact ⟨rfl, hs, by omega, rfl⟩
  | cons a rest ih =>
    intro st xs1 st1 h
    simp only [writeISigs] at h
    obtain ⟨⟨a1, stA⟩, hA, h⟩ := except_bind_ok h
    dsimp only at h
    obtain ⟨⟨rest1, stB⟩, hB, h⟩ := except_bind_ok h
    dsimp only at h
    simp only [Except.ok.injEq, Prod.mk.injEq] at h
    obtain ⟨h1, h2⟩ := h
    subst h1 h2
    obtain ⟨sA1, sA2, sA3⟩ := writeIrregularSignal_sim hA
    obtain ⟨sB1, sB2, sB3⟩ := ih stA rest1 stB hB
    refine ⟨?_, ?_, ?_⟩
    · simp only [List.all_cons, Bool.and_eq_true]
      exact ⟨sA1, sB1⟩
    · intro hall
      simp only [List.all_cons, Bool.and_eq_true] at hall
      obtain ⟨hfix, hfr⟩ := sA2 hall.1
      subst hfix
      obtain ⟨hfixr, hfrr⟩ := sB2 hall.2
      subst hfixr
      exact ⟨rfl, hfrr.trans hfr⟩
    · intro st₂ xs2 st₃ hs h2
      simp only [writeISigs] at h2
      obtain ⟨⟨a2, stA₂⟩, hA2, h2⟩ := except_bind_ok h2
      dsimp only at h2
      obtain ⟨⟨rest2, stB₂⟩, hB2, h2⟩ := except_bind_ok h2
      dsimp only at h2
      simp only [Except.ok.injEq, Prod.mk.injEq] at h2
      obtain ⟨h21, h22⟩ := h2
      subst h21
      subst h22
      obtain ⟨ha2, hsA, hccA, hfrA⟩ := sA3 hs hA2
      subst ha2
      obtain ⟨hr2, hsB, hccB, hfrB⟩ := sB3 hsA hB2
      subst hr2
      exact ⟨rfl, hsB, by omega, hfrB.trans hfrA⟩

theorem writeEvents_sim {sup : ℕ → String} {g : String} (xs : List NeoEvent) :
    ∀ (st : WSt) (xs1 : List NeoEvent) (st1 : WSt),
    writeEvents sup g xs st = .ok (xs1, st1) →
    xs1.all (fun a => hasNixName a.annotations) = true ∧
    (xs.all (fun a => hasNixName a.annotations) = true →
      xs1 = xs ∧ st1.fresh = st.fresh) ∧
    ∀ {st₂ : WSt} {xs2 : List NeoEvent} {st₃ : WSt}, sameNames st₂ st →
      writeEvents sup g xs1 st₂ = .ok (xs2, st₃) →
      xs2 = xs1 ∧ sameNames st₃ st1 ∧
      st₃.createdCount + st.createdCount = st1.createdCount + st₂.createdCount ∧
      st₃.fresh = st₂.fresh := by
  induction xs with
  | nil =>
    intro st xs1 st1 h
    simp only [writeEvents, Except.ok.injEq, Prod.mk.injEq] at h
    obtain ⟨h1, h2⟩ := h
    subst h1 h2
    refine ⟨rfl, fun _ => ⟨rfl, rfl⟩, ?_⟩
    intro st₂ xs2 st₃ hs h2
    simp only [writeEvents, Except.ok.injEq, Prod.mk.injEq] at h2
    obtain ⟨h1, h2⟩ := h2
    subst h1 h2
    exact ⟨rfl, hs, by omega, rfl⟩
  | cons a rest ih =>
    intro st xs1 st1 h
    simp only [writeEvents] at h
    obtain ⟨⟨a1, stA⟩, hA, h⟩ := except_bind_ok h
    dsimp only at h
    obtain ⟨⟨rest1, stB⟩, hB, h⟩ := except_bind_ok h
    dsimp only at h
    simp only [Except.ok.injEq, Prod.mk.injEq] at h
    obtain ⟨h1, h2⟩ := h
    subst h1 h2
    obtain ⟨sA1, sA2, sA3⟩ := writeEvent_sim hA
    obtain ⟨sB1, sB2, sB3⟩ := ih stA rest1 stB hB
    refine ⟨?_, ?_, ?_⟩
    · simp only [List.all_cons, Bool.and_eq_true]
      exact ⟨sA1, sB1⟩
    · intro hall
      simp only [List.all_cons, Bool.and_eq_true] at hall
      obtain ⟨hfix, hfr⟩ := sA2 hall.1
      subst hfix
      obtain ⟨hfixr, hfrr⟩ := sB2 hall.2
      subst hfixr
      exact ⟨rfl, hfrr.trans hfr⟩
    · intro st₂ xs2 st₃ hs h2
      simp only [writeEvents] at h2
      obtain ⟨⟨a2, stA₂⟩, hA2, h2⟩ := except_bind_ok h2
      dsimp only at h2
      obtain ⟨⟨rest2, stB₂⟩, hB2, h2⟩ := except_bind_ok h2
      dsimp only at h2
      simp only [Except.ok.injEq, Prod.mk.injEq] at h2
      obtain ⟨h21, h22⟩ := h2
      subst h21
      subst h22
      obtain ⟨ha2, hsA, hccA, hfrA⟩ := sA3 hs hA2
      subst ha2
      obtain ⟨hr2, hsB, hccB, hfrB⟩ := sB3 hsA hB2
      subst hr2
      exact ⟨rfl, hsB, by omega, hfrB.trans hfrA⟩

theorem writeEpochs_sim {sup : ℕ → String} {g : String} (xs : List NeoEpoch) :
    ∀ (st : WSt) (xs1 : List NeoEpoch) (st1 : WSt),
    writeEpochs sup g xs st = .ok (xs1, st1) →
    xs1.all (fun a => hasNixName a.annotations) = true ∧
    (xs.all (fun a => hasNixName a.annotations) = true →
      xs1 = xs ∧ st1.fresh = st.fresh) ∧
    ∀ {st₂ : WSt} {xs2 : List NeoEpoch} {st₃ : WSt}, sameNames st₂ st →
      writeEpochs sup g xs1 st₂ = .ok (xs2, st₃) →
      xs2 = xs1 ∧ sameNames st₃ st1 ∧
      st₃.createdCount + st.createdCount = st1.createdCount + st₂.createdCount ∧
      st₃.fresh = st₂.fresh := by
  induction xs with
  | nil =>
    intro st xs1 st1 h
    simp only [writeEpochs, Except.ok.injEq, Prod.mk.injEq] at h
    obtain ⟨h1, h2⟩ := h
    subst h1 h2
    refine ⟨rfl, fun _ => ⟨rfl, rfl⟩, ?_⟩
    intro st₂ xs2 st₃ hs h2
    simp only [writeEpochs, Except.ok.injEq, Prod.mk.injEq] at h2
    obtain ⟨h1, h2⟩ := h2
    subst h1 h2
    exact ⟨rfl, hs, by omega, rfl⟩
  | cons a rest ih =>
    intro st xs1 st1 h
    simp only [writeEpochs] at h
    obtain ⟨⟨a1, stA⟩, hA, h⟩ := except_bind_ok h
    dsimp only at h
    obtain ⟨⟨rest1, stB⟩, hB, h⟩ := except_bind_ok h
    dsimp only at h
    simp only [Except.ok.injEq, Prod.mk.injEq] at h
    obtain ⟨h1, h2⟩ := h
    subst h1 h2
    obtain ⟨sA1, sA2, sA3⟩ := writeEpoch_sim hA
    obtain ⟨sB1, sB2, sB3⟩ := ih stA rest1 stB hB
    refine ⟨?_, ?_, ?_⟩
    · simp only [List.all_cons, Bool.and_eq_true]
      exact ⟨sA1, sB1⟩
    · intro hall
      simp only [List.all_cons, Bool.and_eq_true] at hall
      obtain ⟨hfix, hfr⟩ := sA2 hall.1
      subst hfix
      obtain ⟨hfixr, hfrr⟩ := sB2 hall.2
      subst hfixr
      exact ⟨rfl, hfrr.trans hfr⟩
    · intro st₂ xs2 st₃ hs h2
      simp only [writeEpochs] at h2
      obtain ⟨⟨a2, stA₂⟩, hA2, h2⟩ := except_bind_ok h2
      dsimp only at h2
      obtain ⟨⟨rest2, stB₂⟩, hB2, h2⟩ := except_bind_ok h2
      dsimp only at h2
      simp only [Except.ok.injEq, Prod.mk.injEq] at h2
      obtain ⟨h21, h22⟩ := h2
      subst h21
      subst h22
      obtain ⟨ha2, hsA, hccA, hfrA⟩ := sA3 hs hA2
      subst ha2
      obtain ⟨hr2, hsB, hccB, hfrB⟩ := sB3 hsA hB2
      subst hr2
      exact ⟨rfl, hsB, by omega, hfrB.trans hfrA⟩

theorem writeSTs_sim {sup : ℕ → String} {g : String} (xs : List SpikeTrain) :
    ∀ (st : WSt) (xs1 : List SpikeTrain) (st1 : WSt),
    writeSTs sup g xs st = .ok (xs1, st1) →
    xs1.all (fun a => hasNixName a.annotations) = true ∧
    (xs.all (fun a => hasNixName a.annotations) = true →
      xs1 = xs ∧ st1.fresh = st.fresh) ∧
    ∀ {st₂ : WSt} {xs2 : List SpikeTrain} {st₃ : WSt}, sameNames st₂ st →
      writeSTs sup g xs1 st₂ = .ok (xs2, st₃) →
      xs2 = xs1 ∧ sameNames st₃ st1 ∧
      st₃.createdCount + st.createdCount = st1.createdCount + st₂.createdCount ∧
      st₃.fresh = st₂.fresh := by
  induction xs with
  | nil =>
    intro st xs1 st1 h
    simp only [writeSTs, Except.ok.injEq, Prod.mk.injEq] at h
    obtain ⟨h1, h2⟩ := h
    subst h1 h2
    refine ⟨rfl, fun _ => ⟨rfl, rfl⟩, ?_⟩
    intro st₂ xs2 st₃ hs h2
    simp only [writeSTs, Except.ok.injEq, Prod.mk.injEq] at h2
    obtain ⟨h1, h2⟩ := h2
    subst h1 h2
    exact ⟨rfl, hs, by omega, rfl⟩
  | cons a rest ih =>
    intro st xs1 st1 h
    simp only [writeSTs] at h
    obtain ⟨⟨a1, stA⟩, hA, h⟩ := except_bind_ok h
    dsimp only at h
    obtain ⟨⟨rest1, stB⟩, hB, h⟩ := except_bind_ok h
    dsimp only at h
    simp only [Except.ok.injEq, Prod.mk.injEq] at h
    obtain ⟨h1, h2⟩ := h
    subst h1 h2
    obtain ⟨sA1, sA2, sA3⟩ := writeSpikeTrain_sim hA
    obtain ⟨sB1, sB2, sB3⟩ := ih stA rest1 stB hB
    refine ⟨?_, ?_, ?_⟩
    · simp only [List.all_cons, Bool.and_eq_true]
      exact ⟨sA1, sB1⟩
    · intro hall
      simp only [List.all_cons, Bool.and_eq_true] at hall
      obtain ⟨hfix, hfr⟩ := sA2 hall.1
      subst hfix
      obtain ⟨hfixr, hfrr⟩ := sB2 hall.2
      subst hfixr
      exact ⟨rfl, hfrr.trans hfr⟩
    · intro st₂ xs2 st₃ hs h2
      simp only [writeSTs] at h2
      obtain ⟨⟨a2, stA₂⟩, hA2, h2⟩ := except_bind_ok h2
      dsimp only at h2
      obtain ⟨⟨rest2, stB₂⟩, hB2, h2⟩ := except_bind_ok h2
      dsimp only at h2
      simp only [Except.ok.injEq, Prod.mk.injEq] at h2
      obtain ⟨h21, h22⟩ := h2
      subst h21
      subst h22
      obtain ⟨ha2, hsA, hccA, hfrA⟩ := sA3 hs hA2
      subst ha2
      obtain ⟨hr2, hsB, hccB, hfrB⟩ := sB3 hsA hB2
      subst hr2
      exact ⟨rfl, hsB, by omega, hfrB.trans hfrA⟩

theorem sameNames_symm {a b : WSt} (h : sameNames a b) : sameNames b a :=
  ⟨h.1.symm, h.2.1.symm, h.2.2.symm⟩

/-- NixIO._write_segment: names the Segment, creates or reuses its
    Group, then descends into the five leaf containers; a second write
    of the returned Segment mirrors the first one step by step. -/
theorem writeSegment_sim {sup : ℕ → String} {seg : NeoSegment} {st : WSt}
    {seg1 : NeoSegment} {st1 : WSt}
    (h : writeSegment sup seg st = .ok (seg1, st1)) :
    namedSeg seg1 = true ∧
    (namedSeg seg = true → seg1 = seg ∧ st1.fresh = st.fresh) ∧
    ∀ {st₂ : WSt} {seg2 : NeoSegment} {st₃ : WSt}, sameNames st₂ st →
      writeSegment sup seg1 st₂ = .ok (seg2, st₃) →
      seg2 = seg1 ∧ sameNames st₃ st1 ∧
      st₃.createdCount + st.createdCount = st1.createdCount + st₂.createdCount ∧
      st₃.fresh = st₂.fresh := by
  unfold writeSegment at h
  obtain ⟨⟨nm, anns1, stE⟩, hE, h⟩ := except_bind_ok h
  obtain ⟨he1, he2, heblk, hesecs, hens, hecc, heck, hesm, hnamed⟩ := ensureName_spec hE
  dsimp only at h
  obtain ⟨⟨mdIdx, stM⟩, hM, h⟩ := except_bind_ok h
  obtain ⟨hMa, hMb, hMc, hMd, hMg⟩ := getOrCreateGroupMd_ok hM
  rw [grpNames_blk_eq heblk] at hMg
  dsimp only at h
  cases hfd : seg.file_datetime with
  | some t =>
    rw [hfd] at h
    simp [Bind.bind, Except.bind] at h
  | none =>
    rw [hfd] at h
    dsimp only at h
    obtain ⟨stF, hF, h⟩ := except_bind_ok h
    simp only [pure, Except.pure, Except.ok.injEq] at hF
    have hFi : inert stF stM := by
      rw [← hF]
      cases hrd : seg.rec_datetime <;>
        exact ⟨⟨by simp, by simp, by simp⟩, by simp, by simp⟩
    obtain ⟨stA, hA, h⟩ := except_bind_ok h
    have hAi := inert_writeAnns hA
    obtain ⟨⟨as1, stS1⟩, hS1, h⟩ := except_bind_ok h
    obtain ⟨A1, A2, A3⟩ := writeASigs_sim _ _ _ _ hS1
    dsimp only at h
    obtain ⟨⟨is1, stS2⟩, hS2, h⟩ := except_bind_ok h
    obtain ⟨B1, B2, B3⟩ := writeISigs_sim _ _ _ _ hS2
    dsimp only at h
    obtain ⟨⟨ev1, stS3⟩, hS3, h⟩ := except_bind_ok h
    obtain ⟨C1, C2, C3⟩ := writeEvents_sim _ _ _ _ hS3
    dsimp only at h
    obtain ⟨⟨ep1, stS4⟩, hS4, h⟩ := except_bind_ok h
    obtain ⟨D1, D2, D3⟩ := writeEpochs_sim _ _ _ _ hS4
    dsimp only at h
    obtain ⟨⟨sts1, stS5⟩, hS5, h⟩ := except_bind_ok h
    obtain ⟨E1, E2, E3⟩ := writeSTs_sim _ _ _ _ hS5
    dsimp only at h
    simp only [Except.ok.injEq, Prod.mk.injEq] at h
    obtain ⟨h1, h2⟩ := h
    subst h1
    subst h2
    have hpre : inert stA stM := inert_trans hAi hFi
    refine ⟨?_, ?_, ?_⟩
    · unfold namedSeg
      simp only [Bool.and_eq_true]
      exact ⟨⟨⟨⟨⟨hasNixName_of_alookup he2, A1⟩, B1⟩, C1⟩, D1⟩, E1⟩
    · intro hn
      unfold namedSeg at hn
      simp only [Bool.and_eq_true] at hn
      obtain ⟨⟨⟨⟨⟨hna, hnas⟩, hnis⟩, hnev⟩, hnep⟩, hnst⟩ := hn
      obtain ⟨hanns, hstE⟩ := hnamed hna
      obtain ⟨hfa, hfra⟩ := A2 hnas
      subst hfa
      obtain ⟨hfb, hfrb⟩ := B2 hnis
      subst hfb
      obtain ⟨hfc, hfrc⟩ := C2 hnev
      subst hfc
      obtain ⟨hfd2, hfrd⟩ := D2 hnep
      subst hfd2
      obtain ⟨hfe, hfre⟩ := E2 hnst
      subst hfe
      constructor
      · rw [hanns, ← hfd]
      · rw [hfre, hfrd, hfrc, hfrb, hfra, hpre.2.2, hMd, hstE]
    · intro st₂ seg2 st₃ hs h2
      unfold writeSegment at h2
      obtain ⟨⟨nm₂, anns₂, stE₂⟩, hE2, hq1⟩ := except_bind_ok h2
      obtain ⟨ge1, ge2, geblk, gesecs, gens, gecc, geck, gesm, gnamed⟩ :=
        ensureName_spec hE2
      obtain ⟨hanns₂, hstE₂⟩ := gnamed (hasNixName_of_alookup he2)
      subst hanns₂
      subst hstE₂
      rw [he2] at ge2
      simp only [Option.some.injEq, AnnValue.astr.injEq] at ge2
      subst ge2
      try dsimp only at hq1
      obtain ⟨⟨mdIdx₂, stM₂⟩, hM2, hq2⟩ := except_bind_ok hq1
      obtain ⟨hN1, hN2, hN3, hN4, hNg⟩ := getOrCreateGroupMd_ok hM2
      rw [hs.2.2] at hNg
      try dsimp only at hq2
      obtain ⟨stF₂, hF2, hq3⟩ := except_bind_ok hq2
      simp only [pure, Except.pure, Except.ok.injEq] at hF2
      have hFi₂ : inert stF₂ stM₂ := by
        rw [← hF2]
        cases hrd : seg.rec_datetime <;>
          exact ⟨⟨by simp, by simp, by simp⟩, by simp, by simp⟩
      obtain ⟨stA₂, hA2, hq4⟩ := except_bind_ok hq3
      have hAi₂ := inert_writeAnns hA2
      have hpre₂ : inert stA₂ stM₂ := inert_trans hAi₂ hFi₂
      have hMda : daNames stM = daNames st := hMa.trans (daNames_blk_eq heblk)
      have hMmt : mtNames stM = mtNames st := hMb.trans (mtNames_blk_eq heblk)
      have hMcross : sameNames stM₂ stM := by
        refine ⟨hN1.trans (hs.1.trans hMda.symm), hN2.trans (hs.2.1.trans hMmt.symm), ?_⟩
        by_cases hcg : ((grpNames st).any fun x => x = nm) = true
        · simp only [hcg, if_true] at hMg hNg
          exact hNg.trans hMg.symm
        · have hcg' : ((grpNames st).any fun x => x = nm) = false :=
            (Bool.not_eq_true _) ▸ hcg
          simp only [hcg', Bool.false_eq_true, if_false] at hMg hNg
          rw [hNg, hMg]
      have hsA : sameNames stA₂ stA :=
        sameNames_trans hpre₂.1 (sameNames_trans hMcross (sameNames_symm hpre.1))
      obtain ⟨⟨as2, stS1₂⟩, hS1₂, hq5⟩ := except_bind_ok hq4
      obtain ⟨rfl, hsS1, hcca, hfra⟩ := A3 hsA hS1₂
      try dsimp only at hq5
      obtain ⟨⟨is2, stS2₂⟩, hS2₂, hq6⟩ := except_bind_ok hq5
      obtain ⟨rfl, hsS2, hccb, hfrb⟩ := B3 hsS1 hS2₂
      try dsimp only at hq6
      obtain ⟨⟨ev2, stS3₂⟩, hS3₂, hq7⟩ := except_bind_ok hq6
      obtain ⟨rfl, hsS3, hccc, hfrc⟩ := C3 hsS2 hS3₂
      try dsimp only at hq7
      obtain ⟨⟨ep2, stS4₂⟩, hS4₂, hq8⟩ := except_bind_ok hq7
      obtain ⟨rfl, hsS4, hccd, hfrd⟩ := D3 hsS3 hS4₂
      try dsimp only at hq8
      obtain ⟨⟨sts2, stS5₂⟩, hS5₂, hq9⟩ := except_bind_ok hq8
      obtain ⟨rfl, hsS5, hcce, hfre⟩ := E3 hsS4 hS5₂
      try dsimp only at hq9
      simp only [Except.ok.injEq, Prod.mk.injEq] at hq9
      obtain ⟨h21, h22⟩ := hq9
      subst h21
      subst h22
      refine ⟨rfl, hsS5, ?_, ?_⟩
      · have hc1 := hpre.2.1
        have hc2 := hpre₂.2.1
        have hc3 := hMc
        have hc4 := hN3
        have hc5 := hecc
        omega
      · rw [hfre, hfrd, hfrc, hfrb, hfra, hpre₂.2.2, hN4]

theorem writeSegments_sim {sup : ℕ → String} (xs : List NeoSegment) :
    ∀ (st : WSt) (xs1 : List NeoSegment) (st1 : WSt),
    writeSegments sup xs st = .ok (xs1, st1) →
    xs1.all namedSeg = true ∧
    (xs.all namedSeg = true → xs1 = xs ∧ st1.fresh = st.fresh) ∧
    ∀ {st₂ : WSt} {xs2 : List NeoSegment} {st₃ : WSt}, sameNames st₂ st →
      writeSegments sup xs1 st₂ = .ok (xs2, st₃) →
      xs2 = xs1 ∧ sameNames st₃ st1 ∧
      st₃.createdCount + st.createdCount = st1.createdCount + st₂.createdCount ∧
      st₃.fresh = st₂.fresh := by
  induction xs with
  | nil =>
    intro st xs1 st1 h
    simp only [writeSegments, Except.ok.injEq, Prod.mk.injEq] at h
    obtain ⟨h1, h2⟩ := h
    subst h1 h2
    refine ⟨rfl, fun _ => ⟨rfl, rfl⟩, ?_⟩
    intro st₂ xs2 st₃ hs h2
    simp only [writeSegments, Except.ok.injEq, Prod.mk.injEq] at h2
    obtain ⟨h1, h2⟩ := h2
    subst h1 h2
    exact ⟨rfl, hs, by omega, rfl⟩
  | cons a rest ih =>
    intro st xs1 st1 h
    simp only [writeSegments] at h
    obtain ⟨⟨a1, stA⟩, hA, h⟩ := except_bind_ok h
    dsimp only at h
    obtain ⟨⟨rest1, stB⟩, hB, h⟩ := except_bind_ok h
    dsimp only at h
    simp only [Except.ok.injEq, Prod.mk.injEq] at h
    obtain ⟨h1, h2⟩ := h
    subst h1 h2
    obtain ⟨sA1, sA2, sA3⟩ := writeSegment_sim hA
    obtain ⟨sB1, sB2, sB3⟩ := ih stA rest1 stB hB
    refine ⟨?_, ?_, ?_⟩
    · simp only [List.all_cons, Bool.and_eq_true]
      exact ⟨sA1, sB1⟩
    · intro hall
      simp only [List.all_cons, Bool.and_eq_true] at hall
      obtain ⟨hfix, hfr⟩ := sA2 hall.1
      subst hfix
      obtain ⟨hfixr, hfrr⟩ := sB2 hall.2
      subst hfixr
      exact ⟨rfl, hfrr.trans hfr⟩
    · intro st₂ xs2 st₃ hs h2
      simp only [writeSegments] at h2
      obtain ⟨⟨a2, stA₂⟩, hA2, hq1⟩ := except_bind_ok h2
      try dsimp only at hq1
      obtain ⟨⟨rest2, stB₂⟩, hB2, hq2⟩ := except_bind_ok hq1
      try dsimp only at hq2
      simp only [Except.ok.injEq, Prod.mk.injEq] at hq2
      obtain ⟨h21, h22⟩ := hq2
      subst h21
      subst h22
      obtain ⟨ha2, hsA, hccA, hfrA⟩ := sA3 hs hA2
      subst ha2
      obtain ⟨hr2, hsB, hccB, hfrB⟩ := sB3 hsA hB2
      subst hr2
      exact ⟨rfl, hsB, by omega, hfrB.trans hfrA⟩

theorem inert_addDaSource_foldl (c : String) (das : List String) :
    ∀ st : WSt, inert (das.foldl (fun s d => addDaSource d c s) st) st := by
  induction das with
  | nil => intro st; exact inert_refl st
  | cons d ds ih =>
    intro st
    exact inert_trans (ih (addDaSource d c st)) ⟨⟨rfl, rfl, rfl⟩, rfl, rfl⟩

theorem inert_linkSignalName {c n : String} {st st' : WSt}
    (h : linkSignalName c n st = .ok st') : inert st' st := by
  unfold linkSignalName at h
  cases hl : alookup st.signalMap n with
  | none => rw [hl] at h; simp at h
  | some das =>
    rw [hl] at h
    simp only [Except.ok.injEq] at h
    rw [← h]
    exact inert_addDaSource_foldl c das st

theorem inert_linkSignals {c : String} (ns : List String) :
    ∀ {st st' : WSt}, linkSignals c ns st = .ok st' → inert st' st := by
  induction ns with
  | nil =>
    intro st st' h
    simp only [linkSignals, Except.ok.injEq] at h
    subst h
    exact inert_refl st
  | cons n rest ih =>
    intro st st' h
    simp only [linkSignals] at h
    obtain ⟨stA, hA, h⟩ := except_bind_ok h
    exact inert_trans (ih h) (inert_linkSignalName hA)

theorem inert_linkUnitSTs {b : NeoBlock} {cn un : String} (rs : List (ℕ × ℕ)) :
    ∀ {st st' : WSt}, linkUnitSTs b cn un rs st = .ok st' → inert st' st := by
  induction rs with
  | nil =>
    intro st st' h
    simp only [linkUnitSTs, Except.ok.injEq] at h
    subst h
    exact inert_refl st
  | cons r rest ih =>
    intro st st' h
    simp only [linkUnitSTs] at h
    obtain ⟨strain, hstr, h⟩ := except_bind_ok h
    try dsimp only at h
    obtain ⟨stName, hnm, h⟩ := except_bind_ok h
    try dsimp only at h
    split at h
    · exact inert_trans (ih h) ⟨⟨rfl, rfl, rfl⟩, rfl, rfl⟩
    · simp at h
  
theorem inert_linkUnits {b : NeoBlock} {cn : String} (us : List NeoUnit) :
    ∀ {st st' : WSt}, linkUnits b cn us st = .ok st' → inert st' st := by
  induction us with
  | nil =>
    intro st st' h
    simp only [linkUnits, Except.ok.injEq] at h
    subst h
    exact inert_refl st
  | cons u rest ih =>
    intro st st' h
    simp only [linkUnits] at h
    obtain ⟨unitName, hn, h⟩ := except_bind_ok h
    try dsimp only at h
    cases hfs : findSource st (some cn) unitName with
    | none =>
      rw [hfs] at h
      simp [Bind.bind, Except.bind] at h
    | some s =>
      rw [hfs] at h
      dsimp only at h
      obtain ⟨stP, hP, h⟩ := except_bind_ok h
      simp only [pure, Except.pure, Except.ok.injEq] at hP
      subst hP
      obtain ⟨stQ, hQ, h⟩ := except_bind_ok h
      exact inert_trans (ih h) (inert_linkUnitSTs _ hQ)

theorem inert_linkChx {b : NeoBlock} (cs : List ChannelIndex) :
    ∀ {st st' : WSt}, linkChx b cs st = .ok st' → inert st' st := by
  induction cs with
  | nil =>
    intro st st' h
    simp only [linkChx, Except.ok.injEq] at h
    subst h
    exact inert_refl st
  | cons c rest ih =>
    intro st st' h
    simp only [linkChx] at h
    obtain ⟨chxName, hn, h⟩ := except_bind_ok h
    try dsimp only at h
    cases hfs : findSource st none chxName with
    | none =>
      rw [hfs] at h
      simp [Bind.bind, Except.bind] at h
    | some s =>
      rw [hfs] at h
      dsimp only at h
      obtain ⟨stP, hP, h⟩ := except_bind_ok h
      simp only [pure, Except.pure, Except.ok.injEq] at hP
      subst hP
      obtain ⟨sigNames, hsn, h⟩ := except_bind_ok h
      try dsimp only at h
      obtain ⟨isigNames, hisn, h⟩ := except_bind_ok h
      try dsimp only at h
      obtain ⟨stS, hS, h⟩ := except_bind_ok h
      obtain ⟨stU, hU, h⟩ := except_bind_ok h
      exact inert_trans (ih h) (inert_trans (inert_linkUnits _ hU)
        (inert_linkSignals _ hS))

/-- The body of NixIO.write_block after the identifier has been
    settled: delete-and-recreate the store block, write attributes,
    children and source links. -/
def writeBlockRest (sup : ℕ → String) (b1 : NeoBlock) (nixName : String)
    (fresh1 : ℕ) (f : NixFile) : Except Err (NeoBlock × NixFile) := do
  let (blocks0, secs0) :=
    if f.blocks.any (fun blk => blk.name = nixName) then
      (f.blocks.filter (fun blk => ¬ blk.name = nixName),
       f.secs.filter (fun s => ¬ s.rootName = nixName))
    else (f.blocks, f.secs)
  let mdIdx := f.nextSec
  let blkSec : MDSec := ⟨mdIdx, nixName, "neo.block.metadata", nixName, []⟩
  let blk0 : NixBlock :=
    { name := nixName, typ := "neo.block", mdId := some mdIdx, createdAt := f.clock }
  let st : WSt :=
    { blk := blk0, secs := secs0 ++ [blkSec], nextSec := mdIdx + 1,
      createdCount := f.createdCount, clock := f.clock + 1, fresh := fresh1,
      signalMap := [] }
  let st := stSetNeoName st mdIdx b1.name
  let st := { st with blk := { st.blk with definition := b1.description } }
  let st :=
    match b1.rec_datetime with
    | some t => { st with blk := { st.blk with createdAt := t } }
    | none => st
  let st ← do
    match b1.file_datetime with
    | some _ => .error Err.typeError
    | none => pure st
  let st ← writeAnns mdIdx b1.annotations st
  let (segs1, st) ← writeSegments sup b1.segments st
  let (chxs1, st) ← writeChxs sup b1.channel_indexes st
  let b2 := { b1 with segments := segs1, channel_indexes := chxs1 }
  let st ← linkChx b2 b2.channel_indexes st
  .ok (b2,
    { blocks := blocks0 ++ [st.blk], secs := st.secs, nextSec := st.nextSec,
      createdCount := st.createdCount, clock := st.clock, fresh := st.fresh })

/-- write_block is the ensure-identifier step followed by the common
    rest. -/
theorem writeBlock_decompose (sup : ℕ → String) (b : NeoBlock) (f : NixFile) :
    writeBlock sup b f =
      (match alookup b.annotations "nix_name" with
       | some (.astr n) => writeBlockRest sup b n f.fresh f
       | some (.anum _) => .error Err.typeError
       | some (.aquantS _ _) => .error Err.typeError
       | some (.aquantL _ _) => .error Err.typeError
       | some (.alist _) => .error Err.typeError
       | none =>
         writeBlockRest sup { b with annotations := aset b.annotations "nix_name" (.astr ("neo.block." ++ sup f.fresh)) }
           ("neo.block." ++ sup f.fresh) (f.fresh + 1) f) := by
  unfold writeBlock writeBlockRest
  cases hl : alookup b.annotations "nix_name" with
  | none => rfl
  | some v => cases v <;> rfl

/-- The common rest of write_block: names every child, is a fixpoint on
    fully named blocks, and a second run mirrors the first. -/
theorem writeBlockRest_full {sup : ℕ → String} {bb : NeoBlock} {nm : String}
    {fresh1 : ℕ} {f : NixFile} {b1 : NeoBlock} {f1 : NixFile}
    (hbb : alookup bb.annotations "nix_name" = some (.astr nm))
    (h : writeBlockRest sup bb nm fresh1 f = .ok (b1, f1)) :
    namedBlock b1 = true ∧
    alookup b1.annotations "nix_name" = some (.astr nm) ∧
    (namedBlock bb = true → b1 = bb ∧ f1.fresh = fresh1) ∧
    ∀ {f' : NixFile} {fr' : ℕ} {b2 : NeoBlock} {f2 : NixFile},
      writeBlockRest sup b1 nm fr' f' = .ok (b2, f2) →
      b2 = b1 ∧
      f2.createdCount + f.createdCount = f1.createdCount + f'.createdCount ∧
      f2.fresh = fr' := by
  unfold writeBlockRest at h
  rcases hbs : (if f.blocks.any (fun blk => blk.name = nm) then
      (f.blocks.filter (fun blk => ¬ blk.name = nm),
       f.secs.filter (fun s => ¬ s.rootName = nm))
    else (f.blocks, f.secs)) with ⟨blocks0, secs0⟩
  rw [hbs] at h
  dsimp only at h
  cases hfd : bb.file_datetime with
  | some t =>
    rw [hfd] at h
    simp [Bind.bind, Except.bind] at h
  | none =>
    rw [hfd] at h
    dsimp only at h
    obtain ⟨st0, hst0, h⟩ := except_bind_ok h
    simp only [pure, Except.pure, Except.ok.injEq] at hst0
    have hst0da : daNames st0 = [] := by
      rw [← hst0]
      cases hrd : bb.rec_datetime <;> rfl
    have hst0mt : mtNames st0 = [] := by
      rw [← hst0]
      cases hrd : bb.rec_datetime <;> rfl
    have hst0grp : grpNames st0 = [] := by
      rw [← hst0]
      cases hrd : bb.rec_datetime <;> rfl
    have hst0cc : st0.createdCount = f.createdCount := by
      rw [← hst0]
      cases hrd : bb.rec_datetime <;> rfl
    have hst0fr : st0.fresh = fresh1 := by
      rw [← hst0]
      cases hrd : bb.rec_datetime <;> rfl
    obtain ⟨stA, hA, h⟩ := except_bind_ok h
    have hAi := inert_writeAnns hA
    obtain ⟨⟨segs1, stS⟩, hS, h⟩ := except_bind_ok h
    obtain ⟨S1, S2, S3⟩ := writeSegments_sim _ _ _ _ hS
    dsimp only at h
    obtain ⟨⟨chxs1, stC⟩, hC, h⟩ := except_bind_ok h
    obtain ⟨X1, X2, X3, X4⟩ := writeChxs_ok _ _ _ _ hC
    dsimp only at h
    obtain ⟨stL, hL, h⟩ := except_bind_ok h
    have hLi := inert_linkChx _ hL
    simp only [Except.ok.injEq, Prod.mk.injEq] at h
    obtain ⟨h1, h2⟩ := h
    subst h1
    subst h2
    refine ⟨?_, hbb, ?_, ?_⟩
    · unfold namedBlock
      simp only [Bool.and_eq_true]
      exact ⟨⟨hasNixName_of_alookup hbb, S1⟩, X1⟩
    · intro hn
      unfold namedBlock at hn
      simp only [Bool.and_eq_true] at hn
      obtain ⟨⟨hna, hnseg⟩, hnchx⟩ := hn
      obtain ⟨hfixs, hfrs⟩ := S2 hnseg
      subst hfixs
      obtain ⟨hfixc, hfrc⟩ := X2 hnchx
      subst hfixc
      constructor
      · rw [← hfd]
      · show stL.fresh = fresh1
        rw [hLi.2.2, hfrc, hfrs, hAi.2.2, hst0fr]
    · intro f' fr' b2 f2 h2
      unfold writeBlockRest at h2
      rcases hbs2 : (if f'.blocks.any (fun blk => blk.name = nm) then
          (f'.blocks.filter (fun blk => ¬ blk.name = nm),
           f'.secs.filter (fun s => ¬ s.rootName = nm))
        else (f'.blocks, f'.secs)) with ⟨blocks0₂, secs0₂⟩
      rw [hbs2] at h2
      dsimp only at h2
      obtain ⟨st0₂, hst0₂, hq2⟩ := except_bind_ok h2
      simp only [pure, Except.pure, Except.ok.injEq] at hst0₂
      have hst0₂da : daNames st0₂ = [] := by
        rw [← hst0₂]
        cases hrd : bb.rec_datetime <;> rfl
      have hst0₂mt : mtNames st0₂ = [] := by
        rw [← hst0₂]
        cases hrd : bb.rec_datetime <;> rfl
      have hst0₂grp : grpNames st0₂ = [] := by
        rw [← hst0₂]
        cases hrd : bb.rec_datetime <;> rfl
      have hst0₂cc : st0₂.createdCount = f'.createdCount := by
        rw [← hst0₂]
        cases hrd : bb.rec_datetime <;> rfl
      have hst0₂fr : st0₂.fresh = fr' := by
        rw [← hst0₂]
        cases hrd : bb.rec_datetime <;> rfl
      obtain ⟨stA₂, hA2, hq3⟩ := except_bind_ok hq2
      have hAi₂ := inert_writeAnns hA2
      have hsA : sameNames stA₂ stA := by
        refine sameNames_trans hAi₂.1 (sameNames_trans ⟨?_, ?_, ?_⟩
          (sameNames_symm hAi.1))
        · rw [hst0₂da, hst0da]
        · rw [hst0₂mt, hst0mt]
        · rw [hst0₂grp, hst0grp]
      obtain ⟨⟨segs2, stS₂⟩, hS2, hq4⟩ := except_bind_ok hq3
      obtain ⟨rfl, hsS, hccS, hfrS⟩ := S3 hsA hS2
      dsimp only at hq4
      obtain ⟨⟨chxs2, stC₂⟩, hC2, hq5⟩ := except_bind_ok hq4
      obtain ⟨Y1, Y2, Y3, Y4⟩ := writeChxs_ok _ _ _ _ hC2
      obtain ⟨hfixc2, hfrc2⟩ := Y2 X1
      subst hfixc2
      dsimp only at hq5
      obtain ⟨stL₂, hL2, hq6⟩ := except_bind_ok hq5
      have hLi₂ := inert_linkChx _ hL2
      simp only [Except.ok.injEq, Prod.mk.injEq] at hq6
      obtain ⟨h21, h22⟩ := hq6
      subst h21
      subst h22
      refine ⟨rfl, ?_, ?_⟩
      · show stL₂.createdCount + f.createdCount = stL.createdCount + f'.createdCount
        have hc1 := hLi.2.1
        have hc2 := hLi₂.2.1
        have hc3 := X4
        have hc4 := Y4
        have hc5 := hAi.2.1
        have hc6 := hAi₂.2.1
        have hc7 := hst0cc
        have hc8 := hst0₂cc
        omega
      · show stL₂.fresh = fr'
        rw [hLi₂.2.2, hfrc2, hfrS, hAi₂.2.2, hst0₂fr]

/-- NixIO.write_block, across two calls: the first write names every
    entity; writing the returned block again reproduces the same block
    object, creates exactly as many bulk arrays as the first write, and
    consumes no fresh identifier. -/
theorem writeBlock_full {sup : ℕ → String} {b : NeoBlock} {f : NixFile}
    {b1 : NeoBlock} {f1 : NixFile}
    (h : writeBlock sup b f = .ok (b1, f1)) :
    namedBlock b1 = true ∧
    (namedBlock b = true → b1 = b ∧ f1.fresh = f.fresh) ∧
    ∀ {f' : NixFile} {b2 : NeoBlock} {f2 : NixFile},
      writeBlock sup b1 f' = .ok (b2, f2) →
      b2 = b1 ∧
      f2.createdCount + f.createdCount = f1.createdCount + f'.createdCount ∧
      f2.fresh = f'.fresh := by
  rw [writeBlock_decompose] at h
  cases hl : alookup b.annotations "nix_name" with
  | none =>
    rw [hl] at h
    dsimp only at h
    obtain ⟨core1, core2, core3, core4⟩ :=
      writeBlockRest_full (alookup_aset_self _ _ _) h
    refine ⟨core1, ?_, ?_⟩
    · intro hn
      unfold namedBlock at hn
      simp only [Bool.and_eq_true] at hn
      simp [hasNixName, hl] at hn
    · intro f' b2 f2 h2
      rw [writeBlock_decompose] at h2
      rw [core2] at h2
      dsimp only at h2
      exact core4 h2
  | some v =>
    cases v with
    | astr n =>
      rw [hl] at h
      dsimp only at h
      obtain ⟨core1, core2, core3, core4⟩ := writeBlockRest_full hl h
      refine ⟨core1, ?_, ?_⟩
      · intro hn
        exact core3 hn
      · intro f' b2 f2 h2
        rw [writeBlock_decompose] at h2
        rw [core2] at h2
        dsimp only at h2
        exact core4 h2
    | anum q => rw [hl] at h; simp at h
    | aquantS m u => rw [hl] at h; simp at h
    | aquantL ms u => rw [hl] at h; simp at h
    | alist items => rw [hl] at h; simp at h

def c4sig : AnalogSignal :=
  { name := some "sig4", signal := ⟨[[1, 2], [3, 4]], "mV"⟩,
    sampling_period := ⟨1, "s"⟩, t_start := ⟨0, "s"⟩ }

def c4seg : NeoSegment := { name := some "seg4", analogsignals := [c4sig] }

def c4blk : NeoBlock := { name := some "blk4", segments := [c4seg] }

def c4out : NeoBlock :=
  match writeBlock sup0 c4blk {} with
  | .ok p => p.1
  | .error _ => c4blk

def c4file1 : NixFile :=
  match writeBlock sup0 c4blk {} with
  | .ok p => p.2
  | .error _ => {}

/-- C4: write_block attaches the nix_name identifier to every entity of
    the block at its first successful write (the returned graph is fully
    named), and any later write of that returned graph reuses the
    attached identifiers: it returns the identical graph and leaves the
    identifier supply untouched, so no identifier is ever generated a
    second time. -/
theorem nix_name_assigned_once {sup : ℕ → String} {b : NeoBlock} {f : NixFile}
    {b1 : NeoBlock} {f1 : NixFile}
    (h : writeBlock sup b f = .ok (b1, f1)) :
    namedBlock b1 = true ∧
    ∀ {f' : NixFile} {b2 : NeoBlock} {f2 : NixFile},
      writeBlock sup b1 f' = .ok (b2, f2) →
      b2 = b1 ∧ f2.fresh = f'.fresh := by
  obtain ⟨k1, k2, k3⟩ := writeBlock_full h
  exact ⟨k1, fun h2 => ⟨(k3 h2).1, (k3 h2).2.2⟩⟩

theorem nix_name_assigned_once_witness :
    writeBlock sup0 c4blk {} = .ok (c4out, c4file1) ∧ namedBlock c4out = true :=
  ⟨rfl,
    (nix_name_assigned_once
      (show writeBlock sup0 c4blk {} = .ok (c4out, c4file1) from rfl)).1⟩

def c2sig : AnalogSignal :=
  { name := some "sig2", signal := ⟨[[1, 2], [3, 4]], "mV"⟩,
    sampling_period := ⟨1, "s"⟩, t_start := ⟨0, "s"⟩ }

def c2seg : NeoSegment := { name := some "seg2", analogsignals := [c2sig] }

def c2blk : NeoBlock := { name := some "blk2", segments := [c2seg] }

def c2out : NeoBlock :=
  match writeBlock sup0 c2blk {} with
  | .ok p => p.1
  | .error _ => c2blk

def c2file1 : NixFile :=
  match writeBlock sup0 c2blk {} with
  | .ok p => p.2
  | .error _ => {}

def c2out2 : NeoBlock :=
  match writeBlock sup0 c2out c2file1 with
  | .ok p => p.1
  | .error _ => c2blk

def c2file2 : NixFile :=
  match writeBlock sup0 c2out c2file1 with
  | .ok p => p.2
  | .error _ => {}

/-- C2: writing an unmodified graph a second time does not reuse the
    stored bulk arrays: write_block deletes the existing store block
    and recreates everything, so the second write creates exactly as
    many new bulk-array nodes as the first write did (the creation
    deltas of the two writes are equal), while the graph object itself
    comes back unchanged. -/
theorem rewrite_recreates_bulk_arrays {sup : ℕ → String} {b : NeoBlock}
    {f : NixFile} {b1 : NeoBlock} {f1 : NixFile} {b2 : NeoBlock} {f2 : NixFile}
    (h1 : writeBlock sup b f = .ok (b1, f1))
    (h2 : writeBlock sup b1 f1 = .ok (b2, f2)) :
    b2 = b1 ∧
    f2.createdCount + f.createdCount = f1.createdCount + f1.createdCount := by
  obtain ⟨k1, k2, k3⟩ := writeBlock_full h1
  obtain ⟨e1, e2, e3⟩ := k3 h2
  exact ⟨e1, e2⟩

theorem rewrite_recreates_bulk_arrays_witness :
    writeBlock sup0 c2blk {} = .ok (c2out, c2file1) ∧
    writeBlock sup0 c2out c2file1 = .ok (c2out2, c2file2) ∧
    (c2out2 = c2out ∧
      c2file2.createdCount + ({} : NixFile).createdCount =
        c2file1.createdCount + c2file1.createdCount) :=
  ⟨rfl, rfl,
    rewrite_recreates_bulk_arrays
      (show writeBlock sup0 c2blk {} = .ok (c2out, c2file1) from rfl)
      (show writeBlock sup0 c2out c2file1 = .ok (c2out2, c2file2) from rfl)⟩

/-- C2 counterexample: with a single 2-channel analog signal, the first
    write creates two bulk arrays and the unmodified second write
    creates two more (four in total), not zero. -/
theorem second_write_creates_new_arrays :
    c2file1.createdCount = 2 ∧ c2file2.createdCount = 4 :=
  ⟨rfl, rfl⟩

def c6sig (g : ℕ → ℕ → ℚ) : AnalogSignal :=
  { name := some "sig6",
    signal := ⟨(List.range 100).map (fun i => [g i 0, g i 1]), "mV"⟩,
    sampling_period := ⟨1/2, "s"⟩, t_start := ⟨1, "s"⟩ }

def c6seg (g : ℕ → ℕ → ℚ) : NeoSegment :=
  { name := some "seg6", analogsignals := [c6sig g] }

def c6blk (g : ℕ → ℕ → ℚ) : NeoBlock :=
  { name := some "blk6", segments := [c6seg g] }

/-- C6: writing a regular signal with 2 channels and 100 samples
    (sampling interval 0.5 s, start time 1.0 s, arbitrary sample values
    g i j) and reading it back yields a signal whose 100-by-2 sample
    matrix equals the original element for element, with the original
    unit, a reconstructed start time of 1.0 s and the sampling interval
    0.5 s. -/
theorem analog_signal_roundtrip_preserves_data (g : ℕ → ℕ → ℚ) :
    (roundTrip sup0 (c6blk g)).map (fun nb =>
      nb.segments.map (fun s : NeoSegment => s.analogsignals.map
        (fun a : AnalogSignal =>
          (a.signal.mags, a.signal.unit, a.t_start, a.sampling_period)))) =
      some [[((List.range 100).map (fun i => [g i 0, g i 1]), "mV",
        (⟨1, "s"⟩ : Quantity1), (⟨1/2, "s"⟩ : Quantity1))]] := rfl
